import Mathlib

/-! MiroMind executor: stream decoder, tag splitting, usage accounting, error normalisation.

A shallow embedding of `internal/runtime/executor/miromind_executor.go`.

Conventions.

* A Go `string` is a byte sequence.  It is modelled by a `String`, read one character per
  byte; for ASCII text (all the literals of the program) the two coincide, and every theorem
  below holds for all `String`s.  `len`, slicing and `strings.Index` act on `String.data`.
* Library code that is not part of the repository (`gjson`, `bufio.Scanner`, the JSON string
  escaping of `encoding/json`, `strings.TrimSpace`) is a parameter, collected in `Lib`; the
  theorems hold for every `Lib`.  The bound the program sets on the length of a line of the
  response body is modelled by `scannedLines`.
* `int64` values are `Int`s kept in range with `wrapInt64`.
* The goroutine of `ExecuteStream` writes to a channel and calls the usage reporter; its
  observable behaviour is the list of `Effect`s in program order.
-/

namespace MiroMind

/-! ## Go strings -/

/-- Go `len(s)`. -/
def len (s : String) : Nat := s.data.length

/-- Go `s[:n]`. -/
def sliceTo (s : String) (n : Nat) : String := ⟨s.data.take n⟩

/-- Go `s[n:]`. -/
def sliceFrom (s : String) (n : Nat) : String := ⟨s.data.drop n⟩

/-- Go `strings.HasPrefix`. -/
def HasPrefix (s pre : String) : Bool := pre.data.isPrefixOf s.data

/-- Go `strings.TrimPrefix`. -/
def TrimPrefix (s pre : String) : String :=
  if HasPrefix s pre then sliceFrom s (len pre) else s

/-- Position of the first occurrence of `sub` in `s`, counted from `i`; `-1` when there is none. -/
def indexFrom (sub : List Char) : List Char → Nat → Int
  | [], i => if sub.isPrefixOf [] then (i : Int) else -1
  | c :: cs, i => if sub.isPrefixOf (c :: cs) then (i : Int) else indexFrom sub cs (i + 1)

/-- Go `strings.Index`. -/
def Index (s substr : String) : Int := indexFrom substr.data s.data 0

/-- Go `strings.Contains`. -/
def Contains (s substr : String) : Bool := decide (Index s substr ≥ 0)

/-! ## The `<think>` tag-splitting loop (lines 363-406) -/

/-- The variables of the loop: `remaining`, `toContent`, `toReasoning`, `inThinking`. -/
structure SplitState where
  remaining : String
  toContent : String
  toReasoning : String
  inThinking : Bool
deriving DecidableEq, Repr

/-- One iteration of the body of `for len(remaining) > 0`. -/
def thinkStep (st : SplitState) : SplitState :=
  if !st.inThinking then
    let idx := Index st.remaining "<think>"
    if idx ≥ 0 then
      let toContent := st.toContent ++ sliceTo st.remaining idx.toNat
      let remaining :=
        if len st.remaining > idx.toNat + 7 then sliceFrom st.remaining (idx.toNat + 7) else ""
      let remaining := if HasPrefix remaining "\n" then sliceFrom remaining 1 else remaining
      { remaining := remaining, toContent := toContent,
        toReasoning := st.toReasoning, inThinking := true }
    else
      { remaining := "", toContent := st.toContent ++ st.remaining,
        toReasoning := st.toReasoning, inThinking := st.inThinking }
  else
    let idx := Index st.remaining "</think>"
    if idx ≥ 0 then
      let toReasoning := st.toReasoning ++ sliceTo st.remaining idx.toNat
      let remaining :=
        if len st.remaining > idx.toNat + 8 then sliceFrom st.remaining (idx.toNat + 8) else ""
      { remaining := remaining, toContent := st.toContent,
        toReasoning := toReasoning, inThinking := false }
    else
      { remaining := "", toContent := st.toContent,
        toReasoning := st.toReasoning ++ st.remaining, inThinking := st.inThinking }

/-- The loop `for len(remaining) > 0 { ... }`, run for at most `fuel` iterations. -/
def thinkLoopFuel : Nat → SplitState → SplitState
  | 0, st => st
  | fuel + 1, st => if len st.remaining > 0 then thinkLoopFuel fuel (thinkStep st) else st

/-- The loop `for len(remaining) > 0 { ... }`.  Every iteration shortens `remaining`
(`thinkStep_len_lt`), so `len remaining` iterations are enough (`thinkLoop_remaining`,
`thinkLoopFuel_eq_thinkLoop`). -/
def thinkLoop (st : SplitState) : SplitState := thinkLoopFuel (len st.remaining) st

/-- The tag-splitting algorithm on one fragment `deltaText`, entered with the flag
`inThinking`: the pair of outputs `(toContent, toReasoning)` and the flag afterwards. -/
def tagSplit (inThinking : Bool) (deltaText : String) : String × String × Bool :=
  let st := thinkLoop { remaining := deltaText, toContent := "", toReasoning := "",
                        inThinking := inThinking }
  (st.toContent, st.toReasoning, st.inThinking)

/-! ## Library functions taken as parameters -/

/-- The library functions the executor calls, none of them part of the repository. -/
structure Lib where
  /-- `gjson.Valid(json)`. -/
  Valid : String → Bool
  /-- `gjson.Get(json, path).String()`; the empty string when the path does not exist. -/
  GetString : String → String → String
  /-- `gjson.Get(json, path).Int()`, an `int64`; zero when the path does not exist. -/
  GetInt : String → String → Int
  /-- The lines `bufio.Scanner.Scan` yields for a response body, until it returns false
  (end of input, a read error, or a line over the 10 MiB buffer limit). -/
  ScanLines : String → List String
  /-- `strings.TrimSpace`. -/
  TrimSpace : String → String
  /-- The JSON string literal `encoding/json` writes for a Go string, with HTML escaping off. -/
  Quote : String → String

/-! ## Chunks, usage and the effects of the decoding goroutine -/

/-- Signed 64-bit wrap-around: the value an `int64` holds after an arithmetic operation
whose exact result is `x`. -/
def wrapInt64 (x : Int) : Int := (x + 9223372036854775808) % 18446744073709551616 - 9223372036854775808

/-- The fields of `usage.Detail` that the executor sets. -/
structure UsageDetail where
  InputTokens : Int
  OutputTokens : Int
  TotalTokens : Int
deriving DecidableEq, Repr

/-- The parts of a `chat.completion.chunk` map that vary within a stream:
`choices[0].delta` (a `map[string]string`, entries in key order) and
`choices[0].finish_reason` (`nil` or a string).  `id`, `created`, `model`, `object` and
`index` are the same for all chunks of a stream, see `StreamIds` and `encodeChunk`. -/
structure Chunk where
  delta : List (String × String)
  finish_reason : Option String
deriving DecidableEq, Repr

/-- What the goroutine started by `ExecuteStream` does, in program order. -/
inductive Effect where
  /-- `out <- StreamChunk{Payload: ...}` with the encoding of the chunk. -/
  | send (c : Chunk)
  /-- `reporter.publish(ctx, detail)`. -/
  | publish (d : UsageDetail)
deriving DecidableEq, Repr

/-- The closure `sendChunk(content, reasoning, finishReason)` (lines 266-299). -/
def sendChunk (content reasoning finishReason : String) : Effect :=
  .send { delta := (if content ≠ "" then [("content", content)] else []) ++
                   (if reasoning ≠ "" then [("reasoning_content", reasoning)] else []),
          finish_reason := if finishReason ≠ "" then some finishReason else none }

/-- The map `initialChunk` (lines 302-316). -/
def initialChunk : Chunk := { delta := [("role", "assistant")], finish_reason := none }

/-- The value of `key` in a delta map, `""` (the zero value) when absent. -/
def deltaGet (c : Chunk) (key : String) : String :=
  match c.delta.lookup key with
  | some v => v
  | none => ""

/-- Whether the delta map has an entry for `key`. -/
def deltaHas (c : Chunk) (key : String) : Bool := (c.delta.lookup key).isSome

/-- The chunks sent on the channel, in order. -/
def chunksOf : List Effect → List Chunk
  | [] => []
  | .send c :: es => c :: chunksOf es
  | .publish _ :: es => chunksOf es

/-- The usage details published, in order. -/
def publishedOf : List Effect → List UsageDetail
  | [] => []
  | .send _ :: es => publishedOf es
  | .publish d :: es => d :: publishedOf es

/-! ## The scan loop of `ExecuteStream` (lines 323-431) -/

/-- The variables of the goroutine that outlive one line: `inThinking`, `currentEvent`,
`totalPromptTokens`, `totalCompletionTokens`. -/
structure DecoderState where
  inThinking : Bool
  currentEvent : String
  totalPromptTokens : Int
  totalCompletionTokens : Int
deriving DecidableEq, Repr

/-- The state at lines 323-325. -/
def DecoderState.init : DecoderState :=
  { inThinking := false, currentEvent := "", totalPromptTokens := 0, totalCompletionTokens := 0 }

/-- The statement `switch currentEvent` (lines 349-430) on a payload `dataStr` that passed
`gjson.Valid`: `none` is `goto streamDone`, `some (st, out)` is the state and the effects
with which the scan loop goes on. -/
def dispatchEvent (L : Lib) (st : DecoderState) (dataStr : String) :
    Option (DecoderState × List Effect) :=
  if st.currentEvent = "message" then
    let content := L.GetString dataStr "delta.content"
    if content ≠ "" then some (st, [sendChunk content "" ""]) else some (st, [])
  else if st.currentEvent = "tool_call" then
    let toolName := L.GetString dataStr "tool_name"
    if toolName = "show_text" then
      let deltaText := L.GetString dataStr "delta_input.text"
      if deltaText ≠ "" then
        let r := tagSplit st.inThinking deltaText
        let toContent := r.1
        let toReasoning := r.2.1
        some ({ st with inThinking := r.2.2 },
              if toContent ≠ "" ∨ toReasoning ≠ "" then [sendChunk toContent toReasoning ""]
              else [])
      else some (st, [])
    else some (st, [])
  else if st.currentEvent = "usage_info" then
    let scene := L.GetString dataStr "scene"
    if scene = "main_agent_end" ∨ scene = "summary_llm_end" then
      let pt := L.GetInt dataStr "usage.total_prompt_tokens"
      let ct := L.GetInt dataStr "usage.total_completion_tokens"
      some ({ st with totalPromptTokens := wrapInt64 (st.totalPromptTokens + pt),
                      totalCompletionTokens := wrapInt64 (st.totalCompletionTokens + ct) }, [])
    else some (st, [])
  else if st.currentEvent = "done" ∨ st.currentEvent = "end_of_workflow" then
    none
  else
    some (st, [])

/-- The body of `for scanner.Scan()` on the line `text` (lines 328-430): `none` is
`goto streamDone`, `some (st, out)` is the state and the effects with which the loop goes on. -/
def processLine (L : Lib) (st : DecoderState) (text : String) :
    Option (DecoderState × List Effect) :=
  if HasPrefix text "event: " then
    some ({ st with currentEvent := TrimPrefix text "event: " }, [])
  else if !HasPrefix text "data: " then
    some (st, [])
  else
    let dataStr := TrimPrefix text "data: "
    if !L.Valid dataStr then some (st, [])
    else dispatchEvent L st dataStr

/-- The loop `for scanner.Scan()` over the lines the scanner yields: the state on reaching
`streamDone` and the effects up to there. -/
def scanLoop (L : Lib) : List String → DecoderState → DecoderState × List Effect
  | [], st => (st, [])
  | text :: rest, st =>
    match processLine L st text with
    | none => (st, [])
    | some (st1, out) => ((scanLoop L rest st1).1, out ++ (scanLoop L rest st1).2)

/-- The code after the label `streamDone` (lines 433-442). -/
def streamDone (st : DecoderState) : List Effect :=
  (if st.totalPromptTokens > 0 ∨ st.totalCompletionTokens > 0 then
    [Effect.publish { InputTokens := st.totalPromptTokens,
                      OutputTokens := st.totalCompletionTokens,
                      TotalTokens := wrapInt64 (st.totalPromptTokens + st.totalCompletionTokens) }]
   else []) ++ [sendChunk "" "" "stop"]

/-- The decoder state on reaching `streamDone`. -/
def finalState (L : Lib) (lines : List String) : DecoderState :=
  (scanLoop L lines DecoderState.init).1

/-- The goroutine of `ExecuteStream` (lines 255-443) on the lines of the response body. -/
def runDecoder (L : Lib) (lines : List String) : List Effect :=
  Effect.send initialChunk :: ((scanLoop L lines DecoderState.init).2 ++
    streamDone (finalState L lines))

/-! ## The scanner of `ExecuteStream` (lines 260-261 and 327) -/

/-- The largest size the buffer of the scanner may grow to, and so the bound on the length of
a line, given to `scanner.Buffer` at line 261. -/
def maxTokenSize : Nat := 10 * 1024 * 1024

/-- The function `dropCR` of `bufio`, applied by the split function `ScanLines` to each line:
a carriage return that ends the line is dropped. -/
def dropCR (line : String) : String :=
  if line.data.getLast? = some '\r' then ⟨line.data.dropLast⟩ else line

/-- The texts `scanner.Bytes()` holds in the successive rounds of the loop `for scanner.Scan()`
(line 327), for a response body made of the lines `upstream`, each followed by a newline.
A line fits the buffer together with its newline when it has fewer than `maxTokenSize` bytes;
on the first line that does not, `Scan` returns false (`bufio.ErrTooLong`) and the loop ends,
as it does at the end of the body. -/
def scannedLines (upstream : List String) : List String :=
  (upstream.takeWhile (fun line => decide (len line < maxTokenSize))).map dropCR

/-! ## `ExecuteStream` after the HTTP call, and `Execute` -/

/-- The status code and the body of the upstream response. -/
structure HttpResponse where
  StatusCode : Int
  Body : String

/-- The Go type `statusErr`. -/
structure statusErr where
  code : Int
  msg : String
deriving DecidableEq, Repr

/-- The errors `ExecuteStream` and `Execute` return. -/
inductive ExecError where
  /-- Building the request or the HTTP call failed (lines 192-227). -/
  | setup (msg : String)
  /-- The upstream answered with a status other than 200 (lines 231-250). -/
  | status (e : statusErr)
  /-- A chunk read from the channel carried an error (line 141). -/
  | chunk (msg : String)
deriving DecidableEq, Repr

/-- The message of the `statusErr` built from the body `b` (lines 236-246). -/
def upstreamErrMsg (L : Lib) (b : String) : String :=
  if L.Valid b then
    if L.GetString b "error.message" ≠ "" then L.GetString b "error.message"
    else if L.GetString b "message" ≠ "" then L.GetString b "message"
    else if L.GetString b "detail" ≠ "" then L.GetString b "detail"
    else b
  else b

/-- `ExecuteStream` from line 192 on.  `upstream` is the outcome of building the request and
of the HTTP call: an error, or the response.  The result is the synchronous error, or the
behaviour of the goroutine that feeds the returned channel. -/
def ExecuteStream (L : Lib) (upstream : Except String HttpResponse) :
    Except ExecError (List Effect) :=
  match upstream with
  | .error e => .error (.setup e)
  | .ok resp =>
    if resp.StatusCode ≠ 200 then
      .error (.status { code := resp.StatusCode, msg := upstreamErrMsg L resp.Body })
    else
      .ok (runDecoder L (L.ScanLines resp.Body))

/-- The values fixed at the start of a stream: `id`, `created`, `baseModel`. -/
structure StreamIds where
  id : String
  created : Int
  model : String

/-- The text `json.Encoder.Encode` writes for a chunk map (keys in sorted order), after
`bytes.TrimSpace`: the payload sent on the channel,
`{"choices":[{"delta":{...},"finish_reason":...,"index":0}],"created":...,"id":...,"model":...,"object":...}`. -/
def encodeChunk (L : Lib) (ids : StreamIds) (c : Chunk) : String :=
  "\x7b\"choices\":[\x7b\"delta\":\x7b" ++
    String.intercalate "," (c.delta.map (fun kv => L.Quote kv.1 ++ ":" ++ L.Quote kv.2)) ++
    "\x7d,\"finish_reason\":" ++
    (match c.finish_reason with
     | none => "null"
     | some r => L.Quote r) ++
    ",\"index\":0\x7d],\"created\":" ++ toString ids.created ++
    ",\"id\":" ++ L.Quote ids.id ++
    ",\"model\":" ++ L.Quote ids.model ++
    ",\"object\":" ++ L.Quote "chat.completion.chunk" ++ "\x7d"

/-- The Go type `StreamChunk`. -/
structure StreamChunk where
  Payload : String
  Err : Option String

/-- The chunks read from the channel that `ExecuteStream` returns. -/
def channelOf (L : Lib) (ids : StreamIds) (effects : List Effect) : List StreamChunk :=
  (chunksOf effects).map (fun c => { Payload := encodeChunk L ids c, Err := none })

/-- The loop `for chunk := range stream` of `Execute` (lines 140-157); `acc` is the
content written to `contentBuilder` so far. -/
def drainStream (L : Lib) : List StreamChunk → String → Except ExecError String
  | [], acc => .ok acc
  | chunk :: rest, acc =>
    match chunk.Err with
    | some e => .error (.chunk e)
    | none =>
      let line := chunk.Payload
      if !HasPrefix line "data: " then drainStream L rest acc
      else
        let data := TrimPrefix line "data: "
        if L.TrimSpace data = "[DONE]" then .ok acc
        else drainStream L rest (acc ++ L.GetString data "choices.0.delta.content")

/-- `Execute` (lines 132-179): the `content` of the message of the response it builds,
or the error it returns. -/
def Execute (L : Lib) (ids : StreamIds) (upstream : Except String HttpResponse) :
    Except ExecError String :=
  match ExecuteStream L upstream with
  | .error e => .error e
  | .ok effects => drainStream L (channelOf L ids effects) ""

/-! ## A concrete `Lib` for evaluating the model on examples -/

/-- The text of a JSON string without characters to escape. -/
def jStr (s : String) : String := "\"" ++ s ++ "\""

/-- The text of a JSON object with the given keys and value texts. -/
def jObj (fields : List (String × String)) : String :=
  "\x7b" ++ String.intercalate "," (fields.map (fun kv => jStr kv.1 ++ ":" ++ kv.2)) ++ "\x7d"

/-- The payload of a `message` event with the content delta `c`: `{"delta":{"content":"c"}}`. -/
def msgDoc (c : String) : String := jObj [("delta", jObj [("content", jStr c)])]

/-- The payload of a `usage_info` event:
`{"scene":"...","usage":{"total_prompt_tokens":p,"total_completion_tokens":c}}`. -/
def usageDoc (scene : String) (p c : Nat) : String :=
  jObj [("scene", jStr scene),
        ("usage", jObj [("total_prompt_tokens", toString p), ("total_completion_tokens", toString c)])]

/-- The JSON documents of the examples: for each, the string-valued and the integer-valued
answers of `gjson` to the paths the executor asks for (every other path is absent). -/
def sampleDocs : List (String × List (String × String) × List (String × Int)) :=
  [ (msgDoc "Hel", [("delta.content", "Hel")], []),
    (msgDoc "lo", [("delta.content", "lo")], []),
    (jObj [("delta", jObj [])], [], []),
    (jObj [], [], []),
    (usageDoc "main_agent_end" 5 10, [("scene", "main_agent_end")],
      [("usage.total_prompt_tokens", 5), ("usage.total_completion_tokens", 10)]),
    (usageDoc "main_agent_end" 3 2, [("scene", "main_agent_end")],
      [("usage.total_prompt_tokens", 3), ("usage.total_completion_tokens", 2)]),
    (usageDoc "main_agent_end" 4611686018427387904 1, [("scene", "main_agent_end")],
      [("usage.total_prompt_tokens", 4611686018427387904), ("usage.total_completion_tokens", 1)]),
    (usageDoc "summary_llm_end" 4611686018427387904 4611686018427387904,
      [("scene", "summary_llm_end")],
      [("usage.total_prompt_tokens", 4611686018427387904),
       ("usage.total_completion_tokens", 4611686018427387904)]),
    (jObj [("error", jObj [("message", jStr "rate limited")])],
      [("error.message", "rate limited")], []) ]

/-- Lines of a body: split at `\n`, a `\r` before it dropped, a last line without `\n` kept
when it is not empty (`bufio.ScanLines`, without the length limit). -/
def sampleScanLines : List Char → List Char → List String
  | [], cur => if cur = [] then [] else [⟨(if cur.head? = some '\r' then cur.tail else cur).reverse⟩]
  | c :: cs, cur =>
    if c = '\n' then
      ⟨(if cur.head? = some '\r' then cur.tail else cur).reverse⟩ :: sampleScanLines cs []
    else sampleScanLines cs (c :: cur)

/-- A `Lib` that answers as the libraries do on the documents of `sampleDocs` and on plain
ASCII text: a document is valid when listed, a path yields its listed value, the zero value
otherwise; `TrimSpace` removes ASCII white space; `Quote` escapes the quote and the backslash. -/
def sampleLib : Lib where
  Valid json := (sampleDocs.lookup json).isSome
  GetString json path :=
    match sampleDocs.lookup json with
    | some d => (d.1.lookup path).getD ""
    | none => ""
  GetInt json path :=
    match sampleDocs.lookup json with
    | some d => (d.2.lookup path).getD 0
    | none => 0
  ScanLines body := sampleScanLines body.data []
  TrimSpace s :=
    ⟨((s.data.dropWhile (fun c => c = ' ' ∨ c = '\n' ∨ c = '\r' ∨ c = '\t')).reverse.dropWhile
        (fun c => c = ' ' ∨ c = '\n' ∨ c = '\r' ∨ c = '\t')).reverse⟩
  Quote s :=
    ⟨'"' :: (s.data.flatMap (fun c => if c = '"' ∨ c = '\\' then ['\\', c] else [c])) ++ ['"']⟩

/-- The ids used in the examples. -/
def sampleIds : StreamIds := { id := "chatcmpl-1", created := 1700000000, model := "miromind-pro" }

/-! ## Notions used to state the properties -/

/-- A line the decoder skips: it starts with neither `event: ` nor `data: `, or it is a
`data: ` line whose payload is not valid JSON. -/
def skippedLine (L : Lib) (text : String) : Bool :=
  (!HasPrefix text "event: " && !HasPrefix text "data: ") ||
  (HasPrefix text "data: " && !L.Valid (TrimPrefix text "data: "))

/-- The terminal chunk: an empty delta and the finish reason `stop`. -/
def stopChunk : Chunk := { delta := [], finish_reason := some "stop" }

/-- A chunk that carries only the content delta `c`. -/
def contentChunk (c : String) : Chunk := { delta := [("content", c)], finish_reason := none }

/-- The events of an upstream stream read with the sticky event type `cur`: for every
`data: ` line with a valid payload, the event type in force and the payload. -/
def eventsOf (L : Lib) : String → List String → List (String × String)
  | _, [] => []
  | cur, text :: rest =>
    if HasPrefix text "event: " then eventsOf L (TrimPrefix text "event: ") rest
    else if HasPrefix text "data: " && L.Valid (TrimPrefix text "data: ") then
      (cur, TrimPrefix text "data: ") :: eventsOf L cur rest
    else eventsOf L cur rest

/-- An event of type `done` or `end_of_workflow`. -/
def isTerminalEvent (e : String × String) : Bool := e.1 = "done" || e.1 = "end_of_workflow"

/-- The events processed before termination: those before the first terminal event. -/
def processedEvents (L : Lib) (lines : List String) : List (String × String) :=
  (eventsOf L "" lines).takeWhile (fun e => !isTerminalEvent e)

/-- A `usage_info` event whose scene is one of the two terminal scene labels. -/
def isQualifyingUsage (L : Lib) (e : String × String) : Bool :=
  e.1 = "usage_info" &&
    (L.GetString e.2 "scene" = "main_agent_end" || L.GetString e.2 "scene" = "summary_llm_end")

/-- The exact sum of the field `path` over the qualifying usage events among `evs`. -/
def usageSum (L : Lib) (path : String) (evs : List (String × String)) : Int :=
  ((evs.filter (isQualifyingUsage L)).map (fun e => L.GetInt e.2 path)).sum

/-- A value in the range of `int64`. -/
def inInt64 (x : Int) : Prop := -9223372036854775808 ≤ x ∧ x < 9223372036854775808

/-- The first non-empty value of a list, `dflt` when there is none. -/
def firstNonEmpty : List String → String → String
  | [], dflt => dflt
  | v :: vs, dflt => if v ≠ "" then v else firstNonEmpty vs dflt

/-- The values of the JSON fields `error.message`, `message`, `detail` of a body, in this
order; a body that is not JSON has no fields. -/
def errorFields (L : Lib) (b : String) : List String :=
  if L.Valid b then [L.GetString b "error.message", L.GetString b "message", L.GetString b "detail"]
  else []

/-! ## Example streams -/

/-- A response body: two `message` events with the content deltas `Hel` and `lo`, then `done`. -/
def helloBody : String :=
  "event: message\ndata: " ++ msgDoc "Hel" ++ "\n\ndata: " ++ msgDoc "lo" ++
    "\n\nevent: done\ndata: " ++ jObj [] ++ "\n\n"

/-- Two `usage_info` events with scene `main_agent_end` carrying (5, 10) and (3, 2). -/
def usageLines : List String :=
  ["event: usage_info", "data: " ++ usageDoc "main_agent_end" 5 10, "",
   "event: usage_info", "data: " ++ usageDoc "main_agent_end" 3 2, "",
   "event: done", "data: " ++ jObj []]

/-- Two `usage_info` events with scene `main_agent_end`, each carrying 2^62 prompt tokens. -/
def promptOverflowLines : List String :=
  ["event: usage_info", "data: " ++ usageDoc "main_agent_end" 4611686018427387904 1,
   "data: " ++ usageDoc "main_agent_end" 4611686018427387904 1]

/-- One `usage_info` event with scene `summary_llm_end` carrying 2^62 prompt tokens and 2^62
completion tokens. -/
def totalOverflowLines : List String :=
  ["event: usage_info",
   "data: " ++ usageDoc "summary_llm_end" 4611686018427387904 4611686018427387904]

/-- A text of `maxTokenSize` bytes, each the letter `x`. -/
def oversizeText : String := ⟨List.replicate maxTokenSize 'x'⟩

/-- A `Lib` that answers as `sampleLib` and, on the payload of a `message` event whose content
delta is `oversizeText`, as `gjson` does: the payload is valid and its `delta.content` is
`oversizeText`. -/
def oversizeLib : Lib :=
  { sampleLib with
    Valid := fun json => decide (json = msgDoc oversizeText) || sampleLib.Valid json
    GetString := fun json path =>
      if json = msgDoc oversizeText then (if path = "delta.content" then oversizeText else "")
      else sampleLib.GetString json path }

/-! ## More Go strings: `strings.ToLower` and `strings.Split` -/

/-- Go `strings.ToLower` on the ASCII letters; other bytes are left as they are.  The program
applies it once, to test for the ASCII word `fast`: the bytes that `strings.ToLower` gives for
text outside ASCII are never ASCII letters of that word, so the test has the same outcome. -/
def ToLower (s : String) : String := ⟨s.data.map Char.toLower⟩

/-- The loop of Go `strings.Split(s, sep)` for a non-empty separator, run for at most `fuel`
cuts: cut at the first occurrence of `sep`, go on with the text after it. -/
def splitFuel : Nat → String → String → List String
  | 0, s, _ => [s]
  | fuel + 1, s, sep =>
    if Index s sep < 0 then [s]
    else sliceTo s (Index s sep).toNat ::
      splitFuel fuel (sliceFrom s ((Index s sep).toNat + len sep)) sep

/-- Go `strings.Split(s, sep)` for a non-empty separator.  A text of length `n` has at most
`n` occurrences of the separator, so `len s` cuts are enough (`splitFuel_fuel`). -/
def Split (s sep : String) : List String := splitFuel (len s) s sep

/-! ## `gjson` results -/

/-- The Go type `gjson.Type`: `Null`, `False`, `Number`, `String`, `True`, `JSON`. -/
inductive ResultType where
  | TNull | TFalse | TNumber | TString | TTrue | TJSON
deriving DecidableEq, Repr

/-- The Go type `gjson.Result`: the fields `Type`, `Raw`, `Str`, `Num`.  A `float64` is
held as its IEEE 754 bit pattern; the program copies such values and never computes with
them. -/
structure Result where
  Typ : ResultType
  Raw : String
  Str : String
  Num : Nat
deriving DecidableEq, Repr

/-- The result of `gjson.Get` for a path that does not exist. -/
def Result.missing : Result := { Typ := .TNull, Raw := "", Str := "", Num := 0 }

/-- The library functions that the request and response adapters call, none of them part of
the repository sources at hand. -/
structure JsonLib where
  /-- `gjson.Get(json, path)`, also `gjson.GetBytes`. -/
  Get : String → String → Result
  /-- `gjson.Parse(json)`, also `gjson.ParseBytes`. -/
  Parse : String → Result
  /-- The elements of the JSON array with the text `raw`, as `Result.Array()` lists them. -/
  Elements : String → List Result
  /-- `Result.String()` of a result of type `Number`. -/
  NumberString : Result → String
  /-- `Result.Int()`, an `int64`. -/
  IntOf : Result → Int
  /-- The value of `strconv.ParseBool(strings.ToLower(s))`, false on error. -/
  ParseBool : String → Bool
  /-- `thinking.ParseSuffix(model).ModelName`: the model name without its thinking suffix
  (the function is declared outside the sources at hand). -/
  ParseSuffix : String → String
  /-- The JSON string literal that `json.Marshal` writes for a Go string. -/
  MarshalString : String → String

/-- `Result.Exists()`. -/
def ResultExists (r : Result) : Bool := r.Typ ≠ .TNull || r.Raw ≠ ""

/-- `Result.IsArray()`. -/
def ResultIsArray (r : Result) : Bool :=
  r.Typ = .TJSON && decide (len r.Raw > 0) && r.Raw.data.head? = some '['

/-- `Result.Get(path)`: `gjson.Get` on the raw text of the result. -/
def ResultGet (J : JsonLib) (r : Result) (path : String) : Result := J.Get r.Raw path

/-- `Result.Array()`: no element for a null, the result itself when it is not an array,
the elements of the array otherwise. -/
def ResultArray (J : JsonLib) (r : Result) : List Result :=
  if r.Typ = .TNull then []
  else if !ResultIsArray r then [r]
  else J.Elements r.Raw

/-- `Result.String()`. -/
def ResultString (J : JsonLib) (r : Result) : String :=
  match r.Typ with
  | .TNull => ""
  | .TFalse => "false"
  | .TNumber => J.NumberString r
  | .TString => r.Str
  | .TTrue => "true"
  | .TJSON => r.Raw

/-- `Result.Bool()`; a `float64` differs from zero when its bit pattern is neither that of
`+0` nor that of `-0`. -/
def ResultBool (J : JsonLib) (r : Result) : Bool :=
  match r.Typ with
  | .TTrue => true
  | .TString => J.ParseBool r.Str
  | .TNumber => decide (r.Num ≠ 0 ∧ r.Num ≠ 9223372036854775808)
  | _ => false

/-! ## `buildMiroMindRequest` (lines 84-129) -/

/-- A message map with the keys `role` and `content`. -/
structure Msg where
  role : String
  content : String
deriving DecidableEq, Repr

/-- The Go type `miromindRequest`.  `Messages` is a slice: the empty list is the nil slice. -/
structure miromindRequest where
  Messages : List Msg
  Debug : Bool
  Mode : String
deriving DecidableEq, Repr

/-- Modelled from the spec: the Go type `cliproxyexecutor.Request`, declared outside the
sources at hand; the canonical request with its model identifier (`Model`) and its JSON
payload (`Payload`), the two fields that `buildMiroMindRequest` reads. -/
structure Request where
  Model : String
  Payload : String

/-- The mode that `buildMiroMindRequest` derives from `modelName` (lines 92-104). -/
def resolveMode (modelName : String) : String :=
  let mode := if Contains (ToLower modelName) "fast" then "fast" else "pro"
  if HasPrefix modelName "miromind-" then
    match Split modelName "-" with
    | _ :: p1 :: _ => if p1 ≠ "chat" then p1 else mode
    | _ => mode
  else mode

/-- The value `mmReq` that `buildMiroMindRequest` passes to `json.Marshal`, or the error it
returns (lines 91-126). -/
def miromindRequestOf (J : JsonLib) (req : Request) : Except String miromindRequest :=
  let mode := resolveMode (J.ParseSuffix req.Model)
  let messagesResult := J.Get req.Payload "messages"
  if !ResultExists messagesResult || !ResultIsArray messagesResult then
    .error "invalid messages in request payload"
  else
    .ok { Messages := (ResultArray J messagesResult).map (fun msg =>
            { role := ResultString J (ResultGet J msg "role"),
              content := ResultString J (ResultGet J msg "content") }),
          Debug := false,
          Mode := mode }

/-- The text `json.Marshal` writes for a `miromindRequest`: the fields in the order of the
struct, the keys of a message map sorted, `null` for the nil slice. -/
def marshalRequest (J : JsonLib) (mm : miromindRequest) : String :=
  "\x7b\"messages\":" ++
    (if mm.Messages = [] then "null"
     else "[" ++ String.intercalate "," (mm.Messages.map (fun m =>
        "\x7b\"content\":" ++ J.MarshalString m.content ++ ",\"role\":" ++
          J.MarshalString m.role ++ "\x7d")) ++ "]") ++
    ",\"debug\":" ++ (if mm.Debug then "true" else "false") ++
    ",\"mode\":" ++ J.MarshalString mm.Mode ++ "\x7d"

/-- `buildMiroMindRequest` (lines 91-129): the body, or the error. -/
def buildMiroMindRequest (J : JsonLib) (req : Request) : Except String String :=
  match miromindRequestOf J req with
  | .error e => .error e
  | .ok mm => .ok (marshalRequest J mm)

/-- Reads the text `lit` at the start of `s`: the rest of `s`, none when `s` does not start
with `lit`. -/
def readLit (lit s : String) : Option String :=
  if HasPrefix s lit then some (sliceFrom s (len lit)) else none

/-- Reads a message object `{"content":<string>,"role":<string>}` at the start of `s`: the
message and the rest of `s`.  `unq` reads a JSON string literal at the start of a text and
gives the string it stands for and the rest of the text. -/
def readMsg (unq : String → Option (String × String)) (s : String) : Option (Msg × String) :=
  match readLit "\x7b\"content\":" s with
  | none => none
  | some s1 =>
    match unq s1 with
    | none => none
    | some (c, s2) =>
      match readLit ",\"role\":" s2 with
      | none => none
      | some s3 =>
        match unq s3 with
        | none => none
        | some (r, s4) =>
          match readLit "\x7d" s4 with
          | none => none
          | some s5 => some ({ role := r, content := c }, s5)

/-- Reads the elements of an array of message objects, from after the opening bracket to the
closing bracket: the messages in order and the text after the bracket.  `fuel` bounds the
number of elements. -/
def readMsgs (unq : String → Option (String × String)) : Nat → String → Option (List Msg × String)
  | 0, _ => none
  | fuel + 1, s =>
    match readMsg unq s with
    | none => none
    | some (m, s1) =>
      if HasPrefix s1 "," then
        match readMsgs unq fuel (sliceFrom s1 1) with
        | none => none
        | some (ms, s2) => some (m :: ms, s2)
      else if HasPrefix s1 "]" then some ([m], sliceFrom s1 1)
      else none

/-- What the field `messages` of a request body holds: `null`, or a list of messages. -/
inductive MessagesField where
  | null
  | list (ms : List Msg)
deriving DecidableEq, Repr

/-- The field `messages` of a request body, read from the text of a body that starts with this
field; none when the body does not start so or the field holds neither `null` nor a list of
message objects. -/
def bodyMessages (unq : String → Option (String × String)) (body : String) :
    Option MessagesField :=
  match readLit "\x7b\"messages\":" body with
  | none => none
  | some s =>
    if HasPrefix s "null" then some .null
    else if HasPrefix s "[]" then some (.list [])
    else
      match readLit "[" s with
      | none => none
      | some s1 =>
        match readMsgs unq (len s1) s1 with
        | none => none
        | some (ms, _) => some (.list ms)

/-- The variant named by a model identifier of the form `miromind-<variant>[-...]`: the text
between the prefix `miromind-` and the next `-` (or the end). -/
def variantOf (m : String) : Option String :=
  if HasPrefix m "miromind-" then some ⟨(m.data.drop 9).takeWhile (fun c => c ≠ '-')⟩ else none

/-- The mode as the specification words it: the variant when the identifier has the form
`miromind-<variant>[-...]` and the variant is not `chat`; otherwise `fast` when the identifier
contains `fast` compared case-insensitively, and `pro` in every other case. -/
def modeSpec (m : String) : String :=
  match variantOf m with
  | some v => if v ≠ "chat" then v else if Contains (ToLower m) "fast" then "fast" else "pro"
  | none => if Contains (ToLower m) "fast" then "fast" else "pro"

/-! ## `ConvertOpenAIRequestToTrae` (trae_openai_request.go) -/

/-- The values that occur in the request the converter builds. -/
inductive JV where
  | null
  | bool (b : Bool)
  | int (i : Int)
  | float (bits : Nat)
  | str (s : String)
  | msgs (ms : List Msg)
deriving DecidableEq, Repr

/-- `sjson.Set` (also `sjson.SetBytes`) at a key of a JSON object, the object given by its
keys and values in order: the value of an existing key is replaced in place, a new key is
added at the end. -/
def objSet {α : Type} (doc : List (String × α)) (key : String) (v : α) : List (String × α) :=
  match doc with
  | [] => [(key, v)]
  | (k, x) :: rest => if k = key then (k, v) :: rest else (k, x) :: objSet rest key v

/-- The loop over the parts of an array content (lines 50-57): the text of the parts whose
type is `text`, written to `combinedText` in order. -/
def combinedText (J : JsonLib) (parts : List Result) : String :=
  parts.foldl (fun acc part =>
    if ResultString J (ResultGet J part "type") = "text" then
      acc ++ ResultString J (ResultGet J part "text")
    else acc) ""

/-- The message map built for the element `m` of the input messages (lines 44-58). -/
def traeMessage (J : JsonLib) (m : Result) : Msg :=
  { role := ResultString J (ResultGet J m "role"),
    content :=
      if ResultIsArray (ResultGet J m "content") then
        combinedText J (ResultArray J (ResultGet J m "content"))
      else ResultString J (ResultGet J m "content") }

/-- `ConvertOpenAIRequestToTrae(modelName, inputRawJSON, _)`: the JSON object it returns,
as its keys and values in order.  The slice `traeMessages` is nil when the input array is
empty, and `sjson` then writes `null`. -/
def ConvertOpenAIRequestToTrae (J : JsonLib) (modelName : String) (inputRawJSON : String)
    (_stream : Bool) : List (String × JV) :=
  let rawJSON := inputRawJSON
  let out : List (String × JV) :=
    [("model", .str ""), ("messages", .msgs []), ("stream", .bool false)]
  let out := objSet out "model" (.str modelName)
  let out := if ResultBool J (J.Get rawJSON "stream") then objSet out "stream" (.bool true) else out
  let out :=
    if ResultExists (J.Get rawJSON "temperature") then
      objSet out "temperature" (.float (J.Get rawJSON "temperature").Num)
    else out
  let out :=
    if ResultExists (J.Get rawJSON "top_p") then
      objSet out "top_p" (.float (J.Get rawJSON "top_p").Num)
    else out
  let out :=
    if ResultExists (J.Get rawJSON "max_tokens") then
      objSet out "max_tokens" (.int (J.IntOf (J.Get rawJSON "max_tokens")))
    else out
  let messages := J.Get rawJSON "messages"
  if ResultIsArray messages then
    let traeMessages := (ResultArray J messages).map (traeMessage J)
    objSet out "messages" (if traeMessages = [] then .null else .msgs traeMessages)
  else out

/-- The messages of a request object, read as the test of the converter reads them
(`Get("messages").Array()`): the elements of the array, none when the field is null or absent. -/
def messagesOf (doc : List (String × JV)) : List Msg :=
  match doc.lookup "messages" with
  | some (.msgs ms) => ms
  | _ => []

/-- The concatenation of a list of strings, in order. -/
def concatAll : List String → String
  | [] => ""
  | s :: rest => s ++ concatAll rest

/-- The concatenation, in order, of the text of the text-typed parts. -/
def textOfParts (J : JsonLib) (parts : List Result) : String :=
  concatAll ((parts.filter (fun part => ResultString J (ResultGet J part "type") = "text")).map
    (fun part => ResultString J (ResultGet J part "text")))

/-! ## `ConvertTraeResponseToOpenAINonStream` (trae_openai_response.go) -/

/-- The value of the key `usage` in the response: the counts of the template, or the raw
JSON text written by `sjson.SetRaw`. -/
inductive UsageValue where
  | counts (prompt_tokens completion_tokens total_tokens : Int)
  | raw (text : String)
deriving DecidableEq, Repr

/-- The JSON object built from the non-stream template: the values of `id`, `object`,
`created`, `model`, of `choices[0].message` (an object of string fields, in order) and
`choices[0].finish_reason`, and of `usage`; `choices[0].index` is 0. -/
structure ChatCompletion where
  id : String
  object : String
  created : Int
  model : String
  message : List (String × String)
  finish_reason : String
  usage : UsageValue
deriving DecidableEq, Repr

/-- The non-stream template (line 51). -/
def nonStreamTemplate : ChatCompletion :=
  { id := "", object := "chat.completion", created := 0, model := "", message := [],
    finish_reason := "stop", usage := .counts 0 0 0 }

/-- `ConvertTraeResponseToOpenAINonStream(_, modelName, _, _, rawJSON, _)`; `now` and `nanos`
are the values of `time.Now().Unix()` and `time.Now().UnixNano()`.  `none` is the empty
string that the function returns when the parsed input does not exist. -/
def ConvertTraeResponseToOpenAINonStream (J : JsonLib) (now nanos : Int) (modelName : String)
    (rawJSON : String) : Option ChatCompletion :=
  let res := J.Parse rawJSON
  if !ResultExists res then none
  else
    let template := nonStreamTemplate
    let template := { template with created := now }
    let template := { template with model := modelName }
    let template := { template with id := "trae-" ++ toString nanos }
    let content := ResultGet J res "choices.0.message.content"
    let template :=
      if ResultExists content then
        { template with
            message := objSet (objSet template.message "role" "assistant") "content"
              (ResultString J content) }
      else template
    let usage := ResultGet J res "usage"
    let template :=
      if ResultExists usage then { template with usage := .raw usage.Raw } else template
    some template

/-! ## `PrepareRequest` and `miromindCreds` (lines 45-66, 458-475) -/

/-- The Go type `http.Header`, a map from header names to lists of values.  The map of a
request may be nil, as in `&http.Request{}`; the requests that `http.NewRequest` makes have
a map.  `Set` and `Del` canonicalise the name they are given; the names the program passes are
canonical already. -/
inductive Header where
  /-- The nil map. -/
  | nilMap
  /-- A map, given by the values it holds for each name. -/
  | entries (m : String → Option (List String))

/-- The index expression `h[key]`: the values of the header `key`, none when the map has no
such key; a nil map has no key. -/
def Header.values : Header → String → Option (List String)
  | .nilMap, _ => none
  | .entries m, k => m k

/-- `Header.Set(key, value)`, the assignment `h[key] = []string{value}`: the map after the
call, or `none` when the call panics because the map is nil. -/
def Header.Set : Header → String → String → Option Header
  | .nilMap, _, _ => none
  | .entries m, key, value => some (.entries (fun k => if k = key then some [value] else m k))

/-- `Header.Del(key)`, the built-in `delete(h, key)`: it does nothing on a nil map. -/
def Header.Del : Header → String → Header
  | .nilMap, _ => .nilMap
  | .entries m, key => .entries (fun k => if k = key then none else m k)

/-- How a call ends: with the error it returns, with its result, or in a run-time panic. -/
inductive Outcome (α : Type) where
  | error (msg : String)
  | ok (a : α)
  | panic (msg : String)

/-- The fields `SessionToken` and `Email` of the Go type `MiroMindTokenStorage`. -/
structure MiroMindTokenStorage where
  SessionToken : String
  Email : String
deriving DecidableEq, Repr

/-- The field `Storage` of an auth, an interface value: nil, a `*MiroMindTokenStorage`
(the pointer may be nil), or a value of another type. -/
inductive StorageSlot where
  | nilStorage
  | miromind (s : Option MiroMindTokenStorage)
  | other
deriving DecidableEq, Repr

/-- A value of the Go type `any` in the metadata map: a string, or something else. -/
inductive MetaValue where
  | str (s : String)
  | other
deriving DecidableEq, Repr

/-- Modelled from the spec: the Go type `cliproxyauth.Auth`, declared outside the sources at
hand; the typed storage slot (`Storage`) and the string-keyed metadata map (`Metadata`, `none`
for the nil map), the two fields that `miromindCreds` reads. -/
structure Auth where
  Storage : StorageSlot
  Metadata : Option (List (String × MetaValue))
deriving DecidableEq, Repr

/-- The type assertion `m[key].(string)`: the string, `""` when the key is absent or holds
another type. -/
def metaString (m : List (String × MetaValue)) (key : String) : String :=
  match m.lookup key with
  | some (.str s) => s
  | _ => ""

/-- `miromindCreds(auth)` (lines 458-475): the token and the email. -/
def miromindCreds (auth : Option Auth) : String × String :=
  match auth with
  | none => ("", "")
  | some a =>
    match a.Storage with
    | .miromind (some s) => (s.SessionToken, s.Email)
    | _ =>
      match a.Metadata with
      | some m => (metaString m "session_token", metaString m "email")
      | none => ("", "")

/-- `PrepareRequest(req, auth)` (lines 46-66) on the header map of the request; `req` is
`none` for a nil request.  The call returns the error, or returns nil and leaves the request
as given in the result, or panics in the first `req.Header.Set` when the map is nil. -/
def PrepareRequest (req : Option Header) (auth : Option Auth) : Outcome (Option Header) :=
  match req with
  | none => .ok none
  | some h =>
    let token := (miromindCreds auth).1
    if token = "" then .error "miromind executor: missing session token"
    else
      match h.Set "User-Agent"
        "Mozilla/5.0 (Windows NT 10.0; Win64; x64) AppleWebKit/537.36 (KHTML, like Gecko) Chrome/120.0.0.0 Safari/537.36" with
      | none => .panic "assignment to entry in nil map"
      | some h =>
      match h.Set "Origin" "https://dr.miromind.ai" with
      | none => .panic "assignment to entry in nil map"
      | some h =>
      match h.Set "Referer" "https://dr.miromind.ai/" with
      | none => .panic "assignment to entry in nil map"
      | some h =>
      match h.Set "Accept" "*/*" with
      | none => .panic "assignment to entry in nil map"
      | some h =>
      match h.Set "Authorization" ("Bearer " ++ token) with
      | none => .panic "assignment to entry in nil map"
      | some h => .ok (some (h.Del "Cookie"))

/-! ## A concrete `JsonLib` for evaluating the adapters on examples -/

/-- The text of a JSON array with the given element texts. -/
def jArr (items : List String) : String := "[" ++ String.intercalate "," items ++ "]"

/-- The result for a JSON string without characters to escape. -/
def strResult (s : String) : Result := { Typ := .TString, Raw := jStr s, Str := s, Num := 0 }

/-- The result for an object or an array with the text `raw`. -/
def jsonResult (raw : String) : Result := { Typ := .TJSON, Raw := raw, Str := "", Num := 0 }

/-- The message `{"role":"user","content":"Hello"}`. -/
def helloMsg : String := jObj [("role", jStr "user"), ("content", jStr "Hello")]

/-- A content part of type `text`: `{"type":"text","text":"..."}`. -/
def textPart (t : String) : String := jObj [("type", jStr "text"), ("text", jStr t)]

/-- A content part of type `image_url`. -/
def imagePart : String := jObj [("type", jStr "image_url"), ("image_url", jStr "http://x/y.png")]

/-- An array content: the text `Hel`, an image, the text `lo`. -/
def partsContent : String := jArr [textPart "Hel", imagePart, textPart "lo"]

/-- A message whose content is `partsContent`. -/
def partsMsg : String := jObj [("role", jStr "user"), ("content", partsContent)]

/-- The input of `TestConvertOpenAIRequestToTrae`. -/
def traeInput : String :=
  jObj [("model", jStr "gpt-4o"), ("messages", jArr [helloMsg]), ("stream", "true"),
        ("temperature", "0.7")]

/-- An input without the fields `stream`, `temperature`, `top_p`, `max_tokens`. -/
def plainInput : String := jObj [("model", jStr "gpt-4o"), ("messages", jArr [helloMsg, partsMsg])]

/-- The `usage` object of `TestConvertTraeResponseToOpenAINonStream`. -/
def usageRaw : String :=
  jObj [("prompt_tokens", "5"), ("completion_tokens", "10"), ("total_tokens", "15")]

/-- The input of `TestConvertTraeResponseToOpenAINonStream`. -/
def traeResponse : String :=
  jObj [("id", jStr "res-123"),
        ("choices", jArr [jObj [("message", jObj [("role", jStr "assistant"),
                                                 ("content", jStr "Hi there!")]),
                               ("finish_reason", jStr "stop")]]),
        ("usage", usageRaw)]

/-- A MiroMind payload with one message of array content. -/
def partsPayload : String := jObj [("messages", jArr [partsMsg])]

/-- A MiroMind payload with one message of string content. -/
def helloPayload : String := jObj [("messages", jArr [helloMsg])]

/-- A payload whose `messages` field is a string. -/
def badPayload : String := jObj [("messages", jStr "hi")]

/-- The answers of `gjson.Get` on the example documents: for a document and a path, the
result; every pair not listed is a path that does not exist. -/
def sampleGetTable : List ((String × String) × Result) :=
  [ ((traeInput, "model"), strResult "gpt-4o"),
    ((traeInput, "messages"), jsonResult (jArr [helloMsg])),
    ((traeInput, "stream"), { Typ := .TTrue, Raw := "true", Str := "", Num := 0 }),
    ((traeInput, "temperature"),
      { Typ := .TNumber, Raw := "0.7", Str := "", Num := 4604480259023595110 }),
    ((plainInput, "model"), strResult "gpt-4o"),
    ((plainInput, "messages"), jsonResult (jArr [helloMsg, partsMsg])),
    ((helloMsg, "role"), strResult "user"),
    ((helloMsg, "content"), strResult "Hello"),
    ((partsMsg, "role"), strResult "user"),
    ((partsMsg, "content"), jsonResult partsContent),
    ((textPart "Hel", "type"), strResult "text"),
    ((textPart "Hel", "text"), strResult "Hel"),
    ((imagePart, "type"), strResult "image_url"),
    ((imagePart, "image_url"), strResult "http://x/y.png"),
    ((textPart "lo", "type"), strResult "text"),
    ((textPart "lo", "text"), strResult "lo"),
    ((traeResponse, "id"), strResult "res-123"),
    ((traeResponse, "choices.0.message.content"), strResult "Hi there!"),
    ((traeResponse, "usage"), jsonResult usageRaw),
    ((partsPayload, "messages"), jsonResult (jArr [partsMsg])),
    ((helloPayload, "messages"), jsonResult (jArr [helloMsg])),
    ((badPayload, "messages"), strResult "hi") ]

/-- The elements of the arrays of the example documents. -/
def sampleElementsTable : List (String × List Result) :=
  [ (jArr [helloMsg], [jsonResult helloMsg]),
    (jArr [helloMsg, partsMsg], [jsonResult helloMsg, jsonResult partsMsg]),
    (jArr [partsMsg], [jsonResult partsMsg]),
    (partsContent, [jsonResult (textPart "Hel"), jsonResult imagePart, jsonResult (textPart "lo")]) ]

/-- A `JsonLib` that answers as the libraries do on the example documents: `Get` and
`Elements` by the tables; `Parse` for a text that starts an object or an array;
`NumberString` and `IntOf` for a number written with digits only; `ParseBool` for the words
that `strconv.ParseBool` accepts; `ParseSuffix` strips a trailing `(...)`; `MarshalString`
escapes the quote and the backslash. -/
def sampleJson : JsonLib where
  Get json path := (sampleGetTable.lookup (json, path)).getD Result.missing
  Parse json :=
    if json.data.head? = some '\x7b' ∨ json.data.head? = some '[' then jsonResult json
    else Result.missing
  Elements raw := (sampleElementsTable.lookup raw).getD []
  NumberString r := r.Raw
  IntOf r := r.Raw.data.foldl (fun n c => n * 10 + ((c.toNat : Int) - 48)) 0
  ParseBool s := decide (ToLower s ∈ ["1", "t", "true"])
  ParseSuffix model :=
    match model.data.reverse with
    | ')' :: rest =>
      match rest.dropWhile (fun c => c ≠ '(') with
      | _ :: before => ⟨before.reverse⟩
      | [] => model
    | _ => model
  MarshalString s :=
    ⟨'"' :: (s.data.flatMap (fun c => if c = '"' ∨ c = '\\' then ['\\', c] else [c])) ++ ['"']⟩

/-- Reads the characters of a JSON string literal after its opening quote, `acc` holding the
characters read so far in reverse: a backslash followed by a quote, a backslash or a slash
stands for that character, the closing quote ends the literal; other escapes are not read. -/
def readQuotedFrom : List Char → List Char → Option (String × String)
  | [], _ => none
  | '"' :: rest, acc => some (⟨acc.reverse⟩, ⟨rest⟩)
  | '\\' :: c :: rest, acc =>
    if c = '"' ∨ c = '\\' ∨ c = '/' then readQuotedFrom rest (c :: acc) else none
  | c :: rest, acc => readQuotedFrom rest (c :: acc)

/-- Reads a JSON string literal at the start of a text: the string and the rest of the text.
It reads back what `sampleJson.MarshalString` writes. -/
def readQuoted (s : String) : Option (String × String) :=
  match s.data with
  | '"' :: rest => readQuotedFrom rest []
  | _ => none

/-- A MiroMind payload with an empty array of messages: `{"messages":[]}`. -/
def emptyPayload : String := jObj [("messages", "[]")]

/-- A `JsonLib` that answers as `sampleJson` and, on `emptyPayload`, as `gjson` does: the
result for `messages` is the array `[]`, which has no element. -/
def emptyJson : JsonLib :=
  { sampleJson with
    Get := fun json path =>
      if json = emptyPayload ∧ path = "messages" then jsonResult "[]"
      else sampleJson.Get json path }

/-- An input whose `temperature` is the string `0.7` and whose `top_p` is `null`:
`{"temperature":"0.7","top_p":null}`. -/
def looseInput : String := jObj [("temperature", jStr "0.7"), ("top_p", "null")]

/-- A `JsonLib` that answers as `sampleJson` and, on `looseInput`, as `gjson` does: the
result for `temperature` has the type `String`, the text `0.7` and `Num` zero; the result for
`top_p` has the type `Null`, the raw text `null` and `Num` zero. -/
def looseJson : JsonLib :=
  { sampleJson with
    Get := fun json path =>
      if json = looseInput ∧ path = "temperature" then strResult "0.7"
      else if json = looseInput ∧ path = "top_p" then
        { Typ := .TNull, Raw := "null", Str := "", Num := 0 }
      else sampleJson.Get json path }

/-- Request headers with a cookie and a custom header. -/
def sampleHeader : Header := .entries (fun k =>
  if k = "Cookie" then some ["__client=abc"]
  else if k = "Content-Type" then some ["application/json"]
  else if k = "User-Agent" then some ["Go-http-client/1.1"]
  else none)

/-- An auth whose typed storage holds an empty session token while the metadata map holds
the session token `tok`. -/
def emptyStorageAuth : Auth :=
  { Storage := .miromind (some { SessionToken := "", Email := "miromind-user" }),
    Metadata := some [("session_token", .str "tok"), ("email", .str "miromind-user")] }

/-- An auth whose typed storage holds the session token `tok`. -/
def storageAuth : Auth :=
  { Storage := .miromind (some { SessionToken := "tok", Email := "miromind-user" }),
    Metadata := some [("email", .str "miromind-user"), ("type", .str "miromind")] }

/-- An auth without typed storage whose metadata map holds the session token `tok`. -/
def metadataAuth : Auth :=
  { Storage := .nilStorage, Metadata := some [("session_token", .str "tok")] }

/-! ## Notions for the properties of the tag-splitting loop -/

/-- Go `strings.HasSuffix`. -/
def HasSuffix (s suf : String) : Bool := suf.data.isSuffixOf s.data

/-- The text after an opening marker, with the newline that directly follows the marker
dropped (lines 383-385). -/
def skipNewline (t : String) : String := if HasPrefix t "\n" then sliceFrom t 1 else t

/-- No occurrence of the marker `m` in `f1 ++ f2` straddles the boundary between `f1` and
`f2`: the marker does not start at a position `j` inside `f1` and end inside `f2`. -/
def NoCut (m f1 f2 : String) : Prop :=
  ∀ j, j < len f1 → len f1 < j + len m → HasPrefix (sliceFrom (f1 ++ f2) j) m = false

instance (m f1 f2 : String) : Decidable (NoCut m f1 f2) := by
  unfold NoCut
  infer_instance

/-- Go `s[:n]` with its range check: `none` is the run-time panic for an index out of range. -/
def sliceToChecked (s : String) (n : Int) : Option String :=
  if 0 ≤ n ∧ n ≤ (len s : Int) then some (sliceTo s n.toNat) else none

/-- Go `s[n:]` with its range check: `none` is the run-time panic for an index out of range. -/
def sliceFromChecked (s : String) (n : Int) : Option String :=
  if 0 ≤ n ∧ n ≤ (len s : Int) then some (sliceFrom s n.toNat) else none

/-- One iteration of the body of `for len(remaining) > 0` with every slice expression
range-checked: `none` when one of them is out of range. -/
def thinkStepChecked (st : SplitState) : Option SplitState :=
  if !st.inThinking then
    let idx := Index st.remaining "<think>"
    if idx ≥ 0 then
      match sliceToChecked st.remaining idx with
      | none => none
      | some head =>
        match (if (len st.remaining : Int) > idx + 7 then sliceFromChecked st.remaining (idx + 7)
               else some "") with
        | none => none
        | some remaining =>
          match (if HasPrefix remaining "\n" then sliceFromChecked remaining 1
                 else some remaining) with
          | none => none
          | some remaining =>
            some { remaining := remaining, toContent := st.toContent ++ head,
                   toReasoning := st.toReasoning, inThinking := true }
    else
      some { remaining := "", toContent := st.toContent ++ st.remaining,
             toReasoning := st.toReasoning, inThinking := st.inThinking }
  else
    let idx := Index st.remaining "</think>"
    if idx ≥ 0 then
      match sliceToChecked st.remaining idx with
      | none => none
      | some head =>
        match (if (len st.remaining : Int) > idx + 8 then sliceFromChecked st.remaining (idx + 8)
               else some "") with
        | none => none
        | some remaining =>
          some { remaining := remaining, toContent := st.toContent,
                 toReasoning := st.toReasoning ++ head, inThinking := false }
    else
      some { remaining := "", toContent := st.toContent,
             toReasoning := st.toReasoning ++ st.remaining, inThinking := st.inThinking }

/-- The loop `for len(remaining) > 0 { ... }` as a function defined by well-founded recursion
on the length of `remaining`. -/
def thinkLoopWF (st : SplitState) : SplitState :=
  if len st.remaining > 0 then thinkLoopWF (thinkStep st) else st
termination_by len st.remaining
decreasing_by
  rename_i h
  have h0 : len "" = 0 := rfl
  have hs : ∀ (s : String) (n : Nat), len (sliceFrom s n) = len s - n := by
    intro s n
    simp [len, sliceFrom]
  have he : HasPrefix "" "\n" = false := by decide
  unfold thinkStep
  split
  · simp only
    split
    · split
      · split
        · rw [hs, hs]; omega
        · rw [hs]; omega
      · rw [if_neg (by simp [he]), h0]
        exact h
    · simpa [h0] using h
  · simp only
    split
    · split
      · rw [hs]; omega
      · simpa [h0] using h
    · simpa [h0] using h

/-! ## Example tool-call events -/

/-- The payload of a `tool_call` event:
`{"tool_name":"...","delta_input":{"text":"..."}}`. -/
def toolDoc (tool text : String) : String :=
  jObj [("tool_name", jStr tool), ("delta_input", jObj [("text", jStr text)])]

/-- The JSON documents of the tool-call examples, with the answers of `gjson` as in
`sampleDocs`. -/
def toolDocs : List (String × List (String × String) × List (String × Int)) :=
  [ (toolDoc "show_text" "before<think>hidden</think>after",
      [("tool_name", "show_text"), ("delta_input.text", "before<think>hidden</think>after")], []),
    (toolDoc "show_text" "a<think>x</think>y</think>b",
      [("tool_name", "show_text"), ("delta_input.text", "a<think>x</think>y</think>b")], []),
    (toolDoc "search" "q<think>x",
      [("tool_name", "search"), ("delta_input.text", "q<think>x")], []),
    (msgDoc "a<think>b</think>c", [("delta.content", "a<think>b</think>c")], []) ]

/-- The `Lib` of the examples, with the documents of `toolDocs` in place of `sampleDocs`. -/
def toolLib : Lib :=
  { sampleLib with
    Valid := fun json => (toolDocs.lookup json).isSome
    GetString := fun json path =>
      match toolDocs.lookup json with
      | some d => (d.1.lookup path).getD ""
      | none => ""
    GetInt := fun json path =>
      match toolDocs.lookup json with
      | some d => (d.2.lookup path).getD 0
      | none => 0 }

/-! ## Lemmas on Go strings -/

theorem len_append (s t : String) : len (s ++ t) = len s + len t := by
  simp [len, String.data_append]

theorem len_eq_zero {s : String} : len s = 0 ↔ s = "" := by
  constructor
  · intro h
    apply String.ext
    exact List.length_eq_zero.mp h
  · rintro rfl
    rfl

theorem len_sliceFrom (s : String) (n : Nat) : len (sliceFrom s n) = len s - n := by
  simp [len, sliceFrom]

theorem sliceFrom_zero (s : String) : sliceFrom s 0 = s := by
  apply String.ext
  simp [sliceFrom]

theorem sliceTo_append_len (s t : String) : sliceTo (s ++ t) (len s) = s := by
  apply String.ext
  simp [sliceTo, len, String.data_append]

theorem sliceFrom_append_len (s t : String) : sliceFrom (s ++ t) (len s) = t := by
  apply String.ext
  simp [sliceFrom, len, String.data_append]

theorem HasPrefix_append (p s : String) : HasPrefix (p ++ s) p = true := by
  simp [HasPrefix, String.data_append]

theorem TrimPrefix_append (p s : String) : TrimPrefix (p ++ s) p = s := by
  simp [TrimPrefix, HasPrefix_append, sliceFrom_append_len]

theorem HasPrefix_empty (p : String) (hp : p ≠ "") : HasPrefix "" p = false := by
  have : p.data ≠ [] := fun h => hp (String.ext h)
  cases hd : p.data with
  | nil => exact absurd hd this
  | cons c cs => simp [HasPrefix, hd, List.isPrefixOf]

/-- A data line is not an event line. -/
theorem HasPrefix_data_event (d : String) : HasPrefix ("data: " ++ d) "event: " = false := by
  have h1 : ("data: " ++ d).data = 'd' :: ("ata: " ++ d).data := by
    simp [String.data_append]
  have h2 : ("event: " : String).data = 'e' :: ("vent: " : String).data := rfl
  simp [HasPrefix, h1, h2, List.isPrefixOf]

/-! ## Lemmas on `strings.Index` -/

theorem indexFrom_ge_or (sub : List Char) :
    ∀ (l : List Char) (i : Nat), indexFrom sub l i = -1 ∨ (i : Int) ≤ indexFrom sub l i := by
  intro l
  induction l with
  | nil =>
    intro i
    unfold indexFrom
    split
    · exact Or.inr (le_refl _)
    · exact Or.inl rfl
  | cons c cs ih =>
    intro i
    unfold indexFrom
    split
    · exact Or.inr (le_refl _)
    · rcases ih (i + 1) with h | h
      · exact Or.inl h
      · right
        have : (i : Int) ≤ ((i + 1 : Nat) : Int) := by push_cast; omega
        exact le_trans this h

/-- No occurrence of `sub` in `l`: the search from any start position gives `-1`. -/
theorem indexFrom_shift (sub : List Char) :
    ∀ (l : List Char) (i j : Nat), indexFrom sub l i = -1 → indexFrom sub l j = -1 := by
  intro l
  induction l with
  | nil =>
    intro i j h
    unfold indexFrom at h ⊢
    split at h
    · exfalso; omega
    · rename_i hn
      simp [hn]
  | cons c cs ih =>
    intro i j h
    unfold indexFrom at h ⊢
    split at h
    · exfalso; omega
    · rename_i hn
      simp only [hn]
      exact ih (i + 1) (j + 1) h

/-- A marker whose first character does not occur again in it cannot begin inside a text
`a` free of it and end inside a following copy of itself. -/
theorem no_straddle (c : Char) (tl a r : List Char) (hc : c ∉ tl) (ha : a ≠ [])
    (hna : ¬ (c :: tl) <+: a) : ¬ (c :: tl) <+: a ++ ((c :: tl) ++ r) := by
  intro h
  have h2 : a <+: a ++ ((c :: tl) ++ r) := List.prefix_append _ _
  rcases List.prefix_or_prefix_of_prefix h h2 with h3 | h3
  · exact hna h3
  · obtain ⟨m, hm⟩ := h3
    have h5 : a ++ m <+: a ++ ((c :: tl) ++ r) := by rw [hm]; exact h
    have h4 : m <+: (c :: tl) ++ r := (List.prefix_append_right_inj a).mp h5
    cases m with
    | nil =>
      apply hna
      rw [← hm]
      simp
    | cons y ys =>
      have hy : y = c := by
        obtain ⟨t, ht⟩ := h4
        simp only [List.cons_append, List.cons.injEq] at ht
        exact ht.1
      cases a with
      | nil => exact ha rfl
      | cons x xs =>
        simp only [List.cons_append, List.cons.injEq] at hm
        apply hc
        rw [← hm.2, hy]
        simp

/-- The first occurrence of the marker in `a ++ marker ++ r`, for `a` free of it, is at
`len a`. -/
theorem indexFrom_append_marker (c : Char) (tl : List Char) (hc : c ∉ tl) (r : List Char) :
    ∀ (a : List Char) (i : Nat), indexFrom (c :: tl) a 0 = -1 →
      indexFrom (c :: tl) (a ++ ((c :: tl) ++ r)) i = ((i + a.length : Nat) : Int) := by
  intro a
  induction a with
  | nil =>
    intro i _
    simp only [List.nil_append, List.cons_append, List.length_nil, Nat.add_zero]
    unfold indexFrom
    have : (c :: tl).isPrefixOf (c :: (tl ++ r)) = true := by
      rw [List.isPrefixOf_iff_prefix]
      exact List.prefix_append (c :: tl) r
    simp [this]
  | cons x xs ih =>
    intro i h
    unfold indexFrom at h
    split at h
    · exfalso; omega
    · rename_i hn
      have hxs : indexFrom (c :: tl) xs 0 = -1 := indexFrom_shift _ _ _ 0 h
      have hn2 : ¬ (c :: tl) <+: (x :: xs) := by
        rw [← List.isPrefixOf_iff_prefix]
        exact hn
      have hns := no_straddle c tl (x :: xs) r hc (by simp) hn2
      rw [← List.isPrefixOf_iff_prefix] at hns
      simp only [List.cons_append] at hns ⊢
      unfold indexFrom
      simp only [hns]
      have := ih (i + 1) hxs
      simp only [List.cons_append] at this
      rw [if_neg (by simp), this]
      simp only [List.length_cons]
      congr 1
      omega

theorem Contains_false_iff (s sub : String) : Contains s sub = false ↔ Index s sub = -1 := by
  unfold Contains Index
  rcases indexFrom_ge_or sub.data s.data 0 with h | h
  · simp [h]
  · constructor
    · intro h2
      simp only [ge_iff_le, decide_eq_false_iff_not, not_le] at h2
      have : (0 : Int) ≤ ((0 : Nat) : Int) := by simp
      omega
    · intro h2
      rw [h2] at h
      simp at h

theorem Index_append_marker (m : String) (c : Char) (tl : List Char) (hm : m.data = c :: tl)
    (hc : c ∉ tl) (a rest : String) (h : Contains a m = false) :
    Index (a ++ m ++ rest) m = (len a : Int) := by
  rw [Contains_false_iff] at h
  unfold Index at h ⊢
  rw [hm] at h ⊢
  simp only [String.data_append, hm, List.append_assoc]
  rw [indexFrom_append_marker c tl hc rest.data a.data 0 h]
  simp [len]

theorem Index_open (a rest : String) (h : Contains a "<think>" = false) :
    Index (a ++ "<think>" ++ rest) "<think>" = (len a : Int) :=
  Index_append_marker "<think>" '<' ['t', 'h', 'i', 'n', 'k', '>'] rfl (by decide) a rest h

theorem Index_close (a rest : String) (h : Contains a "</think>" = false) :
    Index (a ++ "</think>" ++ rest) "</think>" = (len a : Int) :=
  Index_append_marker "</think>" '<' ['/', 't', 'h', 'i', 'n', 'k', '>'] rfl (by decide) a rest h

/-- The tail kept after a marker of length `k` found at `len a`: the guarded slice of the
program is the rest of the text in both branches. -/
theorem guarded_slice (a m rest : String) (k : Nat) (hk : len m = k) :
    (if len (a ++ m ++ rest) > len a + k then sliceFrom (a ++ m ++ rest) (len a + k) else "")
      = rest := by
  have hl : len (a ++ m) = len a + k := by rw [len_append, hk]
  split
  · rw [← hl, sliceFrom_append_len]
  · rename_i hn
    rw [len_append, hl] at hn
    have : len rest = 0 := by omega
    exact (len_eq_zero.mp this).symm

/-! ## Lemmas on the tag-splitting loop -/

/-- Outside a reasoning segment, an opening marker after marker-free text `a`: `a` goes to
the content, the marker and one newline after it are dropped, the flag is set. -/
theorem thinkStep_open (a rest c r : String) (h : Contains a "<think>" = false) :
    thinkStep { remaining := a ++ "<think>" ++ rest, toContent := c, toReasoning := r,
                inThinking := false }
      = { remaining := if HasPrefix rest "\n" then sliceFrom rest 1 else rest,
          toContent := c ++ a, toReasoning := r, inThinking := true } := by
  have hi := Index_open a rest h
  have hs : sliceTo (a ++ "<think>" ++ rest) (len a) = a := by
    rw [String.append_assoc, sliceTo_append_len]
  have hg := guarded_slice a "<think>" rest 7 rfl
  simp only [thinkStep, hi, Bool.not_false, if_true, Int.toNat_ofNat, hs, hg]
  simp

/-- Inside a reasoning segment, a closing marker after marker-free text `h`: `h` goes to
the reasoning, the marker is dropped, the flag is cleared. -/
theorem thinkStep_close (x rest c r : String) (h : Contains x "</think>" = false) :
    thinkStep { remaining := x ++ "</think>" ++ rest, toContent := c, toReasoning := r,
                inThinking := true }
      = { remaining := rest, toContent := c, toReasoning := r ++ x, inThinking := false } := by
  have hi := Index_close x rest h
  have hs : sliceTo (x ++ "</think>" ++ rest) (len x) = x := by
    rw [String.append_assoc, sliceTo_append_len]
  have hg := guarded_slice x "</think>" rest 8 rfl
  simp only [thinkStep, hi, Int.toNat_ofNat, hs, hg]
  simp

/-- Outside a reasoning segment, text without an opening marker all goes to the content. -/
theorem thinkStep_plain (b c r : String) (h : Contains b "<think>" = false) :
    thinkStep { remaining := b, toContent := c, toReasoning := r, inThinking := false }
      = { remaining := "", toContent := c ++ b, toReasoning := r, inThinking := false } := by
  rw [Contains_false_iff] at h
  simp [thinkStep, h]

/-- Inside a reasoning segment, text without a closing marker all goes to the reasoning. -/
theorem thinkStep_inside (x c r : String) (h : Contains x "</think>" = false) :
    thinkStep { remaining := x, toContent := c, toReasoning := r, inThinking := true }
      = { remaining := "", toContent := c, toReasoning := r ++ x, inThinking := true } := by
  rw [Contains_false_iff] at h
  simp [thinkStep, h]

/-- Every iteration of the loop shortens `remaining`. -/
theorem thinkStep_len_lt (st : SplitState) (h : len st.remaining > 0) :
    len (thinkStep st).remaining < len st.remaining := by
  have h0 : len "" = 0 := rfl
  unfold thinkStep
  split
  · simp only
    split
    · split
      · rename_i hp
        split
        · rw [len_sliceFrom, len_sliceFrom]; omega
        · rw [len_sliceFrom]; omega
      · rw [if_neg (by simp [HasPrefix_empty]), h0]
        exact h
    · simpa [h0] using h
  · simp only
    split
    · split
      · rw [len_sliceFrom]; omega
      · simpa [h0] using h
    · simpa [h0] using h

/-- With fuel for `len remaining` iterations the loop is not cut short: more fuel gives
the same result. -/
theorem thinkLoopFuel_fuel :
    ∀ (n m : Nat) (st : SplitState), len st.remaining ≤ n → len st.remaining ≤ m →
      thinkLoopFuel n st = thinkLoopFuel m st := by
  intro n
  induction n with
  | zero =>
    intro m st hn _
    have h0 : ¬ len st.remaining > 0 := by omega
    cases m with
    | zero => rfl
    | succ m => simp [thinkLoopFuel, h0]
  | succ n ih =>
    intro m st hn hm
    cases m with
    | zero =>
      have h0 : ¬ len st.remaining > 0 := by omega
      simp [thinkLoopFuel, h0]
    | succ m =>
      simp only [thinkLoopFuel]
      split
      · rename_i hpos
        have := thinkStep_len_lt st hpos
        exact ih m (thinkStep st) (by omega) (by omega)
      · rfl

theorem thinkLoopFuel_eq_thinkLoop (n : Nat) (st : SplitState) (h : len st.remaining ≤ n) :
    thinkLoopFuel n st = thinkLoop st :=
  thinkLoopFuel_fuel n (len st.remaining) st h (le_refl _)

/-- The loop, unfolded once: `for len(remaining) > 0 { body }`. -/
theorem thinkLoop_unfold (st : SplitState) :
    thinkLoop st = if len st.remaining > 0 then thinkLoop (thinkStep st) else st := by
  by_cases hpos : len st.remaining > 0
  · rw [if_pos hpos]
    have hlt := thinkStep_len_lt st hpos
    obtain ⟨k, hk⟩ := Nat.exists_eq_succ_of_ne_zero (Nat.pos_iff_ne_zero.mp hpos)
    unfold thinkLoop
    rw [hk]
    simp only [thinkLoopFuel, hpos, if_true]
    exact thinkLoopFuel_fuel k _ (thinkStep st) (by omega) (le_refl _)
  · rw [if_neg hpos]
    unfold thinkLoop
    have h0 : len st.remaining = 0 := by omega
    rw [h0]
    rfl

/-- The loop ends with `remaining` empty. -/
theorem thinkLoop_remaining (st : SplitState) : (thinkLoop st).remaining = "" := by
  suffices h : ∀ (n : Nat) (st : SplitState), len st.remaining ≤ n →
      (thinkLoop st).remaining = "" from h _ st (le_refl _)
  intro n
  induction n with
  | zero =>
    intro st h
    rw [thinkLoop_unfold, if_neg (by omega)]
    exact len_eq_zero.mp (by omega)
  | succ n ih =>
    intro st h
    rw [thinkLoop_unfold]
    split
    · rename_i hpos
      have := thinkStep_len_lt st hpos
      exact ih _ (by omega)
    · exact len_eq_zero.mp (by omega)

theorem thinkLoop_done (c r : String) (f : Bool) :
    thinkLoop { remaining := "", toContent := c, toReasoning := r, inThinking := f }
      = { remaining := "", toContent := c, toReasoning := r, inThinking := f } := rfl

theorem thinkLoop_open (a rest c r : String) (h : Contains a "<think>" = false) :
    thinkLoop { remaining := a ++ "<think>" ++ rest, toContent := c, toReasoning := r,
                inThinking := false }
      = thinkLoop { remaining := if HasPrefix rest "\n" then sliceFrom rest 1 else rest,
                    toContent := c ++ a, toReasoning := r, inThinking := true } := by
  have hpos : len (a ++ "<think>" ++ rest) > 0 := by
    rw [len_append, len_append]
    have : len "<think>" = 7 := rfl
    omega
  rw [thinkLoop_unfold, if_pos hpos, thinkStep_open a rest c r h]

theorem thinkLoop_close (x rest c r : String) (h : Contains x "</think>" = false) :
    thinkLoop { remaining := x ++ "</think>" ++ rest, toContent := c, toReasoning := r,
                inThinking := true }
      = thinkLoop { remaining := rest, toContent := c, toReasoning := r ++ x,
                    inThinking := false } := by
  have hpos : len (x ++ "</think>" ++ rest) > 0 := by
    rw [len_append, len_append]
    have : len "</think>" = 8 := rfl
    omega
  rw [thinkLoop_unfold, if_pos hpos, thinkStep_close x rest c r h]

theorem thinkLoop_plain (b c r : String) (h : Contains b "<think>" = false) :
    thinkLoop { remaining := b, toContent := c, toReasoning := r, inThinking := false }
      = { remaining := "", toContent := c ++ b, toReasoning := r, inThinking := false } := by
  rw [thinkLoop_unfold]
  split
  · rw [thinkStep_plain b c r h, thinkLoop_done]
  · rename_i hn
    have hb : b = "" := len_eq_zero.mp (by simpa using hn)
    subst hb
    simp

theorem thinkLoop_inside (x c r : String) (h : Contains x "</think>" = false) :
    thinkLoop { remaining := x, toContent := c, toReasoning := r, inThinking := true }
      = { remaining := "", toContent := c, toReasoning := r ++ x, inThinking := true } := by
  rw [thinkLoop_unfold]
  split
  · rw [thinkStep_inside x c r h, thinkLoop_done]
  · rename_i hn
    have hx : x = "" := len_eq_zero.mp (by simpa using hn)
    subst hx
    simp

/-- Text that does not start with a newline still does not when a closing marker follows. -/
theorem HasPrefix_nl_append (h rest : String) (hnl : HasPrefix h "\n" = false) :
    HasPrefix (h ++ "</think>" ++ rest) "\n" = false := by
  have hd : ("\n" : String).data = ['\n'] := rfl
  have hm : ("</think>" : String).data = '<' :: ("/think>" : String).data := rfl
  unfold HasPrefix at hnl ⊢
  rw [hd] at hnl ⊢
  simp only [String.data_append, hm]
  cases hh : h.data with
  | nil => simp [List.isPrefixOf]
  | cons c cs =>
    rw [hh] at hnl
    simpa [List.isPrefixOf] using hnl

/-! ## Lemmas on the scan loop -/

theorem HasPrefix_data_not_event (text : String) (h : HasPrefix text "data: " = true) :
    HasPrefix text "event: " = false := by
  have h1 : ("data: " : String).data = 'd' :: ("ata: " : String).data := rfl
  have h2 : ("event: " : String).data = 'e' :: ("vent: " : String).data := rfl
  unfold HasPrefix at h ⊢
  rw [h1] at h
  rw [h2]
  cases ht : text.data with
  | nil => simp [List.isPrefixOf]
  | cons c cs =>
    rw [ht] at h
    simp only [List.isPrefixOf, Bool.and_eq_true, beq_iff_eq] at h
    simp [List.isPrefixOf, ← h.1]

theorem processLine_event (L : Lib) (st : DecoderState) (ev : String) :
    processLine L st ("event: " ++ ev) = some ({ st with currentEvent := ev }, []) := by
  simp [processLine, HasPrefix_append, TrimPrefix_append]

theorem processLine_data (L : Lib) (st : DecoderState) (d : String) (hv : L.Valid d = true) :
    processLine L st ("data: " ++ d) = dispatchEvent L st d := by
  simp [processLine, HasPrefix_data_event, HasPrefix_append, TrimPrefix_append, hv]

theorem processLine_skipped (L : Lib) (st : DecoderState) (text : String)
    (h : skippedLine L text = true) : processLine L st text = some (st, []) := by
  unfold skippedLine at h
  simp only [Bool.or_eq_true, Bool.and_eq_true, Bool.not_eq_true'] at h
  rcases h with ⟨h1, h2⟩ | ⟨h1, h2⟩
  · simp [processLine, h1, h2]
  · simp [processLine, HasPrefix_data_not_event text h1, h1, h2]

theorem scanLoop_cons (L : Lib) (text : String) (rest : List String) (st : DecoderState) :
    scanLoop L (text :: rest) st =
      match processLine L st text with
      | none => (st, [])
      | some (st1, out) => ((scanLoop L rest st1).1, out ++ (scanLoop L rest st1).2) := rfl

theorem scanLoop_skip_filter (L : Lib) (lines : List String) :
    ∀ st : DecoderState,
      scanLoop L (lines.filter (fun t => !skippedLine L t)) st = scanLoop L lines st := by
  induction lines with
  | nil => intro st; rfl
  | cons text rest ih =>
    intro st
    by_cases h : skippedLine L text = true
    · rw [List.filter_cons_of_neg (by simp [h]), scanLoop_cons,
        processLine_skipped L st text h, ih st]
      simp
    · rw [List.filter_cons_of_pos (by simpa using h), scanLoop_cons, scanLoop_cons]
      cases processLine L st text with
      | none => rfl
      | some r => simp only [ih r.1]

theorem dispatchEvent_done (L : Lib) (st : DecoderState) (d : String)
    (h : st.currentEvent = "done" ∨ st.currentEvent = "end_of_workflow") :
    dispatchEvent L st d = none := by
  rcases h with h | h <;> simp [dispatchEvent, h]

theorem scanLoop_done_cut (L : Lib) (ev d : String) (suf : List String)
    (hev : ev = "done" ∨ ev = "end_of_workflow") (hv : L.Valid d = true) :
    ∀ (pre : List String) (st : DecoderState),
      scanLoop L (pre ++ ["event: " ++ ev, "data: " ++ d] ++ suf) st
        = scanLoop L (pre ++ ["event: " ++ ev, "data: " ++ d]) st := by
  intro pre
  induction pre with
  | nil =>
    intro st
    simp only [List.nil_append, List.cons_append, scanLoop_cons, processLine_event,
      processLine_data L _ d hv]
    rw [dispatchEvent_done L _ d hev]
  | cons text rest ih =>
    intro st
    simp only [List.cons_append, scanLoop_cons]
    cases processLine L st text with
    | none => rfl
    | some r =>
      have := ih r.1
      simp only [List.append_assoc, List.cons_append, List.nil_append] at this ⊢
      simp only [this]

theorem dispatchEvent_message (L : Lib) (st : DecoderState) (d : String)
    (h : st.currentEvent = "message") :
    dispatchEvent L st d =
      some (st, if L.GetString d "delta.content" ≠ "" then
                  [Effect.send (contentChunk (L.GetString d "delta.content"))] else []) := by
  by_cases hc : L.GetString d "delta.content" = ""
  · simp [dispatchEvent, h, hc]
  · simp [dispatchEvent, h, hc, sendChunk, contentChunk]

theorem scanLoop_message (L : Lib) (ds : List String) (hv : ∀ d ∈ ds, L.Valid d = true) :
    ∀ st : DecoderState, st.currentEvent = "message" →
      scanLoop L (ds.map (fun d => "data: " ++ d)) st
        = (st, ((ds.filter (fun d => L.GetString d "delta.content" ≠ "")).map
                  (fun d => Effect.send (contentChunk (L.GetString d "delta.content"))))) := by
  induction ds with
  | nil => intro st _; rfl
  | cons d rest ih =>
    intro st hst
    have hd : L.Valid d = true := hv d (by simp)
    have hrest : ∀ x ∈ rest, L.Valid x = true := fun x hx => hv x (by simp [hx])
    simp only [List.map_cons, scanLoop_cons, processLine_data L st d hd,
      dispatchEvent_message L st d hst, ih hrest st hst]
    by_cases hc : L.GetString d "delta.content" = ""
    · simp [hc]
    · simp [hc]

theorem chunksOf_append (a b : List Effect) : chunksOf (a ++ b) = chunksOf a ++ chunksOf b := by
  induction a with
  | nil => rfl
  | cons e es ih => cases e <;> simp [chunksOf, ih]

theorem publishedOf_append (a b : List Effect) :
    publishedOf (a ++ b) = publishedOf a ++ publishedOf b := by
  induction a with
  | nil => rfl
  | cons e es ih => cases e <;> simp [publishedOf, ih]

theorem chunksOf_map_send (cs : List Chunk) : chunksOf (cs.map Effect.send) = cs := by
  induction cs with
  | nil => rfl
  | cons c cs ih => simp [chunksOf, ih]

theorem publishedOf_map_send (cs : List Chunk) : publishedOf (cs.map Effect.send) = [] := by
  induction cs with
  | nil => rfl
  | cons c cs ih => simp [publishedOf, ih]

/-- A call `sendChunk(content, reasoning, "")`: no role marker and no finish reason. -/
theorem sendChunk_mid (content reasoning : String) :
    ∃ c : Chunk, sendChunk content reasoning "" = Effect.send c ∧
      deltaHas c "role" = false ∧ c.finish_reason = none := by
  refine ⟨_, rfl, ?_, ?_⟩
  · by_cases h1 : content = "" <;> by_cases h2 : reasoning = "" <;>
      simp [deltaHas, h1, h2, List.lookup]
  · simp

/-- Every effect of the switch statement is a chunk sent by `sendChunk(_, _, "")`. -/
theorem dispatchEvent_mid (L : Lib) (st st1 : DecoderState) (d : String) (out : List Effect)
    (h : dispatchEvent L st d = some (st1, out)) :
    ∃ cs : List Chunk, out = cs.map Effect.send ∧
      ∀ c ∈ cs, deltaHas c "role" = false ∧ c.finish_reason = none := by
  have hnil : ∃ cs : List Chunk, ([] : List Effect) = cs.map Effect.send ∧
      ∀ c ∈ cs, deltaHas c "role" = false ∧ c.finish_reason = none := ⟨[], rfl, by simp⟩
  have hone : ∀ a b : String, ∃ cs : List Chunk, [sendChunk a b ""] = cs.map Effect.send ∧
      ∀ c ∈ cs, deltaHas c "role" = false ∧ c.finish_reason = none := by
    intro a b
    obtain ⟨c, hc, h1, h2⟩ := sendChunk_mid a b
    exact ⟨[c], by simp [hc], by simp [h1, h2]⟩
  simp only [dispatchEvent] at h
  split at h
  · split at h <;> (simp only [Option.some.injEq, Prod.mk.injEq] at h; rw [← h.2])
    · exact hone _ _
    · exact hnil
  · split at h
    · split at h
      · split at h
        · simp only [Option.some.injEq, Prod.mk.injEq] at h
          rw [← h.2]
          split
          · exact hone _ _
          · exact hnil
        · simp only [Option.some.injEq, Prod.mk.injEq] at h; rw [← h.2]; exact hnil
      · simp only [Option.some.injEq, Prod.mk.injEq] at h; rw [← h.2]; exact hnil
    · split at h
      · split at h <;>
          (simp only [Option.some.injEq, Prod.mk.injEq] at h; rw [← h.2]; exact hnil)
      · split at h
        · exact absurd h (by simp)
        · simp only [Option.some.injEq, Prod.mk.injEq] at h; rw [← h.2]; exact hnil

theorem processLine_mid (L : Lib) (st st1 : DecoderState) (text : String) (out : List Effect)
    (h : processLine L st text = some (st1, out)) :
    ∃ cs : List Chunk, out = cs.map Effect.send ∧
      ∀ c ∈ cs, deltaHas c "role" = false ∧ c.finish_reason = none := by
  have hnil : ∃ cs : List Chunk, ([] : List Effect) = cs.map Effect.send ∧
      ∀ c ∈ cs, deltaHas c "role" = false ∧ c.finish_reason = none := ⟨[], rfl, by simp⟩
  unfold processLine at h
  split at h
  · simp only [Option.some.injEq, Prod.mk.injEq] at h; rw [← h.2]; exact hnil
  · split at h
    · simp only [Option.some.injEq, Prod.mk.injEq] at h; rw [← h.2]; exact hnil
    · simp only at h
      split at h
      · simp only [Option.some.injEq, Prod.mk.injEq] at h; rw [← h.2]; exact hnil
      · exact dispatchEvent_mid L st st1 _ out h

/-- The effects of the scan loop are chunks without role marker and without finish reason. -/
theorem scanLoop_mid (L : Lib) (lines : List String) :
    ∀ st : DecoderState, ∃ cs : List Chunk, (scanLoop L lines st).2 = cs.map Effect.send ∧
      ∀ c ∈ cs, deltaHas c "role" = false ∧ c.finish_reason = none := by
  induction lines with
  | nil => intro st; exact ⟨[], rfl, by simp⟩
  | cons text rest ih =>
    intro st
    rw [scanLoop_cons]
    cases hp : processLine L st text with
    | none => exact ⟨[], rfl, by simp⟩
    | some r =>
      obtain ⟨cs1, h1, h1p⟩ := processLine_mid L st r.1 text r.2 (by rw [hp])
      obtain ⟨cs2, h2, h2p⟩ := ih r.1
      refine ⟨cs1 ++ cs2, ?_, ?_⟩
      · simp only [h1, h2, List.map_append]
      · intro c hc
        rcases List.mem_append.mp hc with hc | hc
        · exact h1p c hc
        · exact h2p c hc

/-! ## Lemmas on usage accounting -/

theorem wrapInt64_range (x : Int) : inInt64 (wrapInt64 x) := by
  unfold inInt64 wrapInt64
  constructor <;> omega

theorem wrapInt64_of_range (x : Int) (h : inInt64 x) : wrapInt64 x = x := by
  unfold inInt64 at h
  unfold wrapInt64
  omega

theorem wrapInt64_add_wrap (a b : Int) : wrapInt64 (wrapInt64 a + b) = wrapInt64 (a + b) := by
  unfold wrapInt64
  omega

theorem dispatchEvent_none_iff (L : Lib) (st : DecoderState) (d : String) :
    dispatchEvent L st d = none ↔ isTerminalEvent (st.currentEvent, d) = true := by
  simp only [dispatchEvent, isTerminalEvent, Bool.or_eq_true, decide_eq_true_eq]
  constructor
  · intro h
    split at h
    · split at h <;> exact absurd h (by simp)
    · split at h
      · split at h
        · split at h <;> exact absurd h (by simp)
        · exact absurd h (by simp)
      · split at h
        · split at h <;> exact absurd h (by simp)
        · split at h
          · assumption
          · exact absurd h (by simp)
  · intro h
    rcases h with h | h <;> simp [h]

/-- What the switch statement does to the sticky event type and to the running totals. -/
theorem dispatchEvent_totals (L : Lib) (st st1 : DecoderState) (d : String) (out : List Effect)
    (h : dispatchEvent L st d = some (st1, out)) :
    st1.currentEvent = st.currentEvent ∧
    st1.totalPromptTokens =
      (if isQualifyingUsage L (st.currentEvent, d) = true then
        wrapInt64 (st.totalPromptTokens + L.GetInt d "usage.total_prompt_tokens")
       else st.totalPromptTokens) ∧
    st1.totalCompletionTokens =
      (if isQualifyingUsage L (st.currentEvent, d) = true then
        wrapInt64 (st.totalCompletionTokens + L.GetInt d "usage.total_completion_tokens")
       else st.totalCompletionTokens) := by
  simp only [dispatchEvent] at h
  simp only [isQualifyingUsage, Bool.and_eq_true, Bool.or_eq_true, decide_eq_true_eq]
  split at h
  · rename_i hm
    split at h <;>
      (simp only [Option.some.injEq, Prod.mk.injEq] at h; rw [← h.1]; simp [hm])
  · split at h
    · rename_i hm
      split at h
      · split at h <;>
          (simp only [Option.some.injEq, Prod.mk.injEq] at h; rw [← h.1]; simp [hm])
      · simp only [Option.some.injEq, Prod.mk.injEq] at h; rw [← h.1]; simp [hm]
    · split at h
      · rename_i hm
        split at h
        · rename_i hs
          simp only [Option.some.injEq, Prod.mk.injEq] at h
          rw [← h.1]
          simp [hm, hs]
        · rename_i hs
          simp only [Option.some.injEq, Prod.mk.injEq] at h
          rw [← h.1]
          simp [hm, hs]
      · rename_i hm
        split at h
        · exact absurd h (by simp)
        · simp only [Option.some.injEq, Prod.mk.injEq] at h; rw [← h.1]; simp [hm]

theorem usageSum_nil (L : Lib) (path : String) : usageSum L path [] = 0 := rfl

theorem usageSum_cons (L : Lib) (path : String) (e : String × String)
    (evs : List (String × String)) :
    usageSum L path (e :: evs) =
      (if isQualifyingUsage L e = true then L.GetInt e.2 path else 0) + usageSum L path evs := by
  unfold usageSum
  by_cases h : isQualifyingUsage L e = true
  · simp [List.filter_cons, h]
  · simp [List.filter_cons, h]

/-- The running totals on reaching `streamDone`, from any state with totals in range. -/
theorem scanLoop_totals (L : Lib) (lines : List String) :
    ∀ st : DecoderState, inInt64 st.totalPromptTokens → inInt64 st.totalCompletionTokens →
      (scanLoop L lines st).1.totalPromptTokens
        = wrapInt64 (st.totalPromptTokens + usageSum L "usage.total_prompt_tokens"
            ((eventsOf L st.currentEvent lines).takeWhile (fun e => !isTerminalEvent e))) ∧
      (scanLoop L lines st).1.totalCompletionTokens
        = wrapInt64 (st.totalCompletionTokens + usageSum L "usage.total_completion_tokens"
            ((eventsOf L st.currentEvent lines).takeWhile (fun e => !isTerminalEvent e))) := by
  induction lines with
  | nil =>
    intro st hp hc
    simp [scanLoop, eventsOf, usageSum_nil, wrapInt64_of_range _ hp, wrapInt64_of_range _ hc]
  | cons text rest ih =>
    intro st hp hc
    rw [scanLoop_cons]
    unfold processLine eventsOf
    by_cases he : HasPrefix text "event: " = true
    · simp only [he, if_true]
      exact ih _ hp hc
    · simp only [he, Bool.false_eq_true, if_false]
      by_cases hd : HasPrefix text "data: " = true
      · by_cases hv : L.Valid (TrimPrefix text "data: ") = true
        · simp only [hd, hv, Bool.not_true, Bool.false_eq_true, if_false, Bool.and_self, if_true]
          cases hde : dispatchEvent L st (TrimPrefix text "data: ") with
          | none =>
            have ht := (dispatchEvent_none_iff L st _).mp hde
            simp [List.takeWhile_cons, ht, usageSum_nil, wrapInt64_of_range _ hp,
              wrapInt64_of_range _ hc]
          | some r =>
            have hnt : isTerminalEvent (st.currentEvent, TrimPrefix text "data: ") = false := by
              cases hh : isTerminalEvent (st.currentEvent, TrimPrefix text "data: ") with
              | false => rfl
              | true =>
                rw [(dispatchEvent_none_iff L st _).mpr hh] at hde
                exact absurd hde (by simp)
            obtain ⟨h1, h2, h3⟩ := dispatchEvent_totals L st r.1 _ r.2 (by rw [hde])
            have hp1 : inInt64 r.1.totalPromptTokens := by
              rw [h2]; split
              · exact wrapInt64_range _
              · exact hp
            have hc1 : inInt64 r.1.totalCompletionTokens := by
              rw [h3]; split
              · exact wrapInt64_range _
              · exact hc
            obtain ⟨i1, i2⟩ := ih r.1 hp1 hc1
            simp only [List.takeWhile_cons, hnt, Bool.not_false, if_true, usageSum_cons]
            rw [i1, i2, h1, h2, h3]
            constructor
            · split
              · rw [wrapInt64_add_wrap, add_assoc]
              · simp
            · split
              · rw [wrapInt64_add_wrap, add_assoc]
              · simp
        · simp only [hd, hv, Bool.not_true, Bool.not_false, Bool.false_eq_true, if_false,
            if_true, Bool.and_false]
          exact ih _ hp hc
      · simp only [hd, Bool.not_false, if_true, Bool.false_and, Bool.false_eq_true, if_false]
        exact ih _ hp hc

theorem finalState_inInt64 (L : Lib) (lines : List String) :
    inInt64 (finalState L lines).totalPromptTokens ∧
    inInt64 (finalState L lines).totalCompletionTokens := by
  have h0 : inInt64 0 := by unfold inInt64; omega
  obtain ⟨h1, h2⟩ := scanLoop_totals L lines DecoderState.init h0 h0
  unfold finalState
  rw [h1, h2]
  exact ⟨wrapInt64_range _, wrapInt64_range _⟩

/-! ## Lemmas on the shape of the output and on `Execute` -/

theorem sendChunk_stop : sendChunk "" "" "stop" = Effect.send stopChunk := by
  simp [sendChunk, stopChunk]

theorem streamDone_eq (st : DecoderState) :
    streamDone st =
      (if st.totalPromptTokens > 0 ∨ st.totalCompletionTokens > 0 then
        [Effect.publish { InputTokens := st.totalPromptTokens,
                          OutputTokens := st.totalCompletionTokens,
                          TotalTokens := wrapInt64 (st.totalPromptTokens + st.totalCompletionTokens) }]
       else []) ++ [Effect.send stopChunk] := by
  unfold streamDone
  rw [sendChunk_stop]

/-- The output of the goroutine: the initial chunk, chunks without role marker and without
finish reason, and the code after `streamDone`. -/
theorem runDecoder_shape (L : Lib) (lines : List String) :
    ∃ cs : List Chunk, (∀ c ∈ cs, deltaHas c "role" = false ∧ c.finish_reason = none) ∧
      runDecoder L lines
        = Effect.send initialChunk :: (cs.map Effect.send ++ streamDone (finalState L lines)) := by
  obtain ⟨cs, h1, h2⟩ := scanLoop_mid L lines DecoderState.init
  exact ⟨cs, h2, by unfold runDecoder; rw [h1]⟩

theorem encodeChunk_not_data (L : Lib) (ids : StreamIds) (c : Chunk) :
    HasPrefix (encodeChunk L ids c) "data: " = false := by
  have h2 : ∀ t : String, ("\x7b\"choices\":[\x7b\"delta\":\x7b" ++ t).data
      = '\x7b' :: ("\"choices\":[\x7b\"delta\":\x7b" ++ t).data := by
    intro t
    simp [String.data_append]
  unfold HasPrefix encodeChunk
  simp only [String.append_assoc]
  rw [h2]
  simp [List.isPrefixOf]

/-- The loop of `Execute` skips every chunk that `ExecuteStream` sends: none of the payloads
starts with `data: `. -/
theorem drainStream_channelOf (L : Lib) (ids : StreamIds) (effects : List Effect) (acc : String) :
    drainStream L (channelOf L ids effects) acc = .ok acc := by
  unfold channelOf
  induction chunksOf effects with
  | nil => rfl
  | cons c cs ih => simp [drainStream, encodeChunk_not_data, ih]

theorem Execute_ok_empty (L : Lib) (ids : StreamIds) (body : String) :
    Execute L ids (.ok { StatusCode := 200, Body := body }) = .ok "" := by
  simp [Execute, ExecuteStream, drainStream_channelOf]

/-! ## Theorems for the claims -/

/-- C2: tag-splitting on a single fragment.  For `a` without `<think>`, `h` without
`</think>` and not starting with a newline, and `b` without `<think>`, the algorithm entered
with the flag false on `a ++ "<think>" ++ h ++ "</think>" ++ b` gives the content `a ++ b`,
the reasoning `h`, and leaves the flag false. -/
theorem tagSplit_single_fragment (a h b : String)
    (ha : Contains a "<think>" = false) (hh : Contains h "</think>" = false)
    (hnl : HasPrefix h "\n" = false) (hb : Contains b "<think>" = false) :
    tagSplit false (a ++ "<think>" ++ h ++ "</think>" ++ b) = (a ++ b, h, false) := by
  have e : a ++ "<think>" ++ h ++ "</think>" ++ b = a ++ "<think>" ++ (h ++ "</think>" ++ b) := by
    simp only [String.append_assoc]
  unfold tagSplit
  rw [e, thinkLoop_open a _ "" "" ha, HasPrefix_nl_append h b hnl]
  simp only [Bool.false_eq_true, if_false]
  rw [thinkLoop_close h b _ _ hh, thinkLoop_plain b _ _ hb]
  simp

/-- C2, at the fragment `before<think>hidden</think>after`. -/
theorem tagSplit_single_fragment_witness :
    Contains "before" "<think>" = false ∧ Contains "hidden" "</think>" = false ∧
    HasPrefix "hidden" "\n" = false ∧ Contains "after" "<think>" = false ∧
    tagSplit false ("before" ++ "<think>" ++ "hidden" ++ "</think>" ++ "after")
      = ("before" ++ "after", "hidden", false) :=
  ⟨by decide, by decide, by decide, by decide,
   tagSplit_single_fragment "before" "hidden" "after" (by decide) (by decide) (by decide)
     (by decide)⟩

/-- C3: tag-splitting across two fragments with the flag carried.  For `a` without `<think>`,
`x` and `y` without `</think>` (`x` not starting with a newline) and `b` without `<think>`:
from the flag false the fragment `a ++ "<think>" ++ x` gives content `a`, reasoning `x` and
the flag true; the next fragment `y ++ "</think>" ++ b`, entered with the flag the first one
left, gives content `b`, reasoning `y` and the flag false. -/
theorem tagSplit_two_fragments (a x y b : String)
    (ha : Contains a "<think>" = false) (hx : Contains x "</think>" = false)
    (hnl : HasPrefix x "\n" = false) (hy : Contains y "</think>" = false)
    (hb : Contains b "<think>" = false) :
    tagSplit false (a ++ "<think>" ++ x) = (a, x, true) ∧
    tagSplit (tagSplit false (a ++ "<think>" ++ x)).2.2 (y ++ "</think>" ++ b)
      = (b, y, false) := by
  have h1 : tagSplit false (a ++ "<think>" ++ x) = (a, x, true) := by
    unfold tagSplit
    rw [thinkLoop_open a x "" "" ha, hnl]
    simp only [Bool.false_eq_true, if_false]
    rw [thinkLoop_inside x _ _ hx]
    simp
  refine ⟨h1, ?_⟩
  rw [h1]
  unfold tagSplit
  simp only
  rw [thinkLoop_close y b _ _ hy, thinkLoop_plain b _ _ hb]
  simp

/-- C3, at the fragments `a<think>x` and `y</think>b`. -/
theorem tagSplit_two_fragments_witness :
    Contains "a" "<think>" = false ∧ Contains "x" "</think>" = false ∧
    HasPrefix "x" "\n" = false ∧ Contains "y" "</think>" = false ∧
    Contains "b" "<think>" = false ∧
    tagSplit false ("a" ++ "<think>" ++ "x") = ("a", "x", true) ∧
    tagSplit (tagSplit false ("a" ++ "<think>" ++ "x")).2.2 ("y" ++ "</think>" ++ "b")
      = ("b", "y", false) :=
  ⟨by decide, by decide, by decide, by decide, by decide,
   tagSplit_two_fragments "a" "x" "y" "b" (by decide) (by decide) (by decide) (by decide)
     (by decide)⟩

/-- C1 (the code departs from the claim): `Execute` assembles the empty content for every
response with status 200, because no payload that `sendChunk` puts on the channel starts with
`data: `; on the stream whose chunks carry the content deltas `Hel` and `lo` it returns the
content `""`, not `Hello`. -/
theorem Execute_loses_content :
    (∀ (L : Lib) (ids : StreamIds) (body : String),
      Execute L ids (.ok { StatusCode := 200, Body := body }) = .ok "") ∧
    ExecuteStream sampleLib (.ok { StatusCode := 200, Body := helloBody })
      = .ok [Effect.send initialChunk, Effect.send (contentChunk "Hel"),
             Effect.send (contentChunk "lo"), Effect.send stopChunk] ∧
    Execute sampleLib sampleIds (.ok { StatusCode := 200, Body := helloBody }) = .ok "" :=
  ⟨Execute_ok_empty, by rfl, Execute_ok_empty _ _ _⟩

/-- C4 as stated fails: after two `main_agent_end` events with 2^62 prompt tokens each, the
input count is -2^63, while the sum over the two events is 2^63. -/
theorem usage_accumulation_counterexample :
    (finalState sampleLib promptOverflowLines).totalPromptTokens = -9223372036854775808 ∧
    usageSum sampleLib "usage.total_prompt_tokens" (processedEvents sampleLib promptOverflowLines)
      = 9223372036854775808 := by
  constructor <;> decide

/-- C4, amended: at stream end the input and output token counts are the sums of
`usage.total_prompt_tokens` and `usage.total_completion_tokens` over exactly the `usage_info`
events processed before termination whose scene is `main_agent_end` or `summary_llm_end`,
reduced to the signed 64-bit range; they are the exact sums whenever these lie in that range. -/
theorem usage_accumulation (L : Lib) (lines : List String) :
    (finalState L lines).totalPromptTokens
      = wrapInt64 (usageSum L "usage.total_prompt_tokens" (processedEvents L lines)) ∧
    (finalState L lines).totalCompletionTokens
      = wrapInt64 (usageSum L "usage.total_completion_tokens" (processedEvents L lines)) ∧
    (inInt64 (usageSum L "usage.total_prompt_tokens" (processedEvents L lines)) →
      (finalState L lines).totalPromptTokens
        = usageSum L "usage.total_prompt_tokens" (processedEvents L lines)) ∧
    (inInt64 (usageSum L "usage.total_completion_tokens" (processedEvents L lines)) →
      (finalState L lines).totalCompletionTokens
        = usageSum L "usage.total_completion_tokens" (processedEvents L lines)) := by
  have h0 : inInt64 0 := by unfold inInt64; omega
  obtain ⟨h1, h2⟩ := scanLoop_totals L lines DecoderState.init h0 h0
  simp only [DecoderState.init, zero_add] at h1 h2
  refine ⟨h1, h2, ?_, ?_⟩
  · intro h
    exact h1.trans (wrapInt64_of_range _ h)
  · intro h
    exact h2.trans (wrapInt64_of_range _ h)

/-- C4, amended, at two `main_agent_end` events carrying (5, 10) and (3, 2): input 8,
output 12. -/
theorem usage_accumulation_witness :
    inInt64 (usageSum sampleLib "usage.total_prompt_tokens" (processedEvents sampleLib usageLines)) ∧
    inInt64 (usageSum sampleLib "usage.total_completion_tokens"
      (processedEvents sampleLib usageLines)) ∧
    (finalState sampleLib usageLines).totalPromptTokens = 8 ∧
    (finalState sampleLib usageLines).totalCompletionTokens = 12 :=
  ⟨⟨by decide, by decide⟩, ⟨by decide, by decide⟩,
   ((usage_accumulation sampleLib usageLines).2.2.1 ⟨by decide, by decide⟩).trans (by decide),
   ((usage_accumulation sampleLib usageLines).2.2.2 ⟨by decide, by decide⟩).trans (by decide)⟩

/-- C5 as stated fails: after one `summary_llm_end` event carrying 2^62 prompt tokens and 2^62
completion tokens the published total is -2^63, not input + output. -/
theorem usage_published_once_counterexample :
    publishedOf (runDecoder sampleLib totalOverflowLines)
      = [{ InputTokens := 4611686018427387904, OutputTokens := 4611686018427387904,
           TotalTokens := -9223372036854775808 }] ∧
    (4611686018427387904 : Int) + 4611686018427387904 ≠ -9223372036854775808 := by
  constructor <;> decide

/-- C5, amended: the decoder publishes a UsageDetail at most once per stream, exactly once if
and only if the accumulated input total or output total is greater than zero at stream end;
the published input and output are the accumulated totals and the published total is their
sum in signed 64-bit arithmetic, which is input + output whenever that is below 2^63; the
publish comes after every other chunk and immediately before the terminal stop chunk. -/
theorem usage_published_once (L : Lib) (lines : List String) :
    (publishedOf (runDecoder L lines)).length ≤ 1 ∧
    ((publishedOf (runDecoder L lines)).length = 1 ↔
      ((finalState L lines).totalPromptTokens > 0 ∨
       (finalState L lines).totalCompletionTokens > 0)) ∧
    (∀ d ∈ publishedOf (runDecoder L lines),
      d.InputTokens = (finalState L lines).totalPromptTokens ∧
      d.OutputTokens = (finalState L lines).totalCompletionTokens ∧
      d.TotalTokens = wrapInt64 (d.InputTokens + d.OutputTokens) ∧
      (d.InputTokens + d.OutputTokens < 9223372036854775808 →
        d.TotalTokens = d.InputTokens + d.OutputTokens)) ∧
    (∃ cs : List Chunk, (∀ c ∈ cs, c.finish_reason = none) ∧
      runDecoder L lines
        = cs.map Effect.send ++
            ((publishedOf (runDecoder L lines)).map Effect.publish ++
              [Effect.send stopChunk])) := by
  obtain ⟨cs, hcs, hrun⟩ := runDecoder_shape L lines
  obtain ⟨hr1, hr2⟩ := finalState_inInt64 L lines
  have hpub : publishedOf (runDecoder L lines)
      = if (finalState L lines).totalPromptTokens > 0 ∨
           (finalState L lines).totalCompletionTokens > 0 then
          [{ InputTokens := (finalState L lines).totalPromptTokens,
             OutputTokens := (finalState L lines).totalCompletionTokens,
             TotalTokens := wrapInt64 ((finalState L lines).totalPromptTokens +
               (finalState L lines).totalCompletionTokens) }]
        else [] := by
    rw [hrun, streamDone_eq]
    simp only [publishedOf]
    rw [publishedOf_append, publishedOf_map_send, publishedOf_append]
    split <;> simp [publishedOf]
  refine ⟨?_, ?_, ?_, ?_⟩
  · rw [hpub]; split <;> simp
  · rw [hpub]; split <;> simp [*]
  · intro d hd
    rw [hpub] at hd
    split at hd
    · rename_i hpos
      simp only [List.mem_singleton] at hd
      subst hd
      refine ⟨rfl, rfl, rfl, ?_⟩
      intro hlt
      simp only at hlt ⊢
      apply wrapInt64_of_range
      unfold inInt64 at hr1 hr2 ⊢
      omega
    · simp at hd
  · refine ⟨initialChunk :: cs, ?_, ?_⟩
    · intro c hc
      rcases List.mem_cons.mp hc with h | h
      · rw [h]; rfl
      · exact (hcs c h).2
    · rw [hpub]
      rw [hrun, streamDone_eq]
      split <;> simp

/-- C5, amended, at two `main_agent_end` events carrying (5, 10) and (3, 2): one published
UsageDetail with input 8, output 12 and total 20 = 8 + 12. -/
theorem usage_published_once_witness :
    publishedOf (runDecoder sampleLib usageLines)
      = [{ InputTokens := 8, OutputTokens := 12, TotalTokens := 20 }] ∧
    (8 : Int) + 12 < 9223372036854775808 ∧
    (20 : Int) = 8 + 12 :=
  ⟨by decide, by decide,
   ((usage_published_once sampleLib usageLines).2.2.1
      { InputTokens := 8, OutputTokens := 12, TotalTokens := 20 } (by decide)).2.2.2
      (by decide)⟩

/-- C6: a `done` or `end_of_workflow` event stops decoding.  For all line sequences `pre` and
`suf`, decoding `pre ++ ["event: done", data line with valid JSON] ++ suf` has the same effects
(chunks sent and usage published, in order) and reaches `streamDone` in the same state as
decoding `pre ++ ["event: done", that data line]`: no line of `suf` counts. -/
theorem done_stops_decoding (L : Lib) (pre suf : List String) (ev d : String)
    (hev : ev = "done" ∨ ev = "end_of_workflow") (hv : L.Valid d = true) :
    runDecoder L (pre ++ ["event: " ++ ev, "data: " ++ d] ++ suf)
      = runDecoder L (pre ++ ["event: " ++ ev, "data: " ++ d]) ∧
    finalState L (pre ++ ["event: " ++ ev, "data: " ++ d] ++ suf)
      = finalState L (pre ++ ["event: " ++ ev, "data: " ++ d]) := by
  have h := scanLoop_done_cut L ev d suf hev hv pre DecoderState.init
  unfold runDecoder finalState
  rw [h]
  exact ⟨rfl, rfl⟩

/-- C6, at a `done` event between a `message` event with content `Hel` and one with `lo`. -/
theorem done_stops_decoding_witness :
    ("done" = "done" ∨ "done" = "end_of_workflow") ∧ sampleLib.Valid (jObj []) = true ∧
    runDecoder sampleLib (["event: message", "data: " ++ msgDoc "Hel"] ++
        ["event: " ++ "done", "data: " ++ jObj []] ++ ["event: message", "data: " ++ msgDoc "lo"])
      = runDecoder sampleLib (["event: message", "data: " ++ msgDoc "Hel"] ++
        ["event: " ++ "done", "data: " ++ jObj []]) :=
  ⟨by decide, by decide,
   (done_stops_decoding sampleLib ["event: message", "data: " ++ msgDoc "Hel"]
      ["event: message", "data: " ++ msgDoc "lo"] "done" (jObj []) (by decide) (by decide)).1⟩

/-- The decoder on the line `event: message` followed by data lines with valid payloads, as
the scanner yields them: one chunk for each payload whose `delta.content` is not empty, in
order, carrying that content and nothing else. -/
theorem runDecoder_message_lines (L : Lib) (ds : List String)
    (hv : ∀ d ∈ ds, L.Valid d = true) :
    runDecoder L ("event: message" :: ds.map (fun d => "data: " ++ d))
      = Effect.send initialChunk ::
          ((ds.filter (fun d => L.GetString d "delta.content" ≠ "")).map
              (fun d => Effect.send (contentChunk (L.GetString d "delta.content")))
            ++ [Effect.send stopChunk]) ∧
    ((∀ d ∈ ds, L.GetString d "delta.content" ≠ "") →
      chunksOf (runDecoder L ("event: message" :: ds.map (fun d => "data: " ++ d)))
        = initialChunk ::
            (ds.map (fun d => contentChunk (L.GetString d "delta.content")) ++ [stopChunk])) := by
  have he : ("event: message" : String) = "event: " ++ "message" := by decide
  have hscan : scanLoop L ("event: message" :: ds.map (fun d => "data: " ++ d)) DecoderState.init
      = ({ DecoderState.init with currentEvent := "message" },
          (ds.filter (fun d => L.GetString d "delta.content" ≠ "")).map
              (fun d => Effect.send (contentChunk (L.GetString d "delta.content")))) := by
    rw [scanLoop_cons, he, processLine_event]
    have hm := scanLoop_message L ds hv
      { DecoderState.init with currentEvent := "message" } rfl
    simp only [hm, List.nil_append]
  have hrun : runDecoder L ("event: message" :: ds.map (fun d => "data: " ++ d))
      = Effect.send initialChunk ::
          ((ds.filter (fun d => L.GetString d "delta.content" ≠ "")).map
              (fun d => Effect.send (contentChunk (L.GetString d "delta.content")))
            ++ [Effect.send stopChunk]) := by
    unfold runDecoder finalState
    rw [hscan, streamDone_eq]
    simp [DecoderState.init]
  refine ⟨hrun, ?_⟩
  intro hne
  have hf : ds.filter (fun d => L.GetString d "delta.content" ≠ "") = ds := by
    apply List.filter_eq_self.mpr
    intro d hd
    simpa using hne d hd
  rw [hrun, hf]
  simp only [chunksOf]
  rw [chunksOf_append]
  have hm : (ds.map (fun d => Effect.send (contentChunk (L.GetString d "delta.content"))))
      = (ds.map (fun d => contentChunk (L.GetString d "delta.content"))).map Effect.send := by
    simp
  rw [hm, chunksOf_map_send]
  rfl

/-- Among the lines the scanner yields, those the decoder skips do not matter: without them
the effects of the decoder are the same. -/
theorem runDecoder_skip_filter (L : Lib) (lines : List String) :
    runDecoder L (lines.filter (fun t => !skippedLine L t)) = runDecoder L lines := by
  unfold runDecoder finalState
  rw [scanLoop_skip_filter]

/-- C9: stream framing.  For every line sequence the chunks sent are at least two; they are
the chunk with delta role=assistant and no finish reason, then chunks with no role marker and
no finish reason, then the chunk with an empty delta and finish reason `stop`; no chunk
carries both the role marker and a finish reason. -/
theorem stream_framing (L : Lib) (lines : List String) :
    2 ≤ (chunksOf (runDecoder L lines)).length ∧
    (∃ mid : List Chunk,
      chunksOf (runDecoder L lines)
        = { delta := [("role", "assistant")], finish_reason := none } ::
            (mid ++ [{ delta := [], finish_reason := some "stop" }]) ∧
      ∀ c ∈ mid, deltaHas c "role" = false ∧ c.finish_reason = none) ∧
    (∀ c ∈ chunksOf (runDecoder L lines),
      ¬ (deltaHas c "role" = true ∧ c.finish_reason ≠ none)) := by
  obtain ⟨cs, hcs, hrun⟩ := runDecoder_shape L lines
  have hch : chunksOf (runDecoder L lines) = initialChunk :: (cs ++ [stopChunk]) := by
    rw [hrun, streamDone_eq]
    simp only [chunksOf]
    rw [chunksOf_append, chunksOf_map_send, chunksOf_append]
    split <;> simp [chunksOf]
  refine ⟨?_, ⟨cs, hch, hcs⟩, ?_⟩
  · rw [hch]
    simp
  · intro c hc
    rw [hch] at hc
    rcases List.mem_cons.mp hc with h | h
    · rw [h]
      simp [initialChunk]
    · rcases List.mem_append.mp h with h | h
      · simp [(hcs c h).1]
      · simp only [List.mem_singleton] at h
        rw [h]
        simp [stopChunk, deltaHas]

/-- C10: error normalisation.  For every non-2xx status `s` and body `b`, `ExecuteStream`
fails synchronously with the status error whose code is `s` and whose message is the first
non-empty value among the JSON fields `error.message`, `message`, `detail` of `b`, in this
order, or the raw text of `b` when none of them yields a value. -/
theorem non2xx_is_upstream_error (L : Lib) (s : Int) (b : String) (hs : s < 200 ∨ 300 ≤ s) :
    ExecuteStream L (.ok { StatusCode := s, Body := b })
      = .error (.status { code := s, msg := firstNonEmpty (errorFields L b) b }) := by
  have hne : s ≠ 200 := by omega
  have hmsg : upstreamErrMsg L b = firstNonEmpty (errorFields L b) b := by
    unfold upstreamErrMsg errorFields
    by_cases hv : L.Valid b = true
    · simp only [hv, if_true, firstNonEmpty]
    · simp only [hv, Bool.false_eq_true, if_false, firstNonEmpty]
  simp only [ExecuteStream, hne, ne_eq, not_false_eq_true, if_true, hmsg]

/-- C10, at status 429 with the body `{"error":{"message":"rate limited"}}`. -/
theorem non2xx_is_upstream_error_witness :
    ((429 : Int) < 200 ∨ (300 : Int) ≤ 429) ∧
    ExecuteStream sampleLib
        (.ok { StatusCode := 429, Body := jObj [("error", jObj [("message", jStr "rate limited")])] })
      = .error (.status { code := 429, msg := "rate limited" }) :=
  ⟨by decide,
   (non2xx_is_upstream_error sampleLib 429
      (jObj [("error", jObj [("message", jStr "rate limited")])]) (by decide)).trans (by rfl)⟩

/-! ## Lemmas on `strings.Split` and on the mode -/

/-- An occurrence found by `strings.Index` lies inside the text. -/
theorem indexFrom_bound (sub : List Char) :
    ∀ (l : List Char) (k : Nat), 0 ≤ indexFrom sub l k →
      (indexFrom sub l k).toNat + sub.length ≤ k + l.length := by
  intro l
  induction l with
  | nil =>
    intro k h
    unfold indexFrom at h ⊢
    split at h
    · rename_i hp
      have hs : sub = [] := by
        cases sub with
        | nil => rfl
        | cons c cs => simp [List.isPrefixOf] at hp
      simp [hp, hs]
    · exfalso; omega
  | cons c cs ih =>
    intro k h
    unfold indexFrom at h ⊢
    split at h
    · rename_i hp
      have hle : sub.length ≤ (c :: cs).length :=
        (List.isPrefixOf_iff_prefix.mp hp).length_le
      simp only [hp, if_true, Int.toNat_ofNat]
      omega
    · rename_i hp
      simp only [hp, Bool.false_eq_true, if_false]
      have := ih (k + 1) h
      simp only [List.length_cons]
      omega

theorem Index_bound (s sep : String) (h : ¬ Index s sep < 0) :
    (Index s sep).toNat + len sep ≤ len s := by
  have := indexFrom_bound sep.data s.data 0 (by unfold Index at h; omega)
  unfold Index len
  omega

/-- With fuel for `len s` cuts `strings.Split` is not cut short: more fuel gives the same
parts. -/
theorem splitFuel_fuel (sep : String) (hsep : 0 < len sep) :
    ∀ (n m : Nat) (s : String), len s ≤ n → len s ≤ m →
      splitFuel n s sep = splitFuel m s sep := by
  have hz : ∀ (k : Nat) (s : String), len s = 0 → splitFuel k s sep = [s] := by
    intro k s hs
    cases k with
    | zero => rfl
    | succ k =>
      unfold splitFuel
      by_cases hi : Index s sep < 0
      · simp [hi]
      · have := Index_bound s sep hi
        omega
  intro n
  induction n with
  | zero =>
    intro m s hn _
    rw [hz 0 s (by omega), hz m s (by omega)]
  | succ n ih =>
    intro m s hn hm
    cases m with
    | zero => rw [hz 0 s (by omega), hz (n + 1) s (by omega)]
    | succ m =>
      unfold splitFuel
      by_cases hi : Index s sep < 0
      · simp [hi]
      · have hb := Index_bound s sep hi
        simp only [hi, if_false]
        congr 1
        apply ih
        · rw [len_sliceFrom]; omega
        · rw [len_sliceFrom]; omega

theorem Split_unfold (s sep : String) (hsep : 0 < len sep) :
    Split s sep =
      if Index s sep < 0 then [s]
      else sliceTo s (Index s sep).toNat ::
        Split (sliceFrom s ((Index s sep).toNat + len sep)) sep := by
  unfold Split
  by_cases hi : Index s sep < 0
  · cases h : len s with
    | zero => simp [splitFuel, hi]
    | succ k => simp [splitFuel, hi]
  · have hb := Index_bound s sep hi
    obtain ⟨k, hk⟩ : ∃ k, len s = k + 1 := ⟨len s - 1, by omega⟩
    rw [hk]
    simp only [splitFuel, hi, if_false]
    congr 1
    apply splitFuel_fuel sep hsep
    · rw [len_sliceFrom]; omega
    · exact le_refl _

theorem indexFrom_dash_absent :
    ∀ (l : List Char) (i : Nat), '-' ∉ l → indexFrom ['-'] l i = -1 := by
  intro l
  induction l with
  | nil => intro i _; simp [indexFrom, List.isPrefixOf]
  | cons c cs ih =>
    intro i h
    simp only [List.mem_cons, not_or] at h
    unfold indexFrom
    have hc : ¬ ('-' = c) := h.1
    simp [List.isPrefixOf, hc, ih (i + 1) h.2]

theorem takeWhile_dropWhile_dash (r : List Char) :
    '-' ∉ r.takeWhile (fun c => c ≠ '-') ∧
    (r = r.takeWhile (fun c => c ≠ '-') ∨
      ∃ d, r = r.takeWhile (fun c => c ≠ '-') ++ '-' :: d) := by
  induction r with
  | nil => simp
  | cons c cs ih =>
    by_cases hc : c = '-'
    · subst hc
      simp [List.takeWhile]
    · obtain ⟨h1, h2⟩ := ih
      have hc2 : ¬ ('-' = c) := fun h => hc h.symm
      simp only [List.takeWhile, ne_eq, hc, not_false_eq_true, decide_True, List.mem_cons, hc2,
        false_or, List.cons_append, List.cons.injEq, true_and]
      exact ⟨h1, h2⟩

/-- The parts of `miromind-` followed by `r`: `miromind`, then the text of `r` before its
first `-`. -/
theorem Split_miromind (r : List Char) :
    ∃ tl, Split ⟨"miromind-".data ++ r⟩ "-"
      = "miromind" :: ⟨r.takeWhile (fun c => c ≠ '-')⟩ :: tl := by
  have hsep : 0 < len "-" := by decide
  have hm : (⟨"miromind-".data ++ r⟩ : String) = "miromind" ++ "-" ++ ⟨r⟩ := by
    apply String.ext
    simp [String.data_append]
  have hi := Index_append_marker "-" '-' [] rfl (by simp) "miromind" ⟨r⟩ (by decide)
  have h1 : Split ⟨"miromind-".data ++ r⟩ "-" = "miromind" :: Split ⟨r⟩ "-" := by
    rw [hm, Split_unfold _ _ hsep, hi]
    have hl : len "-" = 1 := rfl
    have hlm : len "miromind" + 1 = len ("miromind" ++ "-") := by rw [len_append, hl]
    simp only [Int.toNat_ofNat, hl]
    rw [if_neg (by omega)]
    rw [String.append_assoc, sliceTo_append_len, ← String.append_assoc, hlm,
      sliceFrom_append_len]
  obtain ⟨hv, hr⟩ := takeWhile_dropWhile_dash r
  have hcv : Contains ⟨r.takeWhile (fun c => c ≠ '-')⟩ "-" = false := by
    rw [Contains_false_iff]
    exact indexFrom_dash_absent _ 0 hv
  rcases hr with hr | ⟨d, hr⟩
  · refine ⟨[], ?_⟩
    rw [h1, Split_unfold _ _ hsep]
    have : Index ⟨r⟩ "-" = -1 := by
      rw [hr]
      exact (Contains_false_iff _ _).mp hcv
    rw [this, if_pos (by omega), ← hr]
  · refine ⟨Split ⟨d⟩ "-", ?_⟩
    have hrd : (⟨r⟩ : String) = ⟨r.takeWhile (fun c => c ≠ '-')⟩ ++ "-" ++ ⟨d⟩ := by
      apply String.ext
      simp only [String.data_append]
      simpa using hr
    have hi2 := Index_append_marker "-" '-' [] rfl (by simp) _ ⟨d⟩ hcv
    rw [h1, Split_unfold ⟨r⟩ _ hsep]
    have hl : len "-" = 1 := rfl
    rw [hrd, hi2]
    simp only [Int.toNat_ofNat, hl]
    rw [if_neg (by omega)]
    have hlm : ∀ v : String, len v + 1 = len (v ++ "-") := by
      intro v; rw [len_append, hl]
    rw [String.append_assoc, sliceTo_append_len, ← String.append_assoc, hlm,
      sliceFrom_append_len]

theorem HasPrefix_data (s pre : String) (h : HasPrefix s pre = true) :
    s = ⟨pre.data ++ s.data.drop (len pre)⟩ := by
  unfold HasPrefix at h
  obtain ⟨t, ht⟩ := List.isPrefixOf_iff_prefix.mp h
  apply String.ext
  simp only [len]
  rw [← ht]
  simp

theorem resolveMode_eq_modeSpec (m : String) : resolveMode m = modeSpec m := by
  unfold resolveMode modeSpec variantOf
  by_cases hp : HasPrefix m "miromind-" = true
  · have hm := HasPrefix_data m "miromind-" hp
    have hl : len "miromind-" = 9 := rfl
    rw [hl] at hm
    obtain ⟨tl, hs⟩ := Split_miromind (m.data.drop 9)
    rw [← hm] at hs
    simp only [hp, if_true, hs]
  · simp only [hp, Bool.false_eq_true, if_false]

theorem miromindRequestOf_mode (J : JsonLib) (req : Request) (mm : miromindRequest)
    (h : miromindRequestOf J req = .ok mm) : mm.Mode = resolveMode (J.ParseSuffix req.Model) := by
  simp only [miromindRequestOf] at h
  split at h
  · exact absurd h (by simp)
  · injection h with h
    rw [← h]

/-- C11: mode resolution in `buildMiroMindRequest`.  The mode derived from a model name `m`
is the variant when `m` has the form `miromind-<variant>[-...]` and the variant is not `chat`;
otherwise it is `fast` when `m` contains `fast` compared case-insensitively, and `pro` in
every other case; and the mode of every request that is built is this function of the model
name of the request. -/
theorem mode_resolution :
    (∀ m : String, resolveMode m = modeSpec m) ∧
    (∀ (J : JsonLib) (req : Request) (mm : miromindRequest),
      miromindRequestOf J req = .ok mm → mm.Mode = modeSpec (J.ParseSuffix req.Model)) :=
  ⟨resolveMode_eq_modeSpec, fun J req mm h => by
    rw [miromindRequestOf_mode J req mm h, resolveMode_eq_modeSpec]⟩

set_option maxRecDepth 100000 in
/-- C11, at the model names `miromind-deep-v2` (variant `deep`), `miromind-chat-FAST`
(reserved variant, `fast`), `gpt-4o` (`pro`), and at a request for `miromind-fast(8192)`. -/
theorem mode_resolution_witness :
    modeSpec "miromind-deep-v2" = "deep" ∧ resolveMode "miromind-deep-v2" = "deep" ∧
    resolveMode "miromind-chat-FAST" = "fast" ∧ resolveMode "miromind-chat" = "pro" ∧
    resolveMode "gpt-4o" = "pro" ∧
    miromindRequestOf sampleJson { Model := "miromind-fast(8192)", Payload := helloPayload }
      = .ok { Messages := [{ role := "user", content := "Hello" }], Debug := false,
              Mode := "fast" } ∧
    modeSpec (sampleJson.ParseSuffix "miromind-fast(8192)") = "fast" :=
  ⟨by decide, (mode_resolution.1 "miromind-deep-v2").trans (by decide), by decide, by decide,
   by decide, by rfl,
   (mode_resolution.2 sampleJson { Model := "miromind-fast(8192)", Payload := helloPayload }
      { Messages := [{ role := "user", content := "Hello" }], Debug := false, Mode := "fast" }
      (by rfl)).symm⟩

/-! ## Lemmas on `gjson` results and on JSON objects -/

theorem ResultExists_of_isArray (r : Result) (h : ResultIsArray r = true) :
    ResultExists r = true := by
  unfold ResultIsArray at h
  simp only [Bool.and_eq_true, decide_eq_true_eq] at h
  simp [ResultExists, h.1.1]

/-- `String()` of an array is its raw JSON text. -/
theorem ResultString_of_isArray (J : JsonLib) (r : Result) (h : ResultIsArray r = true) :
    ResultString J r = r.Raw := by
  unfold ResultIsArray at h
  simp only [Bool.and_eq_true, decide_eq_true_eq] at h
  simp [ResultString, h.1.1]

theorem ResultArray_of_isArray (J : JsonLib) (r : Result) (h : ResultIsArray r = true) :
    ResultArray J r = J.Elements r.Raw := by
  have h2 := h
  unfold ResultIsArray at h2
  simp only [Bool.and_eq_true, decide_eq_true_eq] at h2
  simp [ResultArray, h, h2.1.1]

/-- `String()` of a JSON string is the string. -/
theorem ResultString_of_string (J : JsonLib) (r : Result) (h : r.Typ = .TString) :
    ResultString J r = r.Str := by
  simp [ResultString, h]

/-- A path that does not exist has type `Null`. -/
theorem ResultTyp_of_not_exists (r : Result) (h : ResultExists r = false) : r.Typ = .TNull := by
  unfold ResultExists at h
  simp only [ne_eq, Bool.or_eq_false_iff, decide_eq_false_iff_not, not_not] at h
  exact h.1

theorem ResultBool_of_not_exists (J : JsonLib) (r : Result) (h : ResultExists r = false) :
    ResultBool J r = false := by
  simp [ResultBool, ResultTyp_of_not_exists r h]

theorem lookup_objSet {α : Type} (doc : List (String × α)) (key k : String) (v : α) :
    (objSet doc key v).lookup k = if k = key then some v else doc.lookup k := by
  induction doc with
  | nil =>
    simp only [objSet, List.lookup_cons, List.lookup_nil]
    by_cases h : k = key
    · simp [h]
    · have hb : (k == key) = false := by simpa using h
      simp [h, hb]
  | cons p rest ih =>
    obtain ⟨k0, x⟩ := p
    unfold objSet
    by_cases h0 : k0 = key
    · subst h0
      simp only [if_true, List.lookup_cons]
      by_cases h : k = k0
      · simp [h]
      · have hb : (k == k0) = false := by simpa using h
        simp [h, hb]
    · simp only [h0, if_false, List.lookup_cons, ih]
      by_cases h : k = k0
      · have hk : ¬ k = key := by rw [h]; exact h0
        simp [h, h0]
      · have hb : (k == k0) = false := by simpa using h
        simp [hb]

/-- The loop that writes the text parts gives their concatenation in order. -/
theorem combinedText_eq (J : JsonLib) (parts : List Result) :
    combinedText J parts = textOfParts J parts := by
  suffices h : ∀ acc : String,
      parts.foldl (fun acc part =>
        if ResultString J (ResultGet J part "type") = "text" then
          acc ++ ResultString J (ResultGet J part "text")
        else acc) acc = acc ++ textOfParts J parts by
    have := h ""
    simpa [combinedText] using this
  induction parts with
  | nil => intro acc; simp [textOfParts, concatAll]
  | cons p ps ih =>
    intro acc
    simp only [List.foldl_cons]
    rw [ih]
    by_cases hp : ResultString J (ResultGet J p "type") = "text"
    · simp [textOfParts, hp, List.filter_cons, String.append_assoc, concatAll]
    · simp [textOfParts, hp, List.filter_cons]

/-- The value that `buildMiroMindRequest` passes to `json.Marshal` for a request whose
`messages` field is an array of messages with string role and content: its `Messages` are the
elements of the array, in order, with the strings of the role and of the content. -/
theorem build_request_value (J : JsonLib) (req : Request) (ms : List Result)
    (harr : ResultIsArray (J.Get req.Payload "messages") = true)
    (hms : ResultArray J (J.Get req.Payload "messages") = ms)
    (hrole : ∀ m ∈ ms, (ResultGet J m "role").Typ = .TString)
    (hcontent : ∀ m ∈ ms, (ResultGet J m "content").Typ = .TString) :
    ∃ mm : miromindRequest,
      buildMiroMindRequest J req = .ok (marshalRequest J mm) ∧
      miromindRequestOf J req = .ok mm ∧
      mm.Messages = ms.map (fun m =>
        { role := (ResultGet J m "role").Str, content := (ResultGet J m "content").Str }) ∧
      mm.Messages.length = ms.length := by
  have hex := ResultExists_of_isArray _ harr
  have hval : miromindRequestOf J req
      = .ok { Messages := ms.map (fun m =>
                { role := (ResultGet J m "role").Str, content := (ResultGet J m "content").Str }),
              Debug := false, Mode := resolveMode (J.ParseSuffix req.Model) } := by
    simp only [miromindRequestOf, hex, harr, Bool.not_true, Bool.or_self, Bool.false_eq_true,
      if_false, hms]
    congr 2
    apply List.map_congr_left
    intro m hm
    rw [ResultString_of_string J _ (hrole m hm), ResultString_of_string J _ (hcontent m hm)]
  refine ⟨_, ?_, hval, rfl, by simp⟩
  simp only [buildMiroMindRequest, hval]

set_option maxRecDepth 100000 in
/-- C13 (the code departs from the claim): `buildMiroMindRequest` writes as content what
`String()` gives, and for an array that is the raw JSON text of the array.  For the message
whose content is the parts `Hel` (text), an image, `lo` (text), the content written is the
text of the array, not the concatenation `Hello` of the text parts. -/
theorem build_keeps_raw_array_content :
    (∀ (J : JsonLib) (r : Result), ResultIsArray r = true → ResultString J r = r.Raw) ∧
    miromindRequestOf sampleJson { Model := "miromind-pro", Payload := partsPayload }
      = .ok { Messages := [{ role := "user", content := partsContent }],
              Debug := false, Mode := "pro" } ∧
    textOfParts sampleJson (ResultArray sampleJson (jsonResult partsContent)) = "Hello" ∧
    partsContent ≠ "Hello" :=
  ⟨ResultString_of_isArray, by rfl, by decide, by decide⟩

/-- C14: `ConvertOpenAIRequestToTrae` maps messages one to one.  For every input whose
`messages` field is an array, the output has `model` equal to the `modelName` argument and as
many messages as the array has elements, in the same order, each with the role `String()`
gives and with content `String()` gives or, when the input content is an array, the in-order
concatenation of the text of its text-typed parts; a role and a content that are JSON strings
are carried over as they are. -/
theorem trae_maps_messages (J : JsonLib) (modelName raw : String) (st : Bool)
    (harr : ResultIsArray (J.Get raw "messages") = true) :
    (ConvertOpenAIRequestToTrae J modelName raw st).lookup "model" = some (.str modelName) ∧
    messagesOf (ConvertOpenAIRequestToTrae J modelName raw st)
      = (ResultArray J (J.Get raw "messages")).map (fun m =>
          { role := ResultString J (ResultGet J m "role"),
            content :=
              if ResultIsArray (ResultGet J m "content") then
                textOfParts J (ResultArray J (ResultGet J m "content"))
              else ResultString J (ResultGet J m "content") }) ∧
    (messagesOf (ConvertOpenAIRequestToTrae J modelName raw st)).length
      = (ResultArray J (J.Get raw "messages")).length ∧
    (∀ m, (ResultGet J m "role").Typ = .TString → (ResultGet J m "content").Typ = .TString →
      traeMessage J m
        = { role := (ResultGet J m "role").Str, content := (ResultGet J m "content").Str }) := by
  have hmap : (ResultArray J (J.Get raw "messages")).map (traeMessage J)
      = (ResultArray J (J.Get raw "messages")).map (fun m =>
          { role := ResultString J (ResultGet J m "role"),
            content :=
              if ResultIsArray (ResultGet J m "content") then
                textOfParts J (ResultArray J (ResultGet J m "content"))
              else ResultString J (ResultGet J m "content") }) := by
    apply List.map_congr_left
    intro m _
    simp only [traeMessage, combinedText_eq]
  have hmsgs : messagesOf (ConvertOpenAIRequestToTrae J modelName raw st)
      = (ResultArray J (J.Get raw "messages")).map (traeMessage J) := by
    simp only [messagesOf, ConvertOpenAIRequestToTrae, harr, if_true, lookup_objSet]
    cases hl : (ResultArray J (J.Get raw "messages")).map (traeMessage J) with
    | nil => simp
    | cons a l => simp
  refine ⟨?_, ?_, ?_, ?_⟩
  · simp only [ConvertOpenAIRequestToTrae, harr, if_true, lookup_objSet]
    have h1 : ¬ ("model" = "messages") := by decide
    simp only [h1, if_false]
    split <;> split <;> split <;> split <;> simp [lookup_objSet, List.lookup]
  · rw [hmsgs, hmap]
  · rw [hmsgs]
    simp
  · intro m hr hc
    have hna : ResultIsArray (ResultGet J m "content") = false := by
      simp [ResultIsArray, hc]
    simp [traeMessage, hna, ResultString_of_string J _ hr, ResultString_of_string J _ hc]

set_option maxRecDepth 100000 in
/-- C14, at an input with the messages `Hello` (string content) and `Hel`, image, `lo`
(array content): both give the content `Hello`. -/
theorem trae_maps_messages_witness :
    ResultIsArray (sampleJson.Get plainInput "messages") = true ∧
    (ConvertOpenAIRequestToTrae sampleJson "gpt-4o" plainInput true).lookup "model"
      = some (.str "gpt-4o") ∧
    messagesOf (ConvertOpenAIRequestToTrae sampleJson "gpt-4o" plainInput true)
      = [{ role := "user", content := "Hello" }, { role := "user", content := "Hello" }] :=
  ⟨by decide,
   (trae_maps_messages sampleJson "gpt-4o" plainInput true (by decide)).1,
   (trae_maps_messages sampleJson "gpt-4o" plainInput true (by decide)).2.1.trans (by decide)⟩

/-- C15: `buildMiroMindRequest` fails, with the error `invalid messages in request payload`,
if and only if the payload has no `messages` field or its `messages` field is not an array;
in every other case it returns a body and no error. -/
theorem build_fails_iff (J : JsonLib) (req : Request) :
    (buildMiroMindRequest J req = .error "invalid messages in request payload" ↔
      (ResultExists (J.Get req.Payload "messages") = false ∨
       ResultIsArray (J.Get req.Payload "messages") = false)) ∧
    (∀ e, buildMiroMindRequest J req = .error e → e = "invalid messages in request payload") ∧
    (¬ (ResultExists (J.Get req.Payload "messages") = false ∨
        ResultIsArray (J.Get req.Payload "messages") = false) →
      ∃ mm : miromindRequest, buildMiroMindRequest J req = .ok (marshalRequest J mm)) := by
  by_cases h : ResultExists (J.Get req.Payload "messages") = false ∨
      ResultIsArray (J.Get req.Payload "messages") = false
  · have hb : buildMiroMindRequest J req = .error "invalid messages in request payload" := by
      have hc : (!ResultExists (J.Get req.Payload "messages") ||
          !ResultIsArray (J.Get req.Payload "messages")) = true := by
        rcases h with h | h <;> simp [h]
      simp only [buildMiroMindRequest, miromindRequestOf, hc, if_true]
    refine ⟨⟨fun _ => h, fun _ => hb⟩, ?_, fun hn => absurd h hn⟩
    intro e he
    rw [hb] at he
    injection he with he
    exact he.symm
  · have hc : (!ResultExists (J.Get req.Payload "messages") ||
        !ResultIsArray (J.Get req.Payload "messages")) = false := by
      simp only [not_or, Bool.not_eq_false] at h
      simp [h.1, h.2]
    have hb : ∃ mm : miromindRequest, buildMiroMindRequest J req = .ok (marshalRequest J mm) := by
      simp only [buildMiroMindRequest, miromindRequestOf, hc, Bool.false_eq_true, if_false]
      exact ⟨_, rfl⟩
    obtain ⟨mm, hmm⟩ := hb
    refine ⟨⟨fun he => ?_, fun hh => absurd hh h⟩, ?_, fun _ => ⟨mm, hmm⟩⟩
    · rw [hmm] at he
      exact absurd he (by simp)
    · intro e he
      rw [hmm] at he
      exact absurd he (by simp)

set_option maxRecDepth 100000 in
/-- C15, at a payload with a `messages` array (a body is returned), at one whose `messages`
is a string and at one without `messages` (both fail). -/
theorem build_fails_iff_witness :
    ¬ (ResultExists (sampleJson.Get helloPayload "messages") = false ∨
       ResultIsArray (sampleJson.Get helloPayload "messages") = false) ∧
    (∃ mm : miromindRequest,
      buildMiroMindRequest sampleJson { Model := "miromind-pro", Payload := helloPayload }
        = .ok (marshalRequest sampleJson mm)) ∧
    buildMiroMindRequest sampleJson { Model := "miromind-pro", Payload := badPayload }
      = .error "invalid messages in request payload" ∧
    buildMiroMindRequest sampleJson { Model := "miromind-pro", Payload := jObj [] }
      = .error "invalid messages in request payload" :=
  ⟨by decide,
   (build_fails_iff sampleJson { Model := "miromind-pro", Payload := helloPayload }).2.2
     (by decide),
   (build_fails_iff sampleJson { Model := "miromind-pro", Payload := badPayload }).1.mpr
     (Or.inr (by decide)),
   (build_fails_iff sampleJson { Model := "miromind-pro", Payload := jObj [] }).1.mpr
     (Or.inl (by decide))⟩

/-- The value of a key other than `messages` in the output of the converter is the value
before the messages are written. -/
theorem trae_lookup_field (J : JsonLib) (modelName raw : String) (st : Bool) (k : String)
    (hk1 : k ≠ "messages") (hk2 : k ≠ "model") :
    (ConvertOpenAIRequestToTrae J modelName raw st).lookup k
      = if k = "max_tokens" ∧ ResultExists (J.Get raw "max_tokens") = true then
          some (.int (J.IntOf (J.Get raw "max_tokens")))
        else if k = "top_p" ∧ ResultExists (J.Get raw "top_p") = true then
          some (.float (J.Get raw "top_p").Num)
        else if k = "temperature" ∧ ResultExists (J.Get raw "temperature") = true then
          some (.float (J.Get raw "temperature").Num)
        else if k = "stream" then some (.bool (ResultBool J (J.Get raw "stream")))
        else none := by
  have e1 : ∀ (d : List (String × JV)) (c : Bool) (key : String) (v : JV),
      (if c = true then objSet d key v else d).lookup k
        = if k = key ∧ c = true then some v else d.lookup k := by
    intro d c key v
    cases c <;> simp [lookup_objSet]
  have e0 : ([("model", JV.str ""), ("messages", JV.msgs []), ("stream", JV.bool false)] :
      List (String × JV)).lookup k = if k = "stream" then some (.bool false) else none := by
    have h1 : (k == "model") = false := by simpa using hk2
    have h2 : (k == "messages") = false := by simpa using hk1
    by_cases h3 : k = "stream"
    · simp [List.lookup, h1, h2, h3]
    · have h4 : (k == "stream") = false := by simpa using h3
      simp [List.lookup, h1, h2, h3, h4]
  have hbody : ∀ d : List (String × JV),
      (if ResultIsArray (J.Get raw "messages") = true then
        objSet d "messages"
          (if (ResultArray J (J.Get raw "messages")).map (traeMessage J) = [] then JV.null
           else JV.msgs ((ResultArray J (J.Get raw "messages")).map (traeMessage J)))
       else d).lookup k = d.lookup k := by
    intro d
    split
    · rw [lookup_objSet, if_neg hk1]
    · rfl
  simp only [ConvertOpenAIRequestToTrae]
  rw [hbody, e1, e1, e1, e1, lookup_objSet, if_neg hk2, e0]
  have hsw : (if k = "stream" ∧ ResultBool J (J.Get raw "stream") = true then some (JV.bool true)
      else if k = "stream" then some (JV.bool false) else none)
      = if k = "stream" then some (.bool (ResultBool J (J.Get raw "stream"))) else none := by
    by_cases h3 : k = "stream" <;> cases ResultBool J (J.Get raw "stream") <;> simp [h3]
  rw [hsw]

/-- The fields `temperature`, `top_p` and `max_tokens` in the output of
`ConvertOpenAIRequestToTrae`: each is there if and only if `Exists()` holds for it in the
input, and then holds `Num` (`temperature`, `top_p`) or `Int()` (`max_tokens`) of the input
result. -/
theorem trae_sampling_fields (J : JsonLib) (modelName raw : String) (st : Bool) :
    (ConvertOpenAIRequestToTrae J modelName raw st).lookup "temperature"
      = (if ResultExists (J.Get raw "temperature") = true then
          some (.float (J.Get raw "temperature").Num) else none) ∧
    (ConvertOpenAIRequestToTrae J modelName raw st).lookup "top_p"
      = (if ResultExists (J.Get raw "top_p") = true then
          some (.float (J.Get raw "top_p").Num) else none) ∧
    (ConvertOpenAIRequestToTrae J modelName raw st).lookup "max_tokens"
      = (if ResultExists (J.Get raw "max_tokens") = true then
          some (.int (J.IntOf (J.Get raw "max_tokens"))) else none) ∧
    (((ConvertOpenAIRequestToTrae J modelName raw st).lookup "temperature").isSome = true ↔
      ResultExists (J.Get raw "temperature") = true) ∧
    (((ConvertOpenAIRequestToTrae J modelName raw st).lookup "top_p").isSome = true ↔
      ResultExists (J.Get raw "top_p") = true) ∧
    (((ConvertOpenAIRequestToTrae J modelName raw st).lookup "max_tokens").isSome = true ↔
      ResultExists (J.Get raw "max_tokens") = true) := by
  have ht := trae_lookup_field J modelName raw st "temperature" (by decide) (by decide)
  have hp := trae_lookup_field J modelName raw st "top_p" (by decide) (by decide)
  have hm := trae_lookup_field J modelName raw st "max_tokens" (by decide) (by decide)
  have d1 : ¬ ("temperature" = "max_tokens") := by decide
  have d2 : ¬ ("temperature" = "top_p") := by decide
  have d3 : ¬ ("temperature" = "stream") := by decide
  have d4 : ¬ ("top_p" = "max_tokens") := by decide
  have d5 : ¬ ("top_p" = "stream") := by decide
  have d6 : ¬ ("max_tokens" = "stream") := by decide
  simp only [d1, d2, d3, false_and, if_false, true_and] at ht
  simp only [d4, d5, false_and, if_false, true_and] at hp
  simp only [true_and] at hm
  have hm2 : (ConvertOpenAIRequestToTrae J modelName raw st).lookup "max_tokens"
      = (if ResultExists (J.Get raw "max_tokens") = true then
          some (.int (J.IntOf (J.Get raw "max_tokens"))) else none) := by
    rw [hm]
    split
    · rfl
    · simp [d6]
  have hp2 : (ConvertOpenAIRequestToTrae J modelName raw st).lookup "top_p"
      = (if ResultExists (J.Get raw "top_p") = true then
          some (.float (J.Get raw "top_p").Num) else none) := by
    rw [hp]
    split
    · rfl
    · simp [d5]
  have ht2 : (ConvertOpenAIRequestToTrae J modelName raw st).lookup "temperature"
      = (if ResultExists (J.Get raw "temperature") = true then
          some (.float (J.Get raw "temperature").Num) else none) := by
    rw [ht]
  refine ⟨ht2, hp2, hm2, ?_, ?_, ?_⟩
  · rw [ht2]; split <;> simp [*]
  · rw [hp2]; split <;> simp [*]
  · rw [hm2]; split <;> simp [*]

set_option maxRecDepth 100000 in
/-- C16 (the code departs from the claim): `ConvertOpenAIRequestToTrae` writes the field
`Num` of the result for `temperature` and for `top_p` whenever `Exists()` holds, whatever the
type of the input value, and `Num` is zero for a value that is not a number.  For the input
`{"temperature":"0.7","top_p":null}` both fields exist and neither is a number; the output has
`temperature` 0 and `top_p` 0 (the `float64` with bit pattern zero), values the input does not
hold.  For the input of the test the number 0.7 is carried over. -/
theorem trae_sampling_writes_zero :
    (∀ (J : JsonLib) (modelName raw : String) (st : Bool) (k : String),
      k = "temperature" ∨ k = "top_p" →
      ResultExists (J.Get raw k) = true → (J.Get raw k).Num = 0 →
      (ConvertOpenAIRequestToTrae J modelName raw st).lookup k = some (.float 0)) ∧
    looseJson.Get looseInput "temperature"
      = { Typ := .TString, Raw := jStr "0.7", Str := "0.7", Num := 0 } ∧
    looseJson.Get looseInput "top_p" = { Typ := .TNull, Raw := "null", Str := "", Num := 0 } ∧
    ResultExists (looseJson.Get looseInput "temperature") = true ∧
    ResultExists (looseJson.Get looseInput "top_p") = true ∧
    (ConvertOpenAIRequestToTrae looseJson "gpt-4o" looseInput false).lookup "temperature"
      = some (.float 0) ∧
    (ConvertOpenAIRequestToTrae looseJson "gpt-4o" looseInput false).lookup "top_p"
      = some (.float 0) ∧
    (sampleJson.Get traeInput "temperature").Num = 4604480259023595110 ∧
    (ConvertOpenAIRequestToTrae sampleJson "gpt-4o" traeInput true).lookup "temperature"
      = some (.float 4604480259023595110) := by
  refine ⟨?_, by decide, by decide, by decide, by decide, by decide, by decide, by decide,
    by decide⟩
  intro J modelName raw st k hk hex hnum
  rcases hk with hk | hk
  · subst hk
    rw [(trae_sampling_fields J modelName raw st).1, if_pos hex, hnum]
  · subst hk
    rw [(trae_sampling_fields J modelName raw st).2.1, if_pos hex, hnum]

set_option maxRecDepth 100000 in
/-- C17 as stated fails: for an input without a `stream` field the output has the field
`stream`, with the value false. -/
theorem trae_stream_counterexample :
    ResultExists (sampleJson.Get plainInput "stream") = false ∧
    (ConvertOpenAIRequestToTrae sampleJson "gpt-4o" plainInput false).lookup "stream"
      = some (.bool false) := by
  constructor <;> decide

/-- C17, amended: the output of `ConvertOpenAIRequestToTrae` always has a `stream` field; it
is true when `Bool()` of the input's `stream` field is true and false otherwise, and it is
false for every input that has no `stream` field. -/
theorem trae_stream_field (J : JsonLib) (modelName raw : String) (st : Bool) :
    (ConvertOpenAIRequestToTrae J modelName raw st).lookup "stream"
      = some (.bool (ResultBool J (J.Get raw "stream"))) ∧
    (ResultExists (J.Get raw "stream") = false →
      (ConvertOpenAIRequestToTrae J modelName raw st).lookup "stream" = some (.bool false)) := by
  have hs := trae_lookup_field J modelName raw st "stream" (by decide) (by decide)
  have d1 : ¬ ("stream" = "max_tokens") := by decide
  have d2 : ¬ ("stream" = "top_p") := by decide
  have d3 : ¬ ("stream" = "temperature") := by decide
  simp only [d1, d2, d3, false_and, if_false, if_true] at hs
  refine ⟨hs, ?_⟩
  intro hne
  rw [hs, ResultBool_of_not_exists J _ hne]

set_option maxRecDepth 100000 in
/-- C17, amended, at an input without `stream` (false out) and at the input of the test
(`stream` true in, true out). -/
theorem trae_stream_field_witness :
    ResultExists (sampleJson.Get plainInput "stream") = false ∧
    (ConvertOpenAIRequestToTrae sampleJson "gpt-4o" plainInput true).lookup "stream"
      = some (.bool false) ∧
    (ConvertOpenAIRequestToTrae sampleJson "gpt-4o" traeInput true).lookup "stream"
      = some (.bool true) :=
  ⟨by decide,
   (trae_stream_field sampleJson "gpt-4o" plainInput true).2 (by decide),
   (trae_stream_field sampleJson "gpt-4o" traeInput true).1.trans (by decide)⟩

/-- C18: `ConvertTraeResponseToOpenAINonStream` never treats an absent field as an error.
For every upstream input that parses to an existing result, and every model name, it returns
a `chat.completion` object whose model is the given model name.  When
`choices.0.message.content` is present the output message has role `assistant` and that
content; when `usage` is present the output usage is the upstream usage; when they are
absent the message stays empty and the usage stays at zero prompt, completion and total
tokens. -/
theorem nonstream_response (J : JsonLib) (now nanos : Int) (modelName rawJSON : String)
    (hres : ResultExists (J.Parse rawJSON) = true) :
    ∃ out : ChatCompletion,
      ConvertTraeResponseToOpenAINonStream J now nanos modelName rawJSON = some out ∧
      out.object = "chat.completion" ∧
      out.model = modelName ∧
      (ResultExists (ResultGet J (J.Parse rawJSON) "choices.0.message.content") = true →
        out.message = [("role", "assistant"),
          ("content", ResultString J (ResultGet J (J.Parse rawJSON) "choices.0.message.content"))]) ∧
      (ResultExists (ResultGet J (J.Parse rawJSON) "choices.0.message.content") = false →
        out.message = [] ∧ out.message.lookup "content" = none) ∧
      (ResultExists (ResultGet J (J.Parse rawJSON) "usage") = true →
        out.usage = .raw (ResultGet J (J.Parse rawJSON) "usage").Raw) ∧
      (ResultExists (ResultGet J (J.Parse rawJSON) "usage") = false →
        out.usage = .counts 0 0 0) := by
  refine ⟨_, by simp only [ConvertTraeResponseToOpenAINonStream, hres]; rfl, ?_, ?_, ?_, ?_, ?_, ?_⟩
  · split <;> split <;> rfl
  · split <;> split <;> rfl
  · intro h
    simp only [h, if_true]
    split <;> rfl
  · intro h
    simp only [h, Bool.false_eq_true, if_false]
    split <;> exact ⟨rfl, rfl⟩
  · intro h
    simp only [h, if_true]
  · intro h
    simp only [h, Bool.false_eq_true, if_false]
    split <;> rfl

set_option maxRecDepth 100000 in
/-- C18, at the response of the test (content `Hi there!` and the usage with total_tokens 15
are carried over) and at the empty object (empty message, zero usage). -/
theorem nonstream_response_witness :
    ResultExists (sampleJson.Parse traeResponse) = true ∧
    ResultExists (ResultGet sampleJson (sampleJson.Parse traeResponse)
      "choices.0.message.content") = true ∧
    ResultExists (ResultGet sampleJson (sampleJson.Parse traeResponse) "usage") = true ∧
    (∃ out : ChatCompletion,
      ConvertTraeResponseToOpenAINonStream sampleJson 1700000000 1700000000123456789 "gpt-4o"
          traeResponse = some out ∧
      out.model = "gpt-4o" ∧
      out.message = [("role", "assistant"), ("content", "Hi there!")] ∧
      out.usage = .raw usageRaw) ∧
    ConvertTraeResponseToOpenAINonStream sampleJson 1700000000 1700000000123456789 "gpt-4o"
        (jObj [])
      = some { id := "trae-1700000000123456789", object := "chat.completion",
               created := 1700000000, model := "gpt-4o", message := [],
               finish_reason := "stop", usage := .counts 0 0 0 } := by
  refine ⟨by decide, by decide, by decide, ?_, by decide⟩
  obtain ⟨out, h1, _, h3, h4, _, h6, _⟩ :=
    nonstream_response sampleJson 1700000000 1700000000123456789 "gpt-4o" traeResponse
      (by decide)
  exact ⟨out, h1, h3, (h4 (by decide)).trans (by decide), (h6 (by decide)).trans (by decide)⟩

/-- What `PrepareRequest` returns on a non-nil request: the error exactly when
`miromindCreds` gives an empty token. -/
theorem PrepareRequest_error_iff (h : Header) (auth : Option Auth) :
    (PrepareRequest (some h) auth = .error "miromind executor: missing session token" ↔
      (miromindCreds auth).1 = "") := by
  unfold PrepareRequest
  by_cases ht : (miromindCreds auth).1 = ""
  · simp [ht]
  · cases h with
    | nilMap => simp [ht, Header.Set]
    | entries m => simp [ht, Header.Set]

/-- C19 (the code departs from the claim): `PrepareRequest` fails exactly when
`miromindCreds` gives an empty token, and `miromindCreds` returns the session token of a typed
storage without looking at the metadata map also when that token is empty.  With an empty
token in the typed storage and the session token `tok` in the metadata map, `PrepareRequest`
fails with the missing-token error. -/
theorem PrepareRequest_ignores_metadata_token :
    (∀ (h : Header) (auth : Option Auth),
      PrepareRequest (some h) auth = .error "miromind executor: missing session token" ↔
        (miromindCreds auth).1 = "") ∧
    (∀ (s : MiroMindTokenStorage) (m : Option (List (String × MetaValue))),
      miromindCreds (some { Storage := .miromind (some s), Metadata := m })
        = (s.SessionToken, s.Email)) ∧
    metaString [("session_token", .str "tok"), ("email", .str "miromind-user")] "session_token"
      = "tok" ∧
    PrepareRequest (some sampleHeader) (some emptyStorageAuth)
      = .error "miromind executor: missing session token" :=
  ⟨PrepareRequest_error_iff, fun _ _ => rfl, by decide, by rfl⟩

/-- C20 as stated fails: a non-nil request whose header map is nil, with an auth whose
resolved secret is `tok`, makes `PrepareRequest` panic in the first `Set`; no header is written
and nothing is returned. -/
theorem PrepareRequest_headers_counterexample :
    (miromindCreds (some storageAuth)).1 = "tok" ∧ "tok" ≠ "" ∧
    PrepareRequest (some Header.nilMap) (some storageAuth)
      = .panic "assignment to entry in nil map" :=
  ⟨by decide, by decide, by rfl⟩

/-- C20, amended: for every non-nil request whose header map is not nil and every auth whose
resolved secret `t` is not empty, `PrepareRequest` returns without error and after it the
request has `Authorization` equal to `Bearer ` followed by `t`, `Origin`
`https://dr.miromind.ai`, `Referer` `https://dr.miromind.ai/`, a browser `User-Agent`,
`Accept` `*/*`, and no `Cookie` header whatever it carried before; every header other than
these six is unchanged. -/
theorem PrepareRequest_headers (m : String → Option (List String)) (auth : Option Auth)
    (t : String) (ht : (miromindCreds auth).1 = t) (hne : t ≠ "") :
    ∃ h2 : Header, PrepareRequest (some (Header.entries m)) auth = .ok (some h2) ∧
      h2 ≠ Header.nilMap ∧
      h2.values "Authorization" = some ["Bearer " ++ t] ∧
      h2.values "Origin" = some ["https://dr.miromind.ai"] ∧
      h2.values "Referer" = some ["https://dr.miromind.ai/"] ∧
      h2.values "User-Agent" = some
        ["Mozilla/5.0 (Windows NT 10.0; Win64; x64) AppleWebKit/537.36 (KHTML, like Gecko) Chrome/120.0.0.0 Safari/537.36"] ∧
      h2.values "Accept" = some ["*/*"] ∧
      h2.values "Cookie" = none ∧
      (∀ k, k ≠ "User-Agent" → k ≠ "Origin" → k ≠ "Referer" → k ≠ "Accept" →
        k ≠ "Authorization" → k ≠ "Cookie" → h2.values k = m k) := by
  have hne2 : ¬ (miromindCreds auth).1 = "" := by rw [ht]; exact hne
  refine ⟨_, by simp only [PrepareRequest, hne2, if_false, Header.Set]; rfl,
    ?_, ?_, ?_, ?_, ?_, ?_, ?_, ?_⟩
  · simp [Header.Del]
  · simp [Header.values, Header.Del, ht]
  · simp [Header.values, Header.Del]
  · simp [Header.values, Header.Del]
  · simp [Header.values, Header.Del]
  · simp [Header.values, Header.Del]
  · simp [Header.values, Header.Del]
  · intro k k1 k2 k3 k4 k5 k6
    simp [Header.values, Header.Del, k1, k2, k3, k4, k5, k6]

/-- C20, amended, at a request that carries a `Cookie`, a `Content-Type` and a `User-Agent`
header and an auth whose typed storage holds the token `tok`. -/
theorem PrepareRequest_headers_witness :
    (miromindCreds (some storageAuth)).1 = "tok" ∧ "tok" ≠ "" ∧
    sampleHeader.values "Cookie" = some ["__client=abc"] ∧
    ∃ h2 : Header, PrepareRequest (some sampleHeader) (some storageAuth) = .ok (some h2) ∧
      h2.values "Authorization" = some ["Bearer " ++ "tok"] ∧
      h2.values "Cookie" = none ∧
      h2.values "Content-Type" = some ["application/json"] := by
  refine ⟨by decide, by decide, by decide, ?_⟩
  obtain ⟨h2, e1, _, e2, _, _, _, _, e7, e8⟩ :=
    PrepareRequest_headers
      (fun k =>
        if k = "Cookie" then some ["__client=abc"]
        else if k = "Content-Type" then some ["application/json"]
        else if k = "User-Agent" then some ["Go-http-client/1.1"]
        else none)
      (some storageAuth) "tok" (by decide) (by decide)
  refine ⟨h2, e1, e2, e7, ?_⟩
  rw [e8 "Content-Type" (by decide) (by decide) (by decide) (by decide) (by decide) (by decide)]
  decide

/-! ## Lemmas on the event dispatch and on range-checked slices -/

/-- Outside a `tool_call` event for the tool `show_text`, the switch statement leaves the
flag as it is and sends no chunk with a reasoning delta. -/
theorem dispatchEvent_flag (L : Lib) (st st1 : DecoderState) (d : String) (out : List Effect)
    (h : dispatchEvent L st d = some (st1, out))
    (hn : ¬ (st.currentEvent = "tool_call" ∧ L.GetString d "tool_name" = "show_text")) :
    st1.inThinking = st.inThinking ∧
    ∀ c ∈ chunksOf out, deltaHas c "reasoning_content" = false := by
  have hnil : ∀ c ∈ chunksOf ([] : List Effect), deltaHas c "reasoning_content" = false := by
    intro c hc
    simp [chunksOf] at hc
  simp only [dispatchEvent] at h
  split at h
  · split at h
    · simp only [Option.some.injEq, Prod.mk.injEq] at h
      rw [← h.1, ← h.2]
      refine ⟨rfl, ?_⟩
      intro c hc
      rename_i hc0
      simp only [sendChunk, chunksOf, List.mem_singleton] at hc
      rw [hc]
      simp [deltaHas, hc0, List.lookup]
    · simp only [Option.some.injEq, Prod.mk.injEq] at h
      rw [← h.1, ← h.2]
      exact ⟨rfl, hnil⟩
  · split at h
    · rename_i htc
      split at h
      · rename_i hst
        exact absurd ⟨htc, hst⟩ hn
      · simp only [Option.some.injEq, Prod.mk.injEq] at h
        rw [← h.1, ← h.2]
        exact ⟨rfl, hnil⟩
    · split at h
      · split at h <;>
          (simp only [Option.some.injEq, Prod.mk.injEq] at h
           rw [← h.1, ← h.2]
           exact ⟨rfl, hnil⟩)
      · split at h
        · exact absurd h (by simp)
        · simp only [Option.some.injEq, Prod.mk.injEq] at h
          rw [← h.1, ← h.2]
          exact ⟨rfl, hnil⟩

theorem dispatchEvent_other_tool (L : Lib) (st : DecoderState) (d : String)
    (hc : st.currentEvent = "tool_call") (ht : L.GetString d "tool_name" ≠ "show_text") :
    dispatchEvent L st d = some (st, []) := by
  simp [dispatchEvent, hc, ht]

theorem dispatchEvent_show_text (L : Lib) (st : DecoderState) (d : String)
    (hc : st.currentEvent = "tool_call") (ht : L.GetString d "tool_name" = "show_text")
    (hx : L.GetString d "delta_input.text" ≠ "") :
    dispatchEvent L st d
      = some ({ st with inThinking := (tagSplit st.inThinking (L.GetString d "delta_input.text")).2.2 },
          if (tagSplit st.inThinking (L.GetString d "delta_input.text")).1 ≠ "" ∨
             (tagSplit st.inThinking (L.GetString d "delta_input.text")).2.1 ≠ "" then
            [sendChunk (tagSplit st.inThinking (L.GetString d "delta_input.text")).1
              (tagSplit st.inThinking (L.GetString d "delta_input.text")).2.1 ""]
          else []) := by
  simp [dispatchEvent, hc, ht, hx]

theorem HasPrefix_len (s pre : String) (h : HasPrefix s pre = true) : len pre ≤ len s := by
  unfold HasPrefix at h
  exact (List.isPrefixOf_iff_prefix.mp h).length_le

/-- No slice expression of the loop body is out of range. -/
theorem thinkStepChecked_eq (st : SplitState) : thinkStepChecked st = some (thinkStep st) := by
  have hnl : ∀ r : String, (if HasPrefix r "\n" = true then sliceFromChecked r 1 else some r)
      = some (if HasPrefix r "\n" = true then sliceFrom r 1 else r) := by
    intro r
    by_cases hp : HasPrefix r "\n" = true
    · have hl := HasPrefix_len r "\n" hp
      have h1 : len "\n" = 1 := rfl
      have hc : (0 : Int) ≤ 1 ∧ (1 : Int) ≤ (len r : Int) := ⟨by omega, by omega⟩
      simp [hp, sliceFromChecked, hc]
    · simp [hp]
  have hgd : ∀ (r : String) (i k : Nat), i + k ≤ len r →
      (if (len r : Int) > (i : Int) + (k : Int) then sliceFromChecked r ((i : Int) + (k : Int))
       else some "")
      = some (if len r > i + k then sliceFrom r (i + k) else "") := by
    intro r i k hik
    by_cases hg : len r > i + k
    · have hg2 : (len r : Int) > (i : Int) + (k : Int) := by omega
      have hc : (0 : Int) ≤ (i : Int) + (k : Int) ∧ (i : Int) + (k : Int) ≤ (len r : Int) :=
        ⟨by omega, by omega⟩
      have ht : ((i : Int) + (k : Int)).toNat = i + k := by omega
      simp [hg, hg2, sliceFromChecked, hc, ht]
    · have hg2 : ¬ (len r : Int) > (i : Int) + (k : Int) := by omega
      simp [hg, hg2]
  have hto : ∀ (r : String) (i : Nat), i ≤ len r →
      sliceToChecked r (i : Int) = some (sliceTo r i) := by
    intro r i hi
    have hc : (0 : Int) ≤ (i : Int) ∧ (i : Int) ≤ (len r : Int) := ⟨by omega, by omega⟩
    simp [sliceToChecked, hc]
  unfold thinkStepChecked thinkStep
  by_cases hf : st.inThinking = true
  · simp only [hf, Bool.not_true, Bool.false_eq_true, if_false]
    by_cases hi : Index st.remaining "</think>" ≥ 0
    · have hb := Index_bound st.remaining "</think>" (by omega)
      have h8 : len "</think>" = 8 := rfl
      obtain ⟨i, hi2⟩ : ∃ i : Nat, Index st.remaining "</think>" = (i : Int) :=
        ⟨(Index st.remaining "</think>").toNat, by omega⟩
      rw [hi2] at hb ⊢
      simp only [Int.toNat_ofNat] at hb
      have e8 : ((i : Int) + 8) = (i : Int) + ((8 : Nat) : Int) := by simp
      simp only [ge_iff_le, Int.ofNat_zero_le, if_true, Int.toNat_ofNat]
      rw [hto st.remaining i (by omega), e8, hgd st.remaining i 8 (by omega)]
    · simp only [hi, if_false]
  · have hf2 : st.inThinking = false := by simpa using hf
    simp only [hf2, Bool.not_false, if_true]
    by_cases hi : Index st.remaining "<think>" ≥ 0
    · have hb := Index_bound st.remaining "<think>" (by omega)
      have h7 : len "<think>" = 7 := rfl
      obtain ⟨i, hi2⟩ : ∃ i : Nat, Index st.remaining "<think>" = (i : Int) :=
        ⟨(Index st.remaining "<think>").toNat, by omega⟩
      rw [hi2] at hb ⊢
      simp only [Int.toNat_ofNat] at hb
      have e7 : ((i : Int) + 7) = (i : Int) + ((7 : Nat) : Int) := by simp
      simp only [ge_iff_le, Int.ofNat_zero_le, if_true, Int.toNat_ofNat]
      rw [hto st.remaining i (by omega), e7, hgd st.remaining i 7 (by omega)]
      simp only [hnl]
    · simp only [hi, if_false]

/-- A marker that is found takes at least its own length off `remaining`; when none is
found the whole of `remaining` is consumed. -/
theorem thinkStep_consumes (st : SplitState) :
    (st.inThinking = false → Index st.remaining "<think>" ≥ 0 →
      len (thinkStep st).remaining + 7 ≤ len st.remaining) ∧
    (st.inThinking = true → Index st.remaining "</think>" ≥ 0 →
      len (thinkStep st).remaining + 8 ≤ len st.remaining) ∧
    (st.inThinking = false → Index st.remaining "<think>" < 0 →
      (thinkStep st).remaining = "") ∧
    (st.inThinking = true → Index st.remaining "</think>" < 0 →
      (thinkStep st).remaining = "") := by
  have h0 : len "" = 0 := rfl
  refine ⟨?_, ?_, ?_, ?_⟩
  · intro hf hi
    have hb := Index_bound st.remaining "<think>" (by omega)
    have h7 : len "<think>" = 7 := rfl
    simp only [thinkStep, hf, Bool.not_false, if_true, hi]
    split
    · split
      · rw [len_sliceFrom, len_sliceFrom]; omega
      · rw [len_sliceFrom]; omega
    · rw [if_neg (by simp [HasPrefix_empty]), h0]
      omega
  · intro hf hi
    have hb := Index_bound st.remaining "</think>" (by omega)
    have h8 : len "</think>" = 8 := rfl
    simp only [thinkStep, hf, Bool.not_true, Bool.false_eq_true, if_false, hi, if_true]
    split
    · rw [len_sliceFrom]; omega
    · rw [h0]; omega
  · intro hf hi
    have : ¬ Index st.remaining "<think>" ≥ 0 := by omega
    simp [thinkStep, hf, this]
  · intro hf hi
    have : ¬ Index st.remaining "</think>" ≥ 0 := by omega
    simp [thinkStep, hf, this]

/-- The loop defined by well-founded recursion is the loop run with fuel `len remaining`. -/
theorem thinkLoopWF_eq (st : SplitState) : thinkLoopWF st = thinkLoop st := by
  suffices h : ∀ (n : Nat) (st : SplitState), len st.remaining ≤ n →
      thinkLoopWF st = thinkLoop st from h _ st (le_refl _)
  intro n
  induction n with
  | zero =>
    intro st h
    rw [thinkLoopWF, thinkLoop_unfold, if_neg (by omega), if_neg (by omega)]
  | succ n ih =>
    intro st h
    rw [thinkLoopWF, thinkLoop_unfold]
    by_cases hpos : len st.remaining > 0
    · have := thinkStep_len_lt st hpos
      rw [if_pos hpos, if_pos hpos]
      exact ih _ (by omega)
    · rw [if_neg hpos, if_neg hpos]

/-! ## Lemmas on slices of a concatenation and on `strings.Index` across a boundary -/

theorem sliceFrom_of_le (t : String) (n : Nat) (h : len t ≤ n) : sliceFrom t n = "" := by
  apply String.ext
  simp only [sliceFrom]
  exact List.drop_eq_nil_of_le h

/-- The guarded slice of the program, `remaining[n:]` when `len(remaining) > n` and `""`
otherwise, is the total slice. -/
theorem guard_eq (t : String) (n : Nat) :
    (if len t > n then sliceFrom t n else "") = sliceFrom t n := by
  split
  · rfl
  · rw [sliceFrom_of_le t n (by omega)]

theorem sliceTo_append_le (a b : String) (i : Nat) (h : i ≤ len a) :
    sliceTo (a ++ b) i = sliceTo a i := by
  apply String.ext
  simp only [sliceTo, String.data_append]
  exact List.take_append_of_le_length h

theorem sliceFrom_append_le (a b : String) (n : Nat) (h : n ≤ len a) :
    sliceFrom (a ++ b) n = sliceFrom a n ++ b := by
  apply String.ext
  simp only [sliceFrom, String.data_append]
  exact List.drop_append_of_le_length h

theorem sliceTo_append_add (a b : String) (j : Nat) :
    sliceTo (a ++ b) (len a + j) = a ++ sliceTo b j := by
  apply String.ext
  simp only [sliceTo, String.data_append, len]
  exact List.take_append j

theorem sliceFrom_append_add (a b : String) (j : Nat) :
    sliceFrom (a ++ b) (len a + j) = sliceFrom b j := by
  apply String.ext
  simp only [sliceFrom, String.data_append, len]
  exact List.drop_append j

theorem sliceFrom_sliceFrom (t : String) (a b : Nat) :
    sliceFrom (sliceFrom t a) b = sliceFrom t (a + b) := by
  apply String.ext
  simp [sliceFrom]

theorem HasPrefix_append_left (t f2 p : String) (h : len p ≤ len t) :
    HasPrefix (t ++ f2) p = HasPrefix t p := by
  unfold HasPrefix
  simp only [String.data_append]
  by_cases hp : p.data.isPrefixOf t.data = true
  · rw [hp]
    rw [List.isPrefixOf_iff_prefix] at hp ⊢
    exact hp.trans (List.prefix_append _ _)
  · have hq : p.data.isPrefixOf (t.data ++ f2.data) = false := by
      cases hh : p.data.isPrefixOf (t.data ++ f2.data) with
      | false => rfl
      | true =>
        exfalso
        apply hp
        rw [List.isPrefixOf_iff_prefix] at hh ⊢
        exact List.prefix_of_prefix_length_le hh (List.prefix_append _ _) h
    rw [hq]
    exact (Bool.eq_false_iff.mpr hp).symm

/-- The newline skip looks at the text before the boundary when there is any. -/
theorem skipNewline_append (t f2 : String) (h : 0 < len t) :
    skipNewline (t ++ f2) = skipNewline t ++ f2 := by
  have h1 : len "\n" = 1 := rfl
  unfold skipNewline
  rw [HasPrefix_append_left t f2 "\n" (by omega)]
  split
  · rw [sliceFrom_append_le t f2 1 (by omega)]
  · rfl

theorem skipNewline_eq_sliceFrom (t : String) :
    ∃ q, q ≤ len t ∧ skipNewline t = sliceFrom t q := by
  unfold skipNewline
  split
  · rename_i hp
    have := HasPrefix_len t "\n" hp
    have h1 : len "\n" = 1 := rfl
    exact ⟨1, by omega, rfl⟩
  · exact ⟨0, by omega, (sliceFrom_zero t).symm⟩

theorem NoCut_sliceFrom (m rem f2 : String) (q : Nat) (hq : q ≤ len rem)
    (h : NoCut m rem f2) : NoCut m (sliceFrom rem q) f2 := by
  intro j hj1 hj2
  rw [len_sliceFrom] at hj1 hj2
  have := h (q + j) (by omega) (by omega)
  rw [← sliceFrom_append_le rem f2 q hq, sliceFrom_sliceFrom]
  exact this

theorem HasSuffix_sliceFrom (rem s : String) (q : Nat)
    (h : HasSuffix (sliceFrom rem q) s = true) : HasSuffix rem s = true := by
  unfold HasSuffix at h ⊢
  simp only [sliceFrom] at h
  rw [List.isSuffixOf_iff_suffix] at h ⊢
  exact h.trans (List.drop_suffix q rem.data)

theorem indexFrom_add (sub : List Char) :
    ∀ (l : List Char) (k a : Nat),
      indexFrom sub l (k + a)
        = if indexFrom sub l k = -1 then -1 else indexFrom sub l k + (a : Int) := by
  intro l
  induction l with
  | nil =>
    intro k a
    unfold indexFrom
    split
    · have : ¬ ((k : Int) = -1) := by omega
      simp [this]
    · simp
  | cons c cs ih =>
    intro k a
    unfold indexFrom
    split
    · have : ¬ ((k : Int) = -1) := by omega
      simp [this]
    · have e : k + a + 1 = (k + 1) + a := by omega
      rw [e, ih (k + 1) a]

theorem indexFrom_cons (sub : List Char) (c : Char) (cs : List Char) (i : Nat) :
    indexFrom sub (c :: cs) i
      = if sub.isPrefixOf (c :: cs) then (i : Int) else indexFrom sub cs (i + 1) := rfl

/-- An occurrence that `strings.Index` finds starts a copy of the text sought. -/
theorem indexFrom_spec (sub : List Char) :
    ∀ (l : List Char) (k : Nat), 0 ≤ indexFrom sub l k →
      (k : Int) ≤ indexFrom sub l k ∧
      sub.isPrefixOf (l.drop ((indexFrom sub l k).toNat - k)) = true := by
  intro l
  induction l with
  | nil =>
    intro k h
    unfold indexFrom at h ⊢
    split at h
    · rename_i hp
      simp [hp]
    · exfalso; omega
  | cons c cs ih =>
    intro k h
    unfold indexFrom at h ⊢
    split at h
    · rename_i hp
      simp [hp]
    · rename_i hp
      simp only [hp, Bool.false_eq_true, if_false]
      obtain ⟨h1, h2⟩ := ih (k + 1) h
      refine ⟨by omega, ?_⟩
      have e : (indexFrom sub cs (k + 1)).toNat - k
          = ((indexFrom sub cs (k + 1)).toNat - (k + 1)) + 1 := by omega
      rw [e, List.drop_succ_cons]
      exact h2

/-- `strings.Index` on a concatenation in which no occurrence straddles the boundary: the
first occurrence in the first part, else the first occurrence in the second part. -/
theorem indexFrom_append (sub : List Char) (hsub : sub ≠ []) :
    ∀ (l l2 : List Char) (k : Nat),
      (∀ j, j < l.length → l.length < j + sub.length →
        sub.isPrefixOf ((l ++ l2).drop j) = false) →
      indexFrom sub (l ++ l2) k
        = if indexFrom sub l k = -1 then indexFrom sub l2 (k + l.length)
          else indexFrom sub l k := by
  intro l
  induction l with
  | nil =>
    intro l2 k _
    have : sub.isPrefixOf [] = false := by
      cases sub with
      | nil => exact absurd rfl hsub
      | cons c cs => rfl
    simp [indexFrom, this]
  | cons c cs ih =>
    intro l2 k H
    have H2 : ∀ j, j < cs.length → cs.length < j + sub.length →
        sub.isPrefixOf ((cs ++ l2).drop j) = false := by
      intro j h1 h2
      have := H (j + 1) (by simp; omega) (by simp; omega)
      simpa using this
    simp only [List.cons_append]
    rw [indexFrom_cons, indexFrom_cons]
    by_cases hp : sub.isPrefixOf (c :: cs) = true
    · have hq : sub.isPrefixOf (c :: (cs ++ l2)) = true := by
        rw [List.isPrefixOf_iff_prefix] at hp ⊢
        have := hp.trans (List.prefix_append (c :: cs) l2)
        simpa using this
      have hk : ¬ ((k : Int) = -1) := by omega
      simp [hp, hq, hk]
    · have hq : sub.isPrefixOf (c :: (cs ++ l2)) = false := by
        cases hh : sub.isPrefixOf (c :: (cs ++ l2)) with
        | false => rfl
        | true =>
          exfalso
          by_cases hl : sub.length ≤ (c :: cs).length
          · apply hp
            rw [List.isPrefixOf_iff_prefix] at hh ⊢
            have hh2 : sub <+: (c :: cs) ++ l2 := by simpa using hh
            exact List.prefix_of_prefix_length_le hh2 (List.prefix_append _ _) hl
          · have := H 0 (by simp) (by omega)
            simp only [List.cons_append, List.drop_zero] at this
            rw [this] at hh
            exact absurd hh (by simp)
      have hp2 : sub.isPrefixOf (c :: cs) = false := Bool.eq_false_iff.mpr hp
      simp only [hp2, hq, Bool.false_eq_true, if_false]
      rw [ih l2 (k + 1) H2]
      have e : k + 1 + cs.length = k + (c :: cs).length := by simp; omega
      rw [e]

theorem Index_append (m f1 f2 : String) (hm : 0 < len m) (h : NoCut m f1 f2) :
    Index (f1 ++ f2) m
      = if Index f1 m = -1 then (if Index f2 m = -1 then -1 else Index f2 m + (len f1 : Int))
        else Index f1 m := by
  have hsub : m.data ≠ [] := by
    intro he
    unfold len at hm
    rw [he] at hm
    exact absurd hm (by simp)
  have H : ∀ j, j < f1.data.length → f1.data.length < j + m.data.length →
      m.data.isPrefixOf ((f1.data ++ f2.data).drop j) = false := by
    intro j h1 h2
    have := h j h1 h2
    simpa [HasPrefix, sliceFrom, String.data_append] using this
  unfold Index
  rw [String.data_append, indexFrom_append m.data hsub f1.data f2.data 0 H]
  have := indexFrom_add m.data f2.data 0 f1.data.length
  simp only [Nat.zero_add] at this ⊢
  rw [this]
  rfl

/-! ## The tag-splitting loop on a concatenation -/

theorem thinkStep_false (t c r : String) :
    thinkStep { remaining := t, toContent := c, toReasoning := r, inThinking := false }
      = if Index t "<think>" ≥ 0 then
          { remaining := skipNewline (sliceFrom t ((Index t "<think>").toNat + 7)),
            toContent := c ++ sliceTo t (Index t "<think>").toNat,
            toReasoning := r, inThinking := true }
        else { remaining := "", toContent := c ++ t, toReasoning := r, inThinking := false } := by
  simp [thinkStep, guard_eq, skipNewline]

theorem thinkStep_true (t c r : String) :
    thinkStep { remaining := t, toContent := c, toReasoning := r, inThinking := true }
      = if Index t "</think>" ≥ 0 then
          { remaining := sliceFrom t ((Index t "</think>").toNat + 8),
            toContent := c,
            toReasoning := r ++ sliceTo t (Index t "</think>").toNat, inThinking := false }
        else { remaining := "", toContent := c, toReasoning := r ++ t, inThinking := true } := by
  simp [thinkStep, guard_eq]

/-- A marker found at the very end of a text is a suffix of it. -/
theorem HasSuffix_of_Index (t m : String) (i : Nat) (hi : Index t m = (i : Int))
    (hl : i + len m = len t) : HasSuffix t m = true := by
  have h := indexFrom_spec m.data t.data 0 (by unfold Index at hi; omega)
  unfold Index at hi
  rw [hi] at h
  simp only [Int.toNat_ofNat, Nat.sub_zero] at h
  have hp := List.isPrefixOf_iff_prefix.mp h.2
  have he : m.data = t.data.drop i := by
    apply hp.eq_of_length
    simp only [List.length_drop]
    unfold len at hl
    omega
  unfold HasSuffix
  rw [List.isSuffixOf_iff_suffix, he]
  exact List.drop_suffix i t.data

theorem Index_nonneg_cases (t m : String) :
    Index t m = -1 ∨ ∃ i : Nat, Index t m = (i : Int) := by
  rcases indexFrom_ge_or m.data t.data 0 with h | h
  · exact Or.inl h
  · right
    refine ⟨(Index t m).toNat, ?_⟩
    unfold Index
    simp only [Int.ofNat_zero] at h
    omega

/-- Splitting `rem ++ f2` gives what splitting `rem` and then `f2`, with the outputs and the
flag carried over, gives: provided no marker straddles the boundary and `f2` does not begin
with a newline right after an opening marker that ends `rem`. -/
theorem thinkLoop_append (f2 : String) :
    ∀ (n : Nat) (rem c r : String) (fl : Bool), len rem ≤ n →
      NoCut "<think>" rem f2 → NoCut "</think>" rem f2 →
      (HasSuffix rem "<think>" = true → HasPrefix f2 "\n" = false) →
      thinkLoop { remaining := rem ++ f2, toContent := c, toReasoning := r, inThinking := fl }
        = thinkLoop
            { remaining := f2,
              toContent := (thinkLoop { remaining := rem, toContent := c, toReasoning := r,
                                        inThinking := fl }).toContent,
              toReasoning := (thinkLoop { remaining := rem, toContent := c, toReasoning := r,
                                          inThinking := fl }).toReasoning,
              inThinking := (thinkLoop { remaining := rem, toContent := c, toReasoning := r,
                                         inThinking := fl }).inThinking } := by
  have h7 : len "<think>" = 7 := rfl
  have h8 : len "</think>" = 8 := rfl
  intro n
  induction n with
  | zero =>
    intro rem c r fl hn _ _ _
    have hr : rem = "" := len_eq_zero.mp (by omega)
    subst hr
    rw [thinkLoop_done]
    simp
  | succ n ih =>
    intro rem c r fl hn ho hc hnl
    by_cases hz : len rem = 0
    · have hr : rem = "" := len_eq_zero.mp hz
      subst hr
      rw [thinkLoop_done]
      simp
    have hpos : len rem > 0 := by omega
    have hpos2 : len (rem ++ f2) > 0 := by rw [len_append]; omega
    cases fl with
    | false =>
      have hidx := Index_append "<think>" rem f2 (by omega) ho
      rcases Index_nonneg_cases rem "<think>" with hi | ⟨i, hi⟩
      · -- no opening marker before the boundary
        have hplain := thinkLoop_plain rem c r ((Contains_false_iff _ _).mpr hi)
        rw [hplain]
        simp only
        rw [hi] at hidx
        simp only [if_true] at hidx
        rcases Index_nonneg_cases f2 "<think>" with hj | ⟨j, hj⟩
        · rw [hj] at hidx
          simp only [if_true] at hidx
          rw [thinkLoop_plain (rem ++ f2) c r ((Contains_false_iff _ _).mpr hidx),
            thinkLoop_plain f2 (c ++ rem) r ((Contains_false_iff _ _).mpr hj),
            String.append_assoc]
        · rw [hj] at hidx
          have hne : ¬ ((j : Int) = -1) := by omega
          simp only [hne, if_false] at hidx
          have hb := Index_bound f2 "<think>" (by omega)
          have hpos3 : len f2 > 0 := by omega
          rw [thinkLoop_unfold, if_pos hpos2, thinkStep_false, hidx,
            thinkLoop_unfold { remaining := f2, toContent := c ++ rem, toReasoning := r,
                               inThinking := false },
            if_pos hpos3, thinkStep_false, hj]
          have e1 : ((j : Int) + (len rem : Int)).toNat = len rem + j := by omega
          have g1 : (j : Int) + (len rem : Int) ≥ 0 := by omega
          have g2 : (j : Int) ≥ 0 := by omega
          simp only [g1, g2, if_true, e1, Int.toNat_ofNat]
          rw [sliceTo_append_add, Nat.add_assoc, sliceFrom_append_add, String.append_assoc]
      · -- an opening marker before the boundary
        have hb := Index_bound rem "<think>" (by omega)
        rw [hi] at hb hidx
        simp only [Int.toNat_ofNat] at hb
        have hne : ¬ ((i : Int) = -1) := by omega
        simp only [hne, if_false] at hidx
        have g1 : (i : Int) ≥ 0 := by omega
        rw [thinkLoop_unfold, if_pos hpos2, thinkStep_false, hidx,
          thinkLoop_unfold { remaining := rem, toContent := c, toReasoning := r,
                             inThinking := false },
          if_pos hpos, thinkStep_false, hi]
        simp only [g1, if_true, Int.toNat_ofNat]
        rw [sliceTo_append_le rem f2 i (by omega), sliceFrom_append_le rem f2 (i + 7) (by omega)]
        have hskip : skipNewline (sliceFrom rem (i + 7) ++ f2)
            = skipNewline (sliceFrom rem (i + 7)) ++ f2 := by
          by_cases hl : 0 < len (sliceFrom rem (i + 7))
          · exact skipNewline_append _ _ hl
          · have he : sliceFrom rem (i + 7) = "" := len_eq_zero.mp (by omega)
            have hlen : i + 7 = len rem := by
              rw [len_sliceFrom] at hl
              omega
            have hsuf := HasSuffix_of_Index rem "<think>" i hi (by omega)
            have hf2 := hnl hsuf
            rw [he]
            simp [skipNewline, hf2, HasPrefix_empty]
        rw [hskip]
        obtain ⟨q, hq, hqe⟩ := skipNewline_eq_sliceFrom (sliceFrom rem (i + 7))
        rw [hqe, sliceFrom_sliceFrom]
        rw [len_sliceFrom] at hq
        apply ih
        · rw [len_sliceFrom]; omega
        · exact NoCut_sliceFrom _ _ _ _ (by omega) ho
        · exact NoCut_sliceFrom _ _ _ _ (by omega) hc
        · intro hs
          exact hnl (HasSuffix_sliceFrom _ _ _ hs)
    | true =>
      have hidx := Index_append "</think>" rem f2 (by omega) hc
      rcases Index_nonneg_cases rem "</think>" with hi | ⟨i, hi⟩
      · have hplain := thinkLoop_inside rem c r ((Contains_false_iff _ _).mpr hi)
        rw [hplain]
        simp only
        rw [hi] at hidx
        simp only [if_true] at hidx
        rcases Index_nonneg_cases f2 "</think>" with hj | ⟨j, hj⟩
        · rw [hj] at hidx
          simp only [if_true] at hidx
          rw [thinkLoop_inside (rem ++ f2) c r ((Contains_false_iff _ _).mpr hidx),
            thinkLoop_inside f2 c (r ++ rem) ((Contains_false_iff _ _).mpr hj),
            String.append_assoc]
        · rw [hj] at hidx
          have hne : ¬ ((j : Int) = -1) := by omega
          simp only [hne, if_false] at hidx
          have hb := Index_bound f2 "</think>" (by omega)
          have hpos3 : len f2 > 0 := by omega
          rw [thinkLoop_unfold, if_pos hpos2, thinkStep_true, hidx,
            thinkLoop_unfold { remaining := f2, toContent := c, toReasoning := r ++ rem,
                               inThinking := true },
            if_pos hpos3, thinkStep_true, hj]
          have e1 : ((j : Int) + (len rem : Int)).toNat = len rem + j := by omega
          have g1 : (j : Int) + (len rem : Int) ≥ 0 := by omega
          have g2 : (j : Int) ≥ 0 := by omega
          simp only [g1, g2, if_true, e1, Int.toNat_ofNat]
          rw [sliceTo_append_add, Nat.add_assoc, sliceFrom_append_add, String.append_assoc]
      · have hb := Index_bound rem "</think>" (by omega)
        rw [hi] at hb hidx
        simp only [Int.toNat_ofNat] at hb
        have hne : ¬ ((i : Int) = -1) := by omega
        simp only [hne, if_false] at hidx
        have g1 : (i : Int) ≥ 0 := by omega
        rw [thinkLoop_unfold, if_pos hpos2, thinkStep_true, hidx,
          thinkLoop_unfold { remaining := rem, toContent := c, toReasoning := r,
                             inThinking := true },
          if_pos hpos, thinkStep_true, hi]
        simp only [g1, if_true, Int.toNat_ofNat]
        rw [sliceTo_append_le rem f2 i (by omega), sliceFrom_append_le rem f2 (i + 8) (by omega)]
        apply ih
        · rw [len_sliceFrom]; omega
        · exact NoCut_sliceFrom _ _ _ _ (by omega) ho
        · exact NoCut_sliceFrom _ _ _ _ (by omega) hc
        · intro hs
          exact hnl (HasSuffix_sliceFrom _ _ _ hs)

/-- One iteration adds to the outputs it is entered with. -/
theorem thinkStep_acc (t c r : String) (fl : Bool) :
    thinkStep { remaining := t, toContent := c, toReasoning := r, inThinking := fl }
      = { remaining := (thinkStep { remaining := t, toContent := "", toReasoning := "",
                                    inThinking := fl }).remaining,
          toContent := c ++ (thinkStep { remaining := t, toContent := "", toReasoning := "",
                                         inThinking := fl }).toContent,
          toReasoning := r ++ (thinkStep { remaining := t, toContent := "", toReasoning := "",
                                           inThinking := fl }).toReasoning,
          inThinking := (thinkStep { remaining := t, toContent := "", toReasoning := "",
                                     inThinking := fl }).inThinking } := by
  cases fl with
  | false =>
    rw [thinkStep_false, thinkStep_false]
    split <;> simp
  | true =>
    rw [thinkStep_true, thinkStep_true]
    split <;> simp

/-- The loop adds to the outputs it is entered with. -/
theorem thinkLoop_acc :
    ∀ (n : Nat) (t c r : String) (fl : Bool), len t ≤ n →
      thinkLoop { remaining := t, toContent := c, toReasoning := r, inThinking := fl }
        = { remaining := "",
            toContent := c ++ (thinkLoop { remaining := t, toContent := "", toReasoning := "",
                                           inThinking := fl }).toContent,
            toReasoning := r ++ (thinkLoop { remaining := t, toContent := "", toReasoning := "",
                                             inThinking := fl }).toReasoning,
            inThinking := (thinkLoop { remaining := t, toContent := "", toReasoning := "",
                                       inThinking := fl }).inThinking } := by
  intro n
  induction n with
  | zero =>
    intro t c r fl h
    have ht : t = "" := len_eq_zero.mp (by omega)
    subst ht
    rw [thinkLoop_done, thinkLoop_done]
    simp
  | succ n ih =>
    intro t c r fl h
    by_cases hz : len t = 0
    · have ht : t = "" := len_eq_zero.mp hz
      subst ht
      rw [thinkLoop_done, thinkLoop_done]
      simp
    have hpos : len t > 0 := by omega
    have hlt := thinkStep_len_lt
      { remaining := t, toContent := "", toReasoning := "", inThinking := fl } hpos
    simp only at hlt
    rw [thinkLoop_unfold, if_pos hpos,
      thinkLoop_unfold { remaining := t, toContent := "", toReasoning := "", inThinking := fl },
      if_pos hpos, thinkStep_acc]
    rw [ih _ _ _ _ (by omega)]
    have e := ih
      (thinkStep { remaining := t, toContent := "", toReasoning := "", inThinking := fl }).remaining
      (thinkStep { remaining := t, toContent := "", toReasoning := "", inThinking := fl }).toContent
      (thinkStep { remaining := t, toContent := "", toReasoning := "", inThinking := fl }).toReasoning
      (thinkStep { remaining := t, toContent := "", toReasoning := "", inThinking := fl }).inThinking
      (by omega)
    rw [e]
    simp [String.append_assoc]

theorem indexFrom_drop (sub : List Char) :
    ∀ (q : Nat) (l : List Char), indexFrom sub l 0 = -1 → indexFrom sub (l.drop q) 0 = -1 := by
  intro q
  induction q with
  | zero => intro l h; simpa using h
  | succ q ih =>
    intro l h
    cases l with
    | nil => simpa using h
    | cons c cs =>
      rw [indexFrom_cons] at h
      split at h
      · exfalso; omega
      · rw [List.drop_succ_cons]
        exact ih cs (indexFrom_shift sub cs _ 0 h)

theorem Contains_sliceFrom (t m : String) (q : Nat) (h : Contains t m = false) :
    Contains (sliceFrom t q) m = false := by
  rw [Contains_false_iff] at h ⊢
  exact indexFrom_drop m.data q t.data h

theorem Contains_skipNewline (t m : String) (h : Contains t m = false) :
    Contains (skipNewline t) m = false := by
  unfold skipNewline
  split
  · exact Contains_sliceFrom t m 1 h
  · exact h

/-- The tag-splitting algorithm on `a ++ "<think>" ++ h ++ "</think>" ++ b`: the visible
text on both sides goes to the one content output. -/
theorem tagSplit_segment (a h b : String)
    (ha : Contains a "<think>" = false) (hh : Contains h "</think>" = false)
    (hb : Contains b "<think>" = false) :
    tagSplit false (a ++ "<think>" ++ h ++ "</think>" ++ b) = (a ++ b, skipNewline h, false) := by
  have e : a ++ "<think>" ++ h ++ "</think>" ++ b = a ++ "<think>" ++ (h ++ "</think>" ++ b) := by
    simp only [String.append_assoc]
  have hsk : (if HasPrefix (h ++ "</think>" ++ b) "\n" = true then
        sliceFrom (h ++ "</think>" ++ b) 1 else h ++ "</think>" ++ b)
      = skipNewline h ++ "</think>" ++ b := by
    by_cases hl : 0 < len h
    · have := skipNewline_append h ("</think>" ++ b) hl
      simp only [skipNewline, ← String.append_assoc] at this ⊢
      exact this
    · have he : h = "" := len_eq_zero.mp (by omega)
      subst he
      have hn := HasPrefix_nl_append "" b (by decide)
      rw [hn]
      simp [skipNewline, HasPrefix_empty]
  unfold tagSplit
  rw [e, thinkLoop_open a _ "" "" ha, hsk,
    thinkLoop_close (skipNewline h) b _ _ (Contains_skipNewline h _ hh),
    thinkLoop_plain b _ _ hb]
  simp

/-! ## Theorems for the claims on the reasoning flag and the tag-splitting loop -/

/-- C21: the inside-reasoning flag is changed only by the tag-splitting algorithm.  Every
input line other than a valid data line under the sticky event type `tool_call` whose
`tool_name` is `show_text` leaves the flag unchanged and sends no chunk with a reasoning
delta; a `tool_call` for another tool name sends no chunk and leaves the state as it is; a
`message` event is sent verbatim as visible content, whatever markers its content holds, and
leaves the state as it is; a line on which the loop stops leaves the state for the code
after the loop as it is and sends nothing. -/
theorem flag_changed_only_by_tag_split (L : Lib) (st : DecoderState) :
    (∀ (text : String) (rest : List String), processLine L st text = none →
      scanLoop L (text :: rest) st = (st, [])) ∧
    (∀ (text : String) (st1 : DecoderState) (out : List Effect),
      processLine L st text = some (st1, out) →
      ¬ (HasPrefix text "data: " = true ∧ L.Valid (TrimPrefix text "data: ") = true ∧
         st.currentEvent = "tool_call" ∧
         L.GetString (TrimPrefix text "data: ") "tool_name" = "show_text") →
      st1.inThinking = st.inThinking ∧
      ∀ c ∈ chunksOf out, deltaHas c "reasoning_content" = false) ∧
    (∀ d : String, L.Valid d = true → st.currentEvent = "tool_call" →
      L.GetString d "tool_name" ≠ "show_text" →
      processLine L st ("data: " ++ d) = some (st, [])) ∧
    (∀ d : String, L.Valid d = true → st.currentEvent = "message" →
      L.GetString d "delta.content" ≠ "" →
      processLine L st ("data: " ++ d)
        = some (st, [Effect.send (contentChunk (L.GetString d "delta.content"))])) := by
  refine ⟨?_, ?_, ?_, ?_⟩
  · intro text rest h
    simp only [scanLoop, h]
  · intro text st1 out h hn
    have hnil : ∀ c ∈ chunksOf ([] : List Effect), deltaHas c "reasoning_content" = false := by
      intro c hc
      simp [chunksOf] at hc
    unfold processLine at h
    split at h
    · simp only [Option.some.injEq, Prod.mk.injEq] at h
      rw [← h.1, ← h.2]
      exact ⟨rfl, hnil⟩
    · split at h
      · simp only [Option.some.injEq, Prod.mk.injEq] at h
        rw [← h.1, ← h.2]
        exact ⟨rfl, hnil⟩
      · rename_i hd
        simp only at h
        split at h
        · simp only [Option.some.injEq, Prod.mk.injEq] at h
          rw [← h.1, ← h.2]
          exact ⟨rfl, hnil⟩
        · rename_i hv
          apply dispatchEvent_flag L st st1 _ out h
          intro hc
          apply hn
          refine ⟨by simpa using hd, by simpa using hv, hc.1, hc.2⟩
  · intro d hv hc ht
    rw [processLine_data L st d hv, dispatchEvent_other_tool L st d hc ht]
  · intro d hv hc hne
    rw [processLine_data L st d hv, dispatchEvent_message L st d hc]
    simp [hne]

set_option maxRecDepth 100000 in
/-- C21, at a `tool_call` for the tool `search` and at a `message` event whose content is
`a<think>b</think>c`, both met with the flag set. -/
theorem flag_changed_only_by_tag_split_witness :
    toolLib.Valid (toolDoc "search" "q<think>x") = true ∧
    toolLib.GetString (toolDoc "search" "q<think>x") "tool_name" ≠ "show_text" ∧
    processLine toolLib
        { inThinking := true, currentEvent := "tool_call", totalPromptTokens := 0,
          totalCompletionTokens := 0 }
        ("data: " ++ toolDoc "search" "q<think>x")
      = some ({ inThinking := true, currentEvent := "tool_call", totalPromptTokens := 0,
                totalCompletionTokens := 0 }, []) ∧
    processLine toolLib
        { inThinking := true, currentEvent := "message", totalPromptTokens := 0,
          totalCompletionTokens := 0 }
        ("data: " ++ msgDoc "a<think>b</think>c")
      = some ({ inThinking := true, currentEvent := "message", totalPromptTokens := 0,
                totalCompletionTokens := 0 },
              [Effect.send (contentChunk "a<think>b</think>c")]) ∧
    deltaHas (contentChunk "a<think>b</think>c") "reasoning_content" = false :=
  ⟨by decide, by decide,
   (flag_changed_only_by_tag_split toolLib (DecoderState.mk true "tool_call" 0 0)).2.2.1
      (toolDoc "search" "q<think>x") (by decide) rfl (by decide),
   ((flag_changed_only_by_tag_split toolLib (DecoderState.mk true "message" 0 0)).2.2.2
      (msgDoc "a<think>b</think>c") (by decide) rfl (by decide)).trans (by decide),
   ((flag_changed_only_by_tag_split toolLib (DecoderState.mk true "message" 0 0)).2.1
      ("data: " ++ msgDoc "a<think>b</think>c") (DecoderState.mk true "message" 0 0)
      [Effect.send (contentChunk "a<think>b</think>c")] (by decide)
      (fun hc => absurd hc.2.2.1 (by decide))).2
      (contentChunk "a<think>b</think>c") (by decide)⟩

set_option maxRecDepth 100000 in
/-- C22 as stated fails: the fragment `before<think>hidden</think>after` makes the decoder
send one chunk, with the content `beforeafter` and the reasoning `hidden`, not one chunk for
`before` and one for `after`; and for `h` = `x</think>y` the fragment `a<think>x</think>y</think>b`
gives the content `ay</think>b`. -/
theorem show_text_counterexample :
    runDecoder toolLib
        ["event: tool_call", "data: " ++ toolDoc "show_text" "before<think>hidden</think>after"]
      = [Effect.send initialChunk,
         Effect.send { delta := [("content", "beforeafter"), ("reasoning_content", "hidden")],
                       finish_reason := none },
         Effect.send stopChunk] ∧
    runDecoder toolLib
        ["event: tool_call", "data: " ++ toolDoc "show_text" "a<think>x</think>y</think>b"]
      = [Effect.send initialChunk,
         Effect.send { delta := [("content", "ay</think>b"), ("reasoning_content", "x")],
                       finish_reason := none },
         Effect.send stopChunk] := by
  constructor <;> decide

/-- C22, amended: for every non-empty `a` and every `b`, both free of the opening marker,
and every `h` free of the closing marker, a single `tool_call` `show_text` fragment
`a ++ "<think>" ++ h ++ "</think>" ++ b` makes the decoder send one chunk between the role
chunk and the stop chunk: its content delta is `a ++ b` and its reasoning delta is `h` without
the newline that directly follows the opening marker. -/
theorem show_text_single_chunk (L : Lib) (d a h b : String)
    (hv : L.Valid d = true) (htool : L.GetString d "tool_name" = "show_text")
    (htext : L.GetString d "delta_input.text" = a ++ "<think>" ++ h ++ "</think>" ++ b)
    (hne : a ≠ "") (ha : Contains a "<think>" = false) (hh : Contains h "</think>" = false)
    (hb : Contains b "<think>" = false) :
    runDecoder L ["event: tool_call", "data: " ++ d]
      = [Effect.send initialChunk, sendChunk (a ++ b) (skipNewline h) "",
         Effect.send stopChunk] ∧
    (∀ c, sendChunk (a ++ b) (skipNewline h) "" = Effect.send c →
      deltaGet c "content" = a ++ b ∧ deltaGet c "reasoning_content" = skipNewline h) := by
  have hab : a ++ b ≠ "" := by
    intro he
    have := congrArg len he
    rw [len_append] at this
    have h0 : len "" = 0 := rfl
    have hla : len a = 0 := by omega
    exact hne (len_eq_zero.mp hla)
  constructor
  · have he : ("event: tool_call" : String) = "event: " ++ "tool_call" := by decide
    have hx : L.GetString d "delta_input.text" ≠ "" := by
      rw [htext]
      intro he2
      have := congrArg len he2
      simp only [len_append] at this
      have h0 : len "" = 0 := rfl
      have h7 : len "<think>" = 7 := rfl
      omega
    have hscan : scanLoop L ["event: tool_call", "data: " ++ d] DecoderState.init
        = ({ DecoderState.init with currentEvent := "tool_call" },
            [sendChunk (a ++ b) (skipNewline h) ""]) := by
      rw [scanLoop_cons, he, processLine_event]
      simp only [scanLoop_cons, processLine_data L _ d hv]
      rw [dispatchEvent_show_text L _ d rfl htool hx]
      simp only [htext, DecoderState.init, tagSplit_segment a h b ha hh hb]
      simp [scanLoop, hab]
    unfold runDecoder finalState
    rw [hscan, streamDone_eq]
    simp [DecoderState.init]
  · intro c hc
    simp only [sendChunk, Effect.send.injEq] at hc
    rw [← hc]
    by_cases hs : skipNewline h = ""
    · simp [deltaGet, hab, hs, List.lookup]
    · simp [deltaGet, hab, hs, List.lookup]

set_option maxRecDepth 100000 in
/-- C22, amended, at the fragment `before<think>hidden</think>after`. -/
theorem show_text_single_chunk_witness :
    toolLib.Valid (toolDoc "show_text" "before<think>hidden</think>after") = true ∧
    "before" ≠ "" ∧ Contains "before" "<think>" = false ∧
    Contains "hidden" "</think>" = false ∧ Contains "after" "<think>" = false ∧
    runDecoder toolLib
        ["event: tool_call", "data: " ++ toolDoc "show_text" "before<think>hidden</think>after"]
      = [Effect.send initialChunk, sendChunk ("before" ++ "after") (skipNewline "hidden") "",
         Effect.send stopChunk] :=
  ⟨by decide, by decide, by decide, by decide, by decide,
   (show_text_single_chunk toolLib (toolDoc "show_text" "before<think>hidden</think>after")
      "before" "hidden" "after" (by decide) (by decide) (by decide) (by decide) (by decide)
      (by decide) (by decide)).1⟩

/-- C23 as stated fails: no marker straddles the boundary between `a<think>` and a second
fragment that begins with a newline, yet splitting the two fragments gives the reasoning
with the newline and splitting their concatenation gives it without. -/
theorem tagSplit_fragments_counterexample :
    NoCut "<think>" "a<think>" "\nx" ∧ NoCut "</think>" "a<think>" "\nx" ∧
    tagSplit false "a<think>" = ("a", "", true) ∧
    tagSplit true "\nx" = ("", "\nx", true) ∧
    tagSplit false ("a<think>" ++ "\nx") = ("a", "x", true) := by
  refine ⟨by decide, by decide, by decide, by decide, by decide⟩

/-- C23, amended: tag-splitting is independent of how the text is cut into fragments, as long
as no marker is cut and the second fragment does not begin with a newline right after an
opening marker that ends the first.  For every initial flag value and all fragments `f1`,
`f2` such that no occurrence of `<think>` or `</think>` in `f1 ++ f2` straddles the boundary,
and such that `f2` does not start with a newline when `f1` ends with `<think>`, splitting `f1`
and then `f2` with the flag carried over yields the same concatenated content output, the same
concatenated reasoning output and the same final flag as splitting `f1 ++ f2`. -/
theorem tagSplit_fragments (fl : Bool) (f1 f2 : String)
    (ho : NoCut "<think>" f1 f2) (hc : NoCut "</think>" f1 f2)
    (hnl : HasSuffix f1 "<think>" = true → HasPrefix f2 "\n" = false) :
    tagSplit fl (f1 ++ f2)
      = ((tagSplit fl f1).1 ++ (tagSplit (tagSplit fl f1).2.2 f2).1,
         (tagSplit fl f1).2.1 ++ (tagSplit (tagSplit fl f1).2.2 f2).2.1,
         (tagSplit (tagSplit fl f1).2.2 f2).2.2) := by
  unfold tagSplit
  simp only
  rw [thinkLoop_append f2 (len f1) f1 "" "" fl (le_refl _) ho hc hnl,
    thinkLoop_acc (len f2) f2 _ _ _ (le_refl _)]

/-- C23, amended, at the fragments `a<think>x` and `y</think>b`, and at `a<think>` followed
by `x</think>b`. -/
theorem tagSplit_fragments_witness :
    NoCut "<think>" "a<think>x" "y</think>b" ∧ NoCut "</think>" "a<think>x" "y</think>b" ∧
    (HasSuffix "a<think>x" "<think>" = true → HasPrefix "y</think>b" "\n" = false) ∧
    tagSplit false ("a<think>x" ++ "y</think>b") = ("a" ++ "b", "x" ++ "y", false) ∧
    HasSuffix "a<think>" "<think>" = true ∧ HasPrefix "x</think>b" "\n" = false ∧
    tagSplit false ("a<think>" ++ "x</think>b") = ("a" ++ "b", "" ++ "x", false) :=
  ⟨by decide, by decide, by decide,
   (tagSplit_fragments false "a<think>x" "y</think>b" (by decide) (by decide)
      (by decide)).trans (by decide),
   by decide, by decide,
   (tagSplit_fragments false "a<think>" "x</think>b" (by decide) (by decide)
      (by decide)).trans (by decide)⟩

/-- C24: the tag-splitting loop terminates for every fragment and either flag value.  Each
iteration strictly shortens the remaining text: a marker that is found takes off at least the
marker's length, otherwise the whole remainder is consumed.  So the loop is a total function,
defined by well-founded recursion on the length of the remaining text; it ends with nothing
remaining, after at most `len remaining` iterations whatever further fuel it is given; and no
slice expression of its body is out of range. -/
theorem tagSplit_loop_terminates (st : SplitState) :
    (len st.remaining > 0 → len (thinkStep st).remaining < len st.remaining) ∧
    (st.inThinking = false → Index st.remaining "<think>" ≥ 0 →
      len (thinkStep st).remaining + 7 ≤ len st.remaining) ∧
    (st.inThinking = true → Index st.remaining "</think>" ≥ 0 →
      len (thinkStep st).remaining + 8 ≤ len st.remaining) ∧
    (st.inThinking = false → Index st.remaining "<think>" < 0 →
      (thinkStep st).remaining = "") ∧
    (st.inThinking = true → Index st.remaining "</think>" < 0 →
      (thinkStep st).remaining = "") ∧
    thinkStepChecked st = some (thinkStep st) ∧
    thinkLoopWF st = thinkLoop st ∧
    (∀ n, len st.remaining ≤ n → thinkLoopFuel n st = thinkLoop st) ∧
    (thinkLoop st).remaining = "" :=
  ⟨thinkStep_len_lt st, (thinkStep_consumes st).1, (thinkStep_consumes st).2.1,
   (thinkStep_consumes st).2.2.1, (thinkStep_consumes st).2.2.2, thinkStepChecked_eq st,
   thinkLoopWF_eq st, fun n h => thinkLoopFuel_eq_thinkLoop n st h, thinkLoop_remaining st⟩

/-- C24, at the fragment `a<think>\nx</think>b` entered with the flag false: the first
iteration takes off the text `a`, the marker and the newline; the loop ends with nothing
remaining, also with more fuel than the length of the fragment. -/
theorem tagSplit_loop_terminates_witness :
    len "a<think>\nx</think>b" > 0 ∧ Index "a<think>\nx</think>b" "<think>" ≥ 0 ∧
    len (thinkStep { remaining := "a<think>\nx</think>b", toContent := "", toReasoning := "",
                     inThinking := false }).remaining + 7 ≤ len "a<think>\nx</think>b" ∧
    thinkLoopFuel 100 { remaining := "a<think>\nx</think>b", toContent := "", toReasoning := "",
                        inThinking := false }
      = { remaining := "", toContent := "ab", toReasoning := "x", inThinking := false } :=
  ⟨by decide, by decide,
   (tagSplit_loop_terminates (SplitState.mk "a<think>\nx</think>b" "" "" false)).2.1 rfl
      (by decide),
   ((tagSplit_loop_terminates (SplitState.mk "a<think>\nx</think>b" "" "" false)).2.2.2.2.2.2.2.1
      100 (by decide)).trans (by decide)⟩

/-! ## Lemmas on the scanner -/

theorem dropCR_data_append (d : String) : dropCR ("data: " ++ d) = "data: " ++ dropCR d := by
  unfold dropCR
  by_cases hd : d.data = []
  · have hd2 : d = "" := String.ext hd
    subst hd2
    decide
  · have h1 : ("data: " ++ d).data.getLast? = d.data.getLast? := by
      rw [String.data_append, List.getLast?_append_of_ne_nil _ hd]
    rw [h1]
    split
    · apply String.ext
      show ("data: " ++ d).data.dropLast = ("data: " ++ (⟨d.data.dropLast⟩ : String)).data
      rw [String.data_append, String.data_append, List.dropLast_append_of_ne_nil _ hd]
    · rfl

theorem scannedLines_of_short (upstream : List String)
    (h : ∀ t ∈ upstream, len t < maxTokenSize) :
    scannedLines upstream = upstream.map dropCR := by
  unfold scannedLines
  rw [List.takeWhile_eq_self_iff.mpr]
  intro t ht
  simpa using h t ht

theorem scannedLines_cut (pre : List String) (big : String) (suf : List String)
    (hpre : ∀ t ∈ pre, len t < maxTokenSize) (hbig : maxTokenSize ≤ len big) :
    scannedLines (pre ++ big :: suf) = pre.map dropCR := by
  unfold scannedLines
  rw [List.takeWhile_append_of_pos (by intro t ht; simpa using hpre t ht),
    List.takeWhile_cons_of_neg (by simpa using hbig)]
  simp

theorem scannedLines_filter (L : Lib) (upstream : List String)
    (hs : ∀ t ∈ upstream, skippedLine L (dropCR t) = true → len t < maxTokenSize) :
    scannedLines (upstream.filter (fun t => !skippedLine L (dropCR t)))
      = (scannedLines upstream).filter (fun t => !skippedLine L t) := by
  induction upstream with
  | nil => rfl
  | cons t rest ih =>
    have ih2 := ih (fun u hu => hs u (List.mem_cons_of_mem _ hu))
    unfold scannedLines at ih2 ⊢
    by_cases hk : skippedLine L (dropCR t) = true
    · have hlt := hs t (List.mem_cons_self _ _) hk
      rw [List.filter_cons_of_neg (by simp [hk]),
        List.takeWhile_cons_of_pos (by simpa using hlt), List.map_cons,
        List.filter_cons_of_neg (by simp [hk])]
      exact ih2
    · have hk2 : skippedLine L (dropCR t) = false := by simpa using hk
      rw [List.filter_cons_of_pos (by simp [hk2])]
      by_cases hlt : len t < maxTokenSize
      · rw [List.takeWhile_cons_of_pos (by simpa using hlt),
          List.takeWhile_cons_of_pos (by simpa using hlt), List.map_cons, List.map_cons,
          List.filter_cons_of_pos (by simp [hk2]), ih2]
      · rw [List.takeWhile_cons_of_neg (by simpa using hlt),
          List.takeWhile_cons_of_neg (by simpa using hlt)]
        rfl

theorem len_oversizeText : len oversizeText = maxTokenSize := by
  simp [len, oversizeText]

theorem oversizeText_data :
    oversizeText.data = 'x' :: List.replicate (maxTokenSize - 1) 'x' := by
  have h : maxTokenSize = (maxTokenSize - 1) + 1 := by decide
  show List.replicate maxTokenSize 'x' = _
  rw [h, List.replicate_succ]
  rfl

theorem dropCR_oversizeText : dropCR oversizeText = oversizeText := by
  unfold dropCR
  have h : oversizeText.data.getLast? = some 'x' := by
    have h0 : ¬ (maxTokenSize = 0) := by decide
    show (List.replicate maxTokenSize 'x').getLast? = some 'x'
    rw [List.getLast?_replicate, if_neg h0]
  rw [h, if_neg (by decide)]

theorem skippedLine_oversizeText (L : Lib) : skippedLine L oversizeText = true := by
  simp [skippedLine, HasPrefix, oversizeText_data, List.isPrefixOf]

theorem len_oversize_data_line : maxTokenSize ≤ len ("data: " ++ msgDoc oversizeText) := by
  simp only [msgDoc, jObj, jStr, List.map, String.intercalate, String.intercalate.go, len_append,
    len_oversizeText]
  omega

/-! ## Theorems for the claims on the lines of the upstream body -/

/-- C7 as stated fails: after the line `event: message`, a data line of 10 MiB or more whose
payload is valid and has a non-empty `delta.content`, followed by a data line with the content
`lo`, gives no chunk between the role chunk and the stop chunk; the scanner stops at the long
line. -/
theorem message_events_counterexample :
    oversizeLib.Valid (msgDoc oversizeText) = true ∧
    oversizeLib.GetString (msgDoc oversizeText) "delta.content" = oversizeText ∧
    oversizeText ≠ "" ∧
    oversizeLib.Valid (msgDoc "lo") = true ∧
    oversizeLib.GetString (msgDoc "lo") "delta.content" = "lo" ∧
    maxTokenSize ≤ len ("data: " ++ msgDoc oversizeText) ∧
    runDecoder oversizeLib (scannedLines
        ["event: message", "data: " ++ msgDoc oversizeText, "data: " ++ msgDoc "lo"])
      = [Effect.send initialChunk, Effect.send stopChunk] := by
  have hne : oversizeText ≠ "" := by
    intro h
    have h2 := len_oversizeText
    rw [h] at h2
    exact absurd h2 (by decide)
  have hdoc : msgDoc "lo" ≠ msgDoc oversizeText := by
    intro h
    have h2 := congrArg len h
    have h3 := len_oversize_data_line
    rw [len_append, ← h2] at h3
    exact absurd h3 (by decide)
  refine ⟨by simp [oversizeLib], by simp [oversizeLib], hne, ?_, ?_, len_oversize_data_line, ?_⟩
  · simp only [oversizeLib, hdoc, decide_False, Bool.false_or]
    decide
  · simp only [oversizeLib, hdoc, if_false]
    decide
  · have hcut := scannedLines_cut ["event: message"] ("data: " ++ msgDoc oversizeText)
      ["data: " ++ msgDoc "lo"] (by decide) len_oversize_data_line
    rw [show ["event: message", "data: " ++ msgDoc oversizeText, "data: " ++ msgDoc "lo"]
        = ["event: message"] ++ ("data: " ++ msgDoc oversizeText) :: ["data: " ++ msgDoc "lo"]
      from rfl, hcut]
    decide

/-- C7, amended: the event type is sticky and `message` events emit content only.  For every
k and data lines shorter than 10 MiB (`maxTokenSize` bytes) whose payloads, read without the
carriage return that may end the line, are valid, the input consisting of one line
`event: message` followed by these data lines yields, between the initial role chunk and the
terminal stop chunk, one chunk for each payload whose `delta.content` is not empty, in order,
carrying that content and no reasoning delta; a payload whose `delta.content` is empty or
absent yields no chunk.  When all the contents are non-empty these are exactly k chunks. -/
theorem message_events_within_limit (L : Lib) (ds : List String)
    (hv : ∀ d ∈ ds, L.Valid (dropCR d) = true)
    (hlen : ∀ d ∈ ds, len ("data: " ++ d) < maxTokenSize) :
    runDecoder L (scannedLines ("event: message" :: ds.map (fun d => "data: " ++ d)))
      = Effect.send initialChunk ::
          ((ds.filter (fun d => L.GetString (dropCR d) "delta.content" ≠ "")).map
              (fun d => Effect.send (contentChunk (L.GetString (dropCR d) "delta.content")))
            ++ [Effect.send stopChunk]) ∧
    ((∀ d ∈ ds, L.GetString (dropCR d) "delta.content" ≠ "") →
      chunksOf (runDecoder L
          (scannedLines ("event: message" :: ds.map (fun d => "data: " ++ d))))
        = initialChunk ::
            (ds.map (fun d => contentChunk (L.GetString (dropCR d) "delta.content"))
              ++ [stopChunk]) ∧
      (∀ c ∈ ds.map (fun d => contentChunk (L.GetString (dropCR d) "delta.content")),
        deltaHas c "reasoning_content" = false)) := by
  have hscan : scannedLines ("event: message" :: ds.map (fun d => "data: " ++ d))
      = "event: message" :: (ds.map dropCR).map (fun d => "data: " ++ d) := by
    rw [scannedLines_of_short]
    · simp only [List.map_cons, List.map_map]
      congr 1
      apply List.map_congr_left
      intro d _
      exact dropCR_data_append d
    · intro t ht
      rcases List.mem_cons.mp ht with h | h
      · rw [h]; decide
      · obtain ⟨d, hd, rfl⟩ := List.mem_map.mp h
        exact hlen d hd
  have hv2 : ∀ d ∈ ds.map dropCR, L.Valid d = true := by
    intro d hd
    obtain ⟨e, he, rfl⟩ := List.mem_map.mp hd
    exact hv e he
  have hold := runDecoder_message_lines L (ds.map dropCR) hv2
  rw [hscan]
  refine ⟨?_, ?_⟩
  · rw [hold.1]
    simp [List.filter_map, List.map_map, Function.comp_def]
  · intro hne
    have hne2 : ∀ d ∈ ds.map dropCR, L.GetString d "delta.content" ≠ "" := by
      intro d hd
      obtain ⟨e, he, rfl⟩ := List.mem_map.mp hd
      exact hne e he
    refine ⟨?_, ?_⟩
    · rw [hold.2 hne2]
      simp [List.map_map, Function.comp_def]
    · intro c hc
      obtain ⟨d, _, rfl⟩ := List.mem_map.mp hc
      rfl

/-- C7, amended, at the two data lines with the contents `Hel` and `lo`. -/
theorem message_events_within_limit_witness :
    (∀ d ∈ [msgDoc "Hel", msgDoc "lo"], sampleLib.Valid (dropCR d) = true) ∧
    (∀ d ∈ [msgDoc "Hel", msgDoc "lo"], len ("data: " ++ d) < maxTokenSize) ∧
    (∀ d ∈ [msgDoc "Hel", msgDoc "lo"], sampleLib.GetString (dropCR d) "delta.content" ≠ "") ∧
    chunksOf (runDecoder sampleLib (scannedLines
        ("event: message" :: [msgDoc "Hel", msgDoc "lo"].map (fun d => "data: " ++ d))))
      = [initialChunk, contentChunk "Hel", contentChunk "lo", stopChunk] :=
  ⟨by decide, by decide, by decide,
   ((message_events_within_limit sampleLib [msgDoc "Hel", msgDoc "lo"] (by decide)
      (by decide)).2 (by decide)).1.trans (by decide)⟩

/-- C8 as stated fails: a line of 10 MiB or more that starts with neither `event: ` nor
`data: ` ends the stream at that line, so the chunk of the data line after it is not sent;
with the line deleted the chunk is sent. -/
theorem skipped_lines_counterexample :
    HasPrefix oversizeText "event: " = false ∧ HasPrefix oversizeText "data: " = false ∧
    ["event: message", "data: " ++ msgDoc "Hel", oversizeText, "data: " ++ msgDoc "lo"].filter
        (fun t => !skippedLine sampleLib (dropCR t))
      = ["event: message", "data: " ++ msgDoc "Hel", "data: " ++ msgDoc "lo"] ∧
    runDecoder sampleLib (scannedLines
        ["event: message", "data: " ++ msgDoc "Hel", oversizeText, "data: " ++ msgDoc "lo"])
      = [Effect.send initialChunk, Effect.send (contentChunk "Hel"), Effect.send stopChunk] ∧
    runDecoder sampleLib (scannedLines
        ["event: message", "data: " ++ msgDoc "Hel", "data: " ++ msgDoc "lo"])
      = [Effect.send initialChunk, Effect.send (contentChunk "Hel"),
         Effect.send (contentChunk "lo"), Effect.send stopChunk] := by
  refine ⟨by simp [HasPrefix, oversizeText_data, List.isPrefixOf],
    by simp [HasPrefix, oversizeText_data, List.isPrefixOf], ?_, ?_, ?_⟩
  · rw [List.filter_cons_of_pos (by decide), List.filter_cons_of_pos (by decide),
      List.filter_cons_of_neg (by simp [dropCR_oversizeText, skippedLine_oversizeText]),
      List.filter_cons_of_pos (by decide)]
    rfl
  · have hcut := scannedLines_cut ["event: message", "data: " ++ msgDoc "Hel"] oversizeText
      ["data: " ++ msgDoc "lo"] (by decide) (le_of_eq len_oversizeText.symm)
    rw [show ["event: message", "data: " ++ msgDoc "Hel", oversizeText, "data: " ++ msgDoc "lo"]
        = ["event: message", "data: " ++ msgDoc "Hel"] ++ oversizeText :: ["data: " ++ msgDoc "lo"]
      from rfl, hcut]
    decide
  · rw [scannedLines_of_short _ (by decide)]
    decide

/-- C8, amended: malformed and irrelevant lines shorter than 10 MiB are skipped without
aborting the stream.  For every upstream line sequence in which every line that starts with
neither `event: ` nor `data: ` and every `data: ` line whose payload is not valid JSON has
fewer than `maxTokenSize` bytes, deleting all these lines leaves the effects of the decoder
(the chunks sent and the usage published, in order) unchanged.  A line is judged as the
scanner yields it, without the carriage return that may end it. -/
theorem skipped_lines_within_limit (L : Lib) (upstream : List String)
    (hs : ∀ t ∈ upstream, skippedLine L (dropCR t) = true → len t < maxTokenSize) :
    runDecoder L (scannedLines (upstream.filter (fun t => !skippedLine L (dropCR t))))
      = runDecoder L (scannedLines upstream) ∧
    chunksOf (runDecoder L
        (scannedLines (upstream.filter (fun t => !skippedLine L (dropCR t)))))
      = chunksOf (runDecoder L (scannedLines upstream)) ∧
    publishedOf (runDecoder L
        (scannedLines (upstream.filter (fun t => !skippedLine L (dropCR t)))))
      = publishedOf (runDecoder L (scannedLines upstream)) := by
  have h : runDecoder L (scannedLines (upstream.filter (fun t => !skippedLine L (dropCR t))))
      = runDecoder L (scannedLines upstream) := by
    rw [scannedLines_filter L upstream hs]
    exact runDecoder_skip_filter L (scannedLines upstream)
  exact ⟨h, by rw [h], by rw [h]⟩

/-- C8, amended, at a stream with an empty line, a comment line and a data line whose payload
is not JSON between two `message` events. -/
theorem skipped_lines_within_limit_witness :
    (∀ t ∈ ["event: message", "data: " ++ msgDoc "Hel", "", ": keep-alive", "data: oops",
            "data: " ++ msgDoc "lo"],
      skippedLine sampleLib (dropCR t) = true → len t < maxTokenSize) ∧
    ["event: message", "data: " ++ msgDoc "Hel", "", ": keep-alive", "data: oops",
        "data: " ++ msgDoc "lo"].filter (fun t => !skippedLine sampleLib (dropCR t))
      = ["event: message", "data: " ++ msgDoc "Hel", "data: " ++ msgDoc "lo"] ∧
    runDecoder sampleLib (scannedLines
        ["event: message", "data: " ++ msgDoc "Hel", "", ": keep-alive", "data: oops",
         "data: " ++ msgDoc "lo"])
      = [Effect.send initialChunk, Effect.send (contentChunk "Hel"),
         Effect.send (contentChunk "lo"), Effect.send stopChunk] :=
  ⟨by decide, by decide,
   ((skipped_lines_within_limit sampleLib
      ["event: message", "data: " ++ msgDoc "Hel", "", ": keep-alive", "data: oops",
       "data: " ++ msgDoc "lo"] (by decide)).1.symm.trans
     (by rw [scannedLines_of_short _ (by decide)]; decide))⟩

/-! ## Lemmas on reading a request body -/

theorem intercalate_go_append (sep : String) (l : List String) :
    ∀ acc x : String,
      String.intercalate.go (acc ++ x) sep l = acc ++ String.intercalate.go x sep l := by
  induction l with
  | nil => intro acc x; rfl
  | cons a rest ih =>
    intro acc x
    simp only [String.intercalate.go]
    rw [String.append_assoc, String.append_assoc, ih acc, String.append_assoc]

theorem intercalate_cons_cons (sep a b : String) (l : List String) :
    String.intercalate sep (a :: b :: l) = a ++ sep ++ String.intercalate sep (b :: l) := by
  show String.intercalate.go (a ++ sep ++ b) sep l = a ++ sep ++ String.intercalate.go b sep l
  rw [intercalate_go_append sep l (a ++ sep) b]

theorem readLit_append (lit s : String) : readLit lit (lit ++ s) = some s := by
  simp [readLit, HasPrefix_append, sliceFrom_append_len]

theorem readMsg_marshal (J : JsonLib) (unq : String → Option (String × String)) (m : Msg)
    (rest : String)
    (hc : ∀ t, unq (J.MarshalString m.content ++ t) = some (m.content, t))
    (hr : ∀ t, unq (J.MarshalString m.role ++ t) = some (m.role, t)) :
    readMsg unq (("\x7b\"content\":" ++ J.MarshalString m.content ++ ",\"role\":" ++
        J.MarshalString m.role ++ "\x7d") ++ rest) = some (m, rest) := by
  simp only [String.append_assoc]
  simp only [readMsg, readLit_append, hc, hr]

theorem len_marshalled_pos (J : JsonLib) (m : Msg) :
    0 < len ("\x7b\"content\":" ++ J.MarshalString m.content ++ ",\"role\":" ++
        J.MarshalString m.role ++ "\x7d") := by
  simp only [len_append]
  have h : len "\x7d" = 1 := rfl
  omega

theorem readMsgs_marshal (J : JsonLib) (unq : String → Option (String × String))
    (tail : String) :
    ∀ (m : Msg) (ms : List Msg) (fuel : Nat),
      (∀ x ∈ m :: ms, ∀ t, unq (J.MarshalString x.content ++ t) = some (x.content, t)) →
      (∀ x ∈ m :: ms, ∀ t, unq (J.MarshalString x.role ++ t) = some (x.role, t)) →
      ms.length < fuel →
      readMsgs unq fuel (String.intercalate "," ((m :: ms).map (fun m =>
          "\x7b\"content\":" ++ J.MarshalString m.content ++ ",\"role\":" ++
            J.MarshalString m.role ++ "\x7d")) ++ ("]" ++ tail))
        = some (m :: ms, tail) := by
  intro m ms
  induction ms generalizing m with
  | nil =>
    intro fuel hc hr hf
    obtain ⟨n, rfl⟩ := Nat.exists_eq_succ_of_ne_zero (Nat.pos_iff_ne_zero.mp hf)
    have h1 : String.intercalate "," ([m].map (fun m =>
        "\x7b\"content\":" ++ J.MarshalString m.content ++ ",\"role\":" ++
          J.MarshalString m.role ++ "\x7d"))
        = "\x7b\"content\":" ++ J.MarshalString m.content ++ ",\"role\":" ++
          J.MarshalString m.role ++ "\x7d" := rfl
    rw [h1]
    simp only [readMsgs]
    rw [readMsg_marshal J unq m _ (hc m (List.mem_cons_self _ _)) (hr m (List.mem_cons_self _ _))]
    have h2 : HasPrefix ("]" ++ tail) "," = false := by
      simp [HasPrefix, String.data_append, List.isPrefixOf]
    simp only [h2, HasPrefix_append, Bool.false_eq_true, if_false, if_true]
    rw [show (1 : Nat) = len "]" from rfl, sliceFrom_append_len]
  | cons m2 rest ih =>
    intro fuel hc hr hf
    have hf0 : fuel ≠ 0 := by
      intro h0
      rw [h0] at hf
      exact absurd hf (Nat.not_lt_zero _)
    obtain ⟨n, rfl⟩ := Nat.exists_eq_succ_of_ne_zero hf0
    simp only [List.map_cons]
    rw [intercalate_cons_cons]
    simp only [readMsgs]
    rw [String.append_assoc, String.append_assoc,
      readMsg_marshal J unq m _ (hc m (List.mem_cons_self _ _)) (hr m (List.mem_cons_self _ _))]
    simp only [HasPrefix_append, if_true]
    rw [show (1 : Nat) = len "," from rfl, sliceFrom_append_len]
    have hrec := ih m2 n (fun x hx => hc x (List.mem_cons_of_mem _ hx))
      (fun x hx => hr x (List.mem_cons_of_mem _ hx))
      (by simp only [List.length_cons] at hf; omega)
    simp only [List.map_cons] at hrec
    rw [hrec]

theorem len_intercalate_ge (f : Msg → String) (hf : ∀ m, 0 < len (f m)) :
    ∀ (m : Msg) (ms : List Msg), ms.length < len (String.intercalate "," ((m :: ms).map f)) := by
  intro m ms
  induction ms generalizing m with
  | nil =>
    have h1 : String.intercalate "," ([m].map f) = f m := rfl
    rw [h1]
    exact hf m
  | cons m2 rest ih =>
    simp only [List.map_cons]
    rw [intercalate_cons_cons]
    have h := ih m2
    simp only [List.map_cons] at h
    have hcomma : len "," = 1 := rfl
    simp only [len_append, List.length_cons]
    omega

theorem bodyMessages_marshal (J : JsonLib) (unq : String → Option (String × String))
    (mm : miromindRequest)
    (hc : ∀ x ∈ mm.Messages, ∀ t, unq (J.MarshalString x.content ++ t) = some (x.content, t))
    (hr : ∀ x ∈ mm.Messages, ∀ t, unq (J.MarshalString x.role ++ t) = some (x.role, t)) :
    bodyMessages unq (marshalRequest J mm)
      = some (if mm.Messages = [] then .null else .list mm.Messages) := by
  unfold marshalRequest bodyMessages
  simp only [String.append_assoc, readLit_append]
  by_cases he : mm.Messages = []
  · simp only [he, if_true]
    rw [if_pos (HasPrefix_append _ _)]
  · simp only [he, if_false]
    obtain ⟨m, ms, hmm⟩ := List.exists_cons_of_ne_nil he
    have h1 : ∀ t, HasPrefix ("[" ++ t) "null" = false := by
      intro t
      simp [HasPrefix, String.data_append, List.isPrefixOf]
    have h2 : ∀ t, HasPrefix ("[" ++ (String.intercalate "," (mm.Messages.map (fun m =>
        "\x7b\"content\":" ++ (J.MarshalString m.content ++ (",\"role\":" ++
          (J.MarshalString m.role ++ "\x7d"))))) ++ t)) "[]" = false := by
      intro t
      rw [hmm]
      cases ms with
      | nil =>
        simp [HasPrefix, String.data_append, List.isPrefixOf, String.intercalate,
          String.intercalate.go]
      | cons m2 rest =>
        simp only [List.map_cons]
        rw [intercalate_cons_cons]
        simp [HasPrefix, String.data_append, List.isPrefixOf]
    simp only [String.append_assoc]
    simp only [h1, h2, Bool.false_eq_true, if_false, readLit_append]
    have hfun : (fun m : Msg => "\x7b\"content\":" ++ (J.MarshalString m.content ++
        (",\"role\":" ++ (J.MarshalString m.role ++ "\x7d"))))
        = (fun m : Msg => "\x7b\"content\":" ++ J.MarshalString m.content ++ ",\"role\":" ++
            J.MarshalString m.role ++ "\x7d") := by
      funext m
      simp only [String.append_assoc]
    rw [hfun, hmm]
    have hlen := len_intercalate_ge (fun m : Msg => "\x7b\"content\":" ++
      J.MarshalString m.content ++ ",\"role\":" ++ J.MarshalString m.role ++ "\x7d")
      (len_marshalled_pos J) m ms
    rw [readMsgs_marshal J unq _ m ms _ (by rw [← hmm]; exact hc) (by rw [← hmm]; exact hr)
      (by simp only [len_append]; omega)]

theorem readQuotedFrom_escaped (r : List Char) :
    ∀ (l acc : List Char),
      readQuotedFrom (l.flatMap (fun c => if c = '"' ∨ c = '\\' then ['\\', c] else [c])
          ++ '"' :: r) acc
        = some (⟨acc.reverse ++ l⟩, ⟨r⟩) := by
  intro l
  induction l with
  | nil => intro acc; simp [readQuotedFrom]
  | cons c rest ih =>
    intro acc
    by_cases hq : c = '"'
    · subst hq
      simp only [List.flatMap_cons, true_or, if_true, List.cons_append, List.nil_append]
      rw [readQuotedFrom]
      simp only [true_or, if_true]
      rw [ih]
      simp
    · by_cases hb : c = '\\'
      · subst hb
        simp only [List.flatMap_cons, or_true, if_true, List.cons_append, List.nil_append]
        rw [readQuotedFrom]
        simp only [true_or, or_true, if_true]
        rw [ih]
        simp
      · simp only [List.flatMap_cons, hq, hb, or_self, if_false, List.cons_append,
          List.nil_append]
        rw [readQuotedFrom]
        · rw [ih]
          simp
        · intro h
          exact hq h
        · intro c2 rest2 h _
          exact hb h

theorem readQuoted_sampleJson (s t : String) :
    readQuoted (sampleJson.MarshalString s ++ t) = some (s, t) := by
  unfold readQuoted
  have h : (sampleJson.MarshalString s ++ t).data
      = '"' :: (s.data.flatMap (fun c => if c = '"' ∨ c = '\\' then ['\\', c] else [c])
          ++ '"' :: t.data) := by
    simp [sampleJson, String.data_append]
  rw [h]
  simp only
  rw [readQuotedFrom_escaped]
  simp

/-! ## Theorems for the claim on the body of the MiroMind request -/

set_option maxRecDepth 100000 in
/-- C12 as stated fails: for a request whose `messages` field is the empty array (N = 0),
`buildMiroMindRequest` succeeds and the `messages` field of its body is `null`, not a list
without entries. -/
theorem build_body_counterexample :
    ResultIsArray (emptyJson.Get emptyPayload "messages") = true ∧
    ResultArray emptyJson (emptyJson.Get emptyPayload "messages") = [] ∧
    buildMiroMindRequest emptyJson { Model := "miromind-pro", Payload := emptyPayload }
      = .ok "\x7b\"messages\":null,\"debug\":false,\"mode\":\"pro\"\x7d" ∧
    bodyMessages readQuoted "\x7b\"messages\":null,\"debug\":false,\"mode\":\"pro\"\x7d"
      = some .null := by
  refine ⟨by decide, by decide, by rfl, by decide⟩

/-- C12, amended: for every request whose `messages` field is an array of N messages with
plain string role and content, `buildMiroMindRequest` succeeds.  When N is at least 1 the
`messages` field of its body is a list with exactly N entries, in the same order, each with
the role and the content of the corresponding input message unchanged; when N is 0 the
`messages` field of its body is `null`.  The body is read with any reader `unq` of string
literals that reads back the literals `json.Marshal` writes for these roles and contents. -/
theorem build_body_messages (J : JsonLib) (req : Request) (ms : List Result)
    (harr : ResultIsArray (J.Get req.Payload "messages") = true)
    (hms : ResultArray J (J.Get req.Payload "messages") = ms)
    (hrole : ∀ m ∈ ms, (ResultGet J m "role").Typ = .TString)
    (hcontent : ∀ m ∈ ms, (ResultGet J m "content").Typ = .TString) :
    ∃ body : String, buildMiroMindRequest J req = .ok body ∧
      ∀ unq : String → Option (String × String),
        (∀ m ∈ ms, ∀ t, unq (J.MarshalString (ResultGet J m "role").Str ++ t)
          = some ((ResultGet J m "role").Str, t)) →
        (∀ m ∈ ms, ∀ t, unq (J.MarshalString (ResultGet J m "content").Str ++ t)
          = some ((ResultGet J m "content").Str, t)) →
        (ms ≠ [] →
          bodyMessages unq body = some (.list (ms.map (fun m =>
            Msg.mk (ResultGet J m "role").Str (ResultGet J m "content").Str))) ∧
          (ms.map (fun m =>
            Msg.mk (ResultGet J m "role").Str (ResultGet J m "content").Str)).length
              = ms.length) ∧
        (ms = [] → bodyMessages unq body = some .null) := by
  obtain ⟨mm, hb, _, hmsgs, _⟩ := build_request_value J req ms harr hms hrole hcontent
  refine ⟨marshalRequest J mm, hb, ?_⟩
  intro unq hr hc
  have hread := bodyMessages_marshal J unq mm
    (by
      intro x hx t
      rw [hmsgs] at hx
      obtain ⟨m, hm, rfl⟩ := List.mem_map.mp hx
      exact hc m hm t)
    (by
      intro x hx t
      rw [hmsgs] at hx
      obtain ⟨m, hm, rfl⟩ := List.mem_map.mp hx
      exact hr m hm t)
  rw [hmsgs] at hread
  constructor
  · intro hne
    have hne2 : ¬ (ms.map (fun m =>
        Msg.mk (ResultGet J m "role").Str (ResultGet J m "content").Str) = []) := by
      simpa using hne
    rw [if_neg hne2] at hread
    exact ⟨hread, by simp⟩
  · intro he
    subst he
    simpa using hread

set_option maxRecDepth 100000 in
/-- C12, amended, at the payload `{"messages":[{"role":"user","content":"Hello"}]}`, the body
read with `readQuoted`. -/
theorem build_body_messages_witness :
    ResultIsArray (sampleJson.Get helloPayload "messages") = true ∧
    ResultArray sampleJson (sampleJson.Get helloPayload "messages") = [jsonResult helloMsg] ∧
    (∀ m ∈ [jsonResult helloMsg], (ResultGet sampleJson m "role").Typ = .TString) ∧
    (∀ m ∈ [jsonResult helloMsg], (ResultGet sampleJson m "content").Typ = .TString) ∧
    ∃ body : String,
      buildMiroMindRequest sampleJson { Model := "miromind-pro", Payload := helloPayload }
        = .ok body ∧
      bodyMessages readQuoted body = some (.list [{ role := "user", content := "Hello" }]) := by
  refine ⟨by decide, by decide, by decide, by decide, ?_⟩
  obtain ⟨body, h1, h2⟩ := build_body_messages sampleJson
    { Model := "miromind-pro", Payload := helloPayload } [jsonResult helloMsg]
    (by decide) (by decide) (by decide) (by decide)
  exact ⟨body, h1, ((h2 readQuoted (fun _ _ t => readQuoted_sampleJson _ t)
    (fun _ _ t => readQuoted_sampleJson _ t)).1 (by decide)).1.trans (by decide)⟩

end MiroMind
